import Mathlib

/-
  Verification development for the assistant synchronization engine
  (scripts/sync/process_assistants.py).

  The embedding models YAML/JSON data as the inductive type Val, records
  (Python dicts of str keys) as association lists, and the manager's
  methods compute_assistant_hash, detect_changes and sync_to_cloudflare
  as pure functions.  Network I/O is abstracted by oracle parameters
  (post, LoadResult, FetchResult) and the wall clock by a string `now`.
-/

/-- A JSON/YAML scalar or array value, as stored in a record field.
Nested mappings are not modelled; the records themselves are the only
mapping layer the synchronization code manipulates. -/
inductive Val where
  | vNull : Val
  | vBool (b : Bool) : Val
  | vInt (n : Int) : Val
  | vStr (s : String) : Val
  | vList (xs : List Val) : Val

mutual

def Val.beq : Val → Val → Bool
  | .vNull, .vNull => true
  | .vBool a, .vBool b => a = b
  | .vInt a, .vInt b => a = b
  | .vStr a, .vStr b => a = b
  | .vList a, .vList b => Val.beqList a b
  | _, _ => false

def Val.beqList : List Val → List Val → Bool
  | [], [] => true
  | a :: as, b :: bs => Val.beq a b && Val.beqList as bs
  | _, _ => false

end

mutual

theorem Val.beq_iff : ∀ a b : Val, Val.beq a b = true ↔ a = b
  | .vNull, .vNull => by simp [Val.beq]
  | .vBool a, .vBool b => by simp [Val.beq]
  | .vInt a, .vInt b => by simp [Val.beq]
  | .vStr a, .vStr b => by simp [Val.beq]
  | .vList a, .vList b => by
      simp [Val.beq, Val.beqList_iff a b]
  | .vNull, .vBool _ => by simp [Val.beq]
  | .vNull, .vInt _ => by simp [Val.beq]
  | .vNull, .vStr _ => by simp [Val.beq]
  | .vNull, .vList _ => by simp [Val.beq]
  | .vBool _, .vNull => by simp [Val.beq]
  | .vBool _, .vInt _ => by simp [Val.beq]
  | .vBool _, .vStr _ => by simp [Val.beq]
  | .vBool _, .vList _ => by simp [Val.beq]
  | .vInt _, .vNull => by simp [Val.beq]
  | .vInt _, .vBool _ => by simp [Val.beq]
  | .vInt _, .vStr _ => by simp [Val.beq]
  | .vInt _, .vList _ => by simp [Val.beq]
  | .vStr _, .vNull => by simp [Val.beq]
  | .vStr _, .vBool _ => by simp [Val.beq]
  | .vStr _, .vInt _ => by simp [Val.beq]
  | .vStr _, .vList _ => by simp [Val.beq]
  | .vList _, .vNull => by simp [Val.beq]
  | .vList _, .vBool _ => by simp [Val.beq]
  | .vList _, .vInt _ => by simp [Val.beq]
  | .vList _, .vStr _ => by simp [Val.beq]

theorem Val.beqList_iff : ∀ as bs : List Val, Val.beqList as bs = true ↔ as = bs
  | [], [] => by simp [Val.beqList]
  | a :: as, b :: bs => by
      simp [Val.beqList, Val.beq_iff a b, Val.beqList_iff as bs]
  | [], _ :: _ => by simp [Val.beqList]
  | _ :: _, [] => by simp [Val.beqList]

end

instance : DecidableEq Val := fun a b => decidable_of_iff _ (Val.beq_iff a b)

/-- A record (Python dict with string keys) as an association list; the
list order is the dict's insertion order. -/
abbrev Record := List (String × Val)

/-- Dictionary lookup: `r.get(k)` without a default returns None when
absent; here, the first binding of `k`, if any. -/
def rget (r : Record) (k : String) : Option Val :=
  (r.find? (fun p => decide (p.1 = k))).map Prod.snd

/-- Python `r.get(k, dflt)`. -/
def pyGet (r : Record) (k : String) (dflt : Val) : Val :=
  (rget r k).getD dflt

/-- Python truthiness of a value. -/
def truthy : Val → Bool
  | .vNull => false
  | .vBool b => b
  | .vInt n => decide (n ≠ 0)
  | .vStr s => decide (s ≠ "")
  | .vList xs => decide (xs ≠ [])

/-- `assistant.get('name') or assistant.get('id')` guarded by `if key:`
in detect_changes: the identity key is the name when truthy, else the id
when truthy, else underivable. -/
def identityKey (r : Record) : Option Val :=
  let n := pyGet r "name" Val.vNull
  if truthy n then some n
  else
    let i := pyGet r "id" Val.vNull
    if truthy i then some i else none

/-- `assistant.get('isActive', True) and not assistant.get('dateDeleted')`:
the liveness filter applied to current assistants in detect_changes. -/
def isLive (r : Record) : Bool :=
  truthy (pyGet r "isActive" (Val.vBool true)) && ! truthy (pyGet r "dateDeleted" Val.vNull)

/-! ### JSON serialization (json.dumps with sort_keys=True)

compute_assistant_hash serializes the normalized mapping with
`json.dumps(normalized, sort_keys=True)`, whose default separators are
a comma-space between items and a colon-space after keys. -/

def digitChar : Nat → Char
  | 0 => '0'
  | 1 => '1'
  | 2 => '2'
  | 3 => '3'
  | 4 => '4'
  | 5 => '5'
  | 6 => '6'
  | 7 => '7'
  | 8 => '8'
  | 9 => '9'
  | _ => '?'

def natCharsAux : Nat → Nat → List Char
  | 0, _ => []
  | fuel+1, n => if n = 0 then [] else natCharsAux fuel (n / 10) ++ [digitChar (n % 10)]

/-- Decimal representation of a natural number. -/
def natChars (n : Nat) : List Char :=
  if n = 0 then ['0'] else natCharsAux n n

/-- Decimal representation of an integer, as json.dumps prints it. -/
def intChars : Int → List Char
  | Int.ofNat n => natChars n
  | Int.negSucc n => '-' :: natChars (n + 1)

/-- JSON string escaping for the quote and backslash characters (ASCII
control characters, which never occur in the fields being hashed, are
not modelled). -/
def escChar (c : Char) : List Char :=
  if c = '"' then ['\\', '"'] else if c = '\\' then ['\\', '\\'] else [c]

def escChars : List Char → List Char
  | [] => []
  | c :: cs => escChar c ++ escChars cs

mutual

/-- json.dumps of a single value. -/
def dumpsVal : Val → List Char
  | .vNull => ['n', 'u', 'l', 'l']
  | .vBool true => ['t', 'r', 'u', 'e']
  | .vBool false => ['f', 'a', 'l', 's', 'e']
  | .vInt i => intChars i
  | .vStr s => '"' :: (escChars s.data ++ ['"'])
  | .vList xs => '[' :: (dumpsElems xs ++ [']'])

/-- The comma-space separated serializations of a JSON array's elements. -/
def dumpsElems : List Val → List Char
  | [] => []
  | [x] => dumpsVal x
  | x :: y :: rest => dumpsVal x ++ (',' :: ' ' :: dumpsElems (y :: rest))

end

/-- The six key fields used for change detection, in source order. -/
def keyFields : List String :=
  ["name", "description", "url", "category", "tags", "author"]

/-- The six key fields in lexicographic order: `sort_keys=True` emits the
normalized mapping's keys in this order. -/
def sortedKeyFields : List String :=
  ["author", "category", "description", "name", "tags", "url"]

/-- The normalized comparison mapping of compute_assistant_hash:
each key field present on the record, paired with its value, listed in
the sorted key order in which json.dumps emits it. -/
def normalizedPairs (r : Record) : List (String × Val) :=
  sortedKeyFields.filterMap (fun k => (rget r k).map (fun v => (k, v)))

/-- One `"key": value` item of a serialized JSON object. -/
def dumpsPair (p : String × Val) : List Char :=
  '"' :: (escChars p.1.data ++ ('"' :: ':' :: ' ' :: dumpsVal p.2))

def dumpsPairs : List (String × Val) → List Char
  | [] => []
  | [p] => dumpsPair p
  | p :: q :: rest => dumpsPair p ++ (',' :: ' ' :: dumpsPairs (q :: rest))

/-- compute_assistant_hash: the stable JSON string of the normalized
mapping over the six key fields. -/
def compute_assistant_hash (r : Record) : String :=
  String.mk ('\x7b' :: (dumpsPairs (normalizedPairs r) ++ ['\x7d']))

/-! ### The key-to-record maps of detect_changes -/

/-- A Python dict keyed by identity keys, in insertion order. -/
abbrev AssocMap := List (Val × Record)

def mapHasKey (m : AssocMap) (k : Val) : Bool :=
  m.any (fun p => decide (p.1 = k))

/-- `d[k] = v` on a Python dict: replaces the value in place when the key
exists, else appends the binding. -/
def dictInsert (m : AssocMap) (k : Val) (v : Record) : AssocMap :=
  if mapHasKey m k then m.map (fun p => if p.1 = k then (k, v) else p)
  else m ++ [(k, v)]

def lookupMap (m : AssocMap) (k : Val) : Option Record :=
  (m.find? (fun p => decide (p.1 = k))).map Prod.snd

/-- The yaml_map loop: keyed by identity key, keyless records skipped. -/
def buildYamlMap (ds : List Record) : AssocMap :=
  ds.foldl
    (fun m a => match identityKey a with
      | some k => dictInsert m k a
      | none => m)
    []

/-- The current_map loop: only live records are considered, keyed by
identity key, keyless records skipped. -/
def buildCurrentMap (cs : List Record) : AssocMap :=
  cs.foldl
    (fun m a =>
      if isLive a then
        match identityKey a with
        | some k => dictInsert m k a
        | none => m
      else m)
    []

/-- The diff result of detect_changes; an updated entry carries the old
(current) and new (declared) record. -/
structure Changes where
  new : List Record
  updated : List (Record × Record)
  deleted : List Record
  unchanged : List Record
deriving DecidableEq

/-- The main classification loop of detect_changes over yaml_map's items:
absent key is new; present with different hashes is updated; present with
equal hashes is unchanged. -/
def classify (cmap : AssocMap) :
    List (Val × Record) → List Record × List (Record × Record) × List Record
  | [] => ([], [], [])
  | (k, ya) :: rest =>
    let r := classify cmap rest
    match lookupMap cmap k with
    | none => (ya :: r.1, r.2.1, r.2.2)
    | some cur =>
      if compute_assistant_hash ya ≠ compute_assistant_hash cur then
        (r.1, (cur, ya) :: r.2.1, r.2.2)
      else
        (r.1, r.2.1, ya :: r.2.2)

/-- The deletion loop of detect_changes over current_map's items. -/
def selectDeleted (ymap : AssocMap) : AssocMap → List Record
  | [] => []
  | (k, c) :: rest =>
    if mapHasKey ymap k then selectDeleted ymap rest
    else c :: selectDeleted ymap rest

/-- detect_changes: diff the declared (yaml) records against the live
subset of the current records. -/
def detect_changes (yaml current : List Record) : Changes :=
  let ymap := buildYamlMap yaml
  let cmap := buildCurrentMap current
  let t := classify cmap ymap
  Changes.mk t.1 t.2.1 (selectDeleted ymap cmap) t.2.2

/-! ### Operation planning (the first half of sync_to_cloudflare) -/

/-- Python dict update `d[k] = v` on a record. -/
def setKey (r : Record) (k : String) (v : Val) : Record :=
  if r.any (fun p => decide (p.1 = k)) then
    r.map (fun p => if p.1 = k then (k, v) else p)
  else r ++ [(k, v)]

/-- The record literal splat, as in a Python dict display with overrides:
the base record with each override bound in turn. -/
def mergeRecord (r : Record) (upds : List (String × Val)) : Record :=
  upds.foldl (fun acc p => setKey acc p.1 p.2) r

inductive OpAction where
  | insert : OpAction
  | update : OpAction
deriving DecidableEq

/-- One batch operation: inserts carry no target id, updates target
`old.get('id')` (null when the old record has no id). -/
structure Operation where
  action : OpAction
  opId : Option Val
  data : Record
deriving DecidableEq

/-- `old.get('version', 0)` restricted to integer-or-absent versions. -/
def pyIntDefault (r : Record) (k : String) (d : Int) : Int :=
  match rget r k with
  | some (Val.vInt n) => n
  | _ => d

def newInsertData (a : Record) (now : String) : Record :=
  mergeRecord a
    [("isActive", Val.vBool true), ("dateAdded", Val.vStr now), ("version", Val.vInt 1)]

def deactData (now : String) : List (String × Val) :=
  [("isActive", Val.vBool false), ("dateDeactivated", Val.vStr now)]

def succInsertData (old nw : Record) (now : String) : Record :=
  mergeRecord nw
    [("isActive", Val.vBool true), ("dateAdded", Val.vStr now),
     ("version", Val.vInt (pyIntDefault old "version" 0 + 1)),
     ("previousVersion", pyGet old "id" Val.vNull)]

def deleteData (now : String) : List (String × Val) :=
  [("dateDeleted", Val.vStr now), ("isActive", Val.vBool false)]

def newOps (now : String) : List Record → List Operation
  | [] => []
  | a :: rest => Operation.mk OpAction.insert none (newInsertData a now) :: newOps now rest

def updatedOps (now : String) : List (Record × Record) → List Operation
  | [] => []
  | p :: rest =>
    Operation.mk OpAction.update (some (pyGet p.1 "id" Val.vNull)) (deactData now)
    :: Operation.mk OpAction.insert none (succInsertData p.1 p.2 now)
    :: updatedOps now rest

def deletedOps (now : String) : List Record → List Operation
  | [] => []
  | a :: rest =>
    Operation.mk OpAction.update (some (pyGet a "id" Val.vNull)) (deleteData now)
    :: deletedOps now rest

/-- The operations list built by sync_to_cloudflare: inserts for new
records, then a deactivating update and a successor insert per updated
pair, then a soft-deleting update per deleted record. -/
def planOperations (ch : Changes) (now : String) : List Operation :=
  newOps now ch.new ++ updatedOps now ch.updated ++ deletedOps now ch.deleted

/-! ### Batch submission (the second half of sync_to_cloudflare) -/

/-- The write-endpoint request body. -/
structure Payload where
  operations : List Operation
  source : String
  timestamp : String
deriving DecidableEq

/-- The observable outcome of sync_to_cloudflare: the returned boolean,
the requests issued to the remote store, and the recovery artifact
(failed_sync_operations.json) when written. -/
structure SyncResult where
  success : Bool
  requests : List Payload
  artifact : Option Payload
deriving DecidableEq

/-- sync_to_cloudflare: empty plans succeed without a request; otherwise
the batch is posted once, and on transport failure the payload is spilled
to the recovery artifact and failure is returned. -/
def sync_to_cloudflare (ch : Changes) (now : String) (post : Payload → Bool) : SyncResult :=
  let ops := planOperations ch now
  if ops.isEmpty then SyncResult.mk true [] none
  else
    let payload := Payload.mk ops "awesome-assistants-sync" now
    if post payload then SyncResult.mk true [payload] none
    else SyncResult.mk false [payload] (some payload)

/-- Modelled from the spec: the remote store's application of a mutation
batch, which is implemented by the Cloudflare Worker and not present
under the scripts directory.  An insert appends its data as a new
record; an update merges its data into the records whose id equals the
target id. -/
def applyOperation (store : List Record) (op : Operation) : List Record :=
  match op.action, op.opId with
  | OpAction.insert, _ => store ++ [op.data]
  | OpAction.update, some t =>
      store.map (fun r => if pyGet r "id" Val.vNull = t then mergeRecord r op.data else r)
  | OpAction.update, none => store

/-- Modelled from the spec: a batch is applied one operation at a time,
in order. -/
def applyOperations (store : List Record) (ops : List Operation) : List Record :=
  ops.foldl applyOperation store

/-! ### The end-to-end run (run_sync and main) -/

/-- Outcome of loading the declared YAML file: a record list, or an
exception (missing key, malformed YAML, ...) which run_sync catches. -/
inductive LoadResult where
  | ok (assistants : List Record) : LoadResult
  | err : LoadResult
deriving DecidableEq

/-- Outcome of fetching current assistants: a record list, or a request
failure which fetch_current_assistants converts to the empty list. -/
inductive FetchResult where
  | ok (assistants : List Record) : FetchResult
  | unavailable : FetchResult
deriving DecidableEq

def fetchedAssistants : FetchResult → List Record
  | FetchResult.ok cs => cs
  | FetchResult.unavailable => []

/-- run_sync: load, fetch (unavailability degrading to the empty
collection), detect changes, sync; any load exception is caught and
reported as failure. -/
def run_sync (load : LoadResult) (fetch : FetchResult) (post : Payload → Bool)
    (now : String) : SyncResult :=
  match load with
  | LoadResult.err => SyncResult.mk false [] none
  | LoadResult.ok yamlAssistants =>
      sync_to_cloudflare (detect_changes yamlAssistants (fetchedAssistants fetch)) now post

/-- What a whole process run exposes: the exit status, the requests
issued to the remote store, and the recovery artifact if written. -/
structure RunOutcome where
  exitCode : Nat
  requests : List Payload
  artifact : Option Payload
deriving DecidableEq

/-- main: exit 1 when the declared file does not exist, else exit 0
exactly when run_sync succeeds. -/
def mainRun (fileExists : Bool) (load : LoadResult) (fetch : FetchResult)
    (post : Payload → Bool) (now : String) : RunOutcome :=
  if fileExists then
    let r := run_sync load fetch post now
    RunOutcome.mk (if r.success then 0 else 1) r.requests r.artifact
  else RunOutcome.mk 1 [] none

/-! ## Lemmas about record field lookup and update -/

theorem rget_nil (k : String) : rget ([] : Record) k = none := rfl

theorem rget_cons (p : String × Val) (r : Record) (k : String) :
    rget (p :: r) k = if p.1 = k then some p.2 else rget r k := by
  by_cases h : p.1 = k <;> simp [rget, List.find?, h]

theorem rget_map_set (r : Record) (k : String) (v : Val) (k2 : String) :
    rget (r.map (fun p => if p.1 = k then (k, v) else p)) k2 =
      if k2 = k then (rget r k).map (fun _ => v) else rget r k2 := by
  induction r with
  | nil => simp [rget]
  | cons p rest ih =>
      by_cases hpk : p.1 = k
      · by_cases hk2 : k2 = k
        · subst hk2
          simp [hpk, rget_cons, ih]
        · simp [hpk, rget_cons, ih, hk2, Ne.symm hk2]
      · by_cases hk2 : k2 = k
        · subst hk2
          simp [hpk, rget_cons, ih]
        · by_cases hp2 : p.1 = k2
          · simp [hpk, rget_cons, ih, hk2, hp2]
          · simp [hpk, rget_cons, ih, hk2, hp2]

theorem any_key_iff (r : Record) (k : String) :
    r.any (fun p => decide (p.1 = k)) = true ↔ ∃ v, rget r k = some v := by
  induction r with
  | nil => simp [rget]
  | cons p rest ih =>
      by_cases hp : p.1 = k
      · simp [List.any_cons, hp, rget_cons]
      · simp [List.any_cons, hp, rget_cons, ih]

theorem rget_append_one (r : Record) (k : String) (v : Val) (k2 : String) :
    rget (r ++ [(k, v)]) k2 =
      match rget r k2 with
      | some w => some w
      | none => if k = k2 then some v else none := by
  induction r with
  | nil => simp [rget_cons, rget_nil]
  | cons p rest ih =>
      by_cases hp : p.1 = k2
      · rw [List.cons_append, rget_cons, if_pos hp, rget_cons, if_pos hp]
      · rw [List.cons_append, rget_cons, if_neg hp, rget_cons, if_neg hp, ih]

theorem rget_setKey (r : Record) (k : String) (v : Val) (k2 : String) :
    rget (setKey r k v) k2 = if k2 = k then some v else rget r k2 := by
  unfold setKey
  by_cases hany : r.any (fun p => decide (p.1 = k)) = true
  · obtain ⟨w, hw⟩ := (any_key_iff r k).mp hany
    simp [hany, rget_map_set, hw]
  · have hnone : rget r k = none := by
      cases hr : rget r k with
      | none => rfl
      | some w => exact absurd ((any_key_iff r k).mpr ⟨w, hr⟩) hany
    rw [if_neg hany, rget_append_one]
    by_cases hk2 : k2 = k
    · rw [hk2, hnone]
    · rw [if_neg hk2]
      cases hr2 : rget r k2 with
      | none =>
          have hne : ¬ k = k2 := fun h => hk2 h.symm
          simp [hne]
      | some w => rfl

/-- The value the update list binds to a key, later bindings winning. -/
def overrideVal : List (String × Val) → String → Option Val
  | [], _ => none
  | u :: rest, k =>
    match overrideVal rest k with
    | some v => some v
    | none => if u.1 = k then some u.2 else none

theorem rget_mergeRecord (r : Record) (upds : List (String × Val)) (k : String) :
    rget (mergeRecord r upds) k =
      match overrideVal upds k with
      | some v => some v
      | none => rget r k := by
  induction upds generalizing r with
  | nil => simp [mergeRecord, overrideVal]
  | cons u rest ih =>
      have hstep : mergeRecord r (u :: rest) = mergeRecord (setKey r u.1 u.2) rest := rfl
      rw [hstep, ih (setKey r u.1 u.2), rget_setKey]
      cases hov : overrideVal rest k with
      | some v => simp [overrideVal, hov]
      | none =>
          by_cases hu : u.1 = k
          · simp [overrideVal, hov, hu]
          · have : ¬ k = u.1 := fun hh => hu hh.symm
            simp [overrideVal, hov, hu, this]

/-! ## Lemmas about the planned operation sequence -/

theorem newOps_length (now : String) (L : List Record) :
    (newOps now L).length = L.length := by
  induction L with
  | nil => rfl
  | cons a rest ih => simp [newOps, ih]

theorem updatedOps_length (now : String) (L : List (Record × Record)) :
    (updatedOps now L).length = 2 * L.length := by
  induction L with
  | nil => rfl
  | cons p rest ih => simp [updatedOps, ih]; omega

theorem updatedOps_get (now : String) (L : List (Record × Record)) (i : Nat)
    (old nw : Record) (h : L[i]? = some (old, nw)) :
    (updatedOps now L)[2 * i]? =
      some (Operation.mk OpAction.update (some (pyGet old "id" Val.vNull)) (deactData now)) ∧
    (updatedOps now L)[2 * i + 1]? =
      some (Operation.mk OpAction.insert none (succInsertData old nw now)) := by
  induction L generalizing i with
  | nil => simp at h
  | cons p rest ih =>
      cases i with
      | zero =>
          simp at h
          rw [show p = (old, nw) from by cases p; simp_all]
          simp [updatedOps]
      | succ n =>
          have h2 : rest[n]? = some (old, nw) := by simpa using h
          have hrec := ih n h2
          have e1 : 2 * (n + 1) = (2 * n) + 1 + 1 := by omega
          rw [e1]
          simpa [updatedOps] using hrec

theorem planOperations_updated_get (ch : Changes) (now : String) (i : Nat)
    (old nw : Record) (h : ch.updated[i]? = some (old, nw)) :
    (planOperations ch now)[ch.new.length + 2 * i]? =
      some (Operation.mk OpAction.update (some (pyGet old "id" Val.vNull)) (deactData now)) ∧
    (planOperations ch now)[ch.new.length + 2 * i + 1]? =
      some (Operation.mk OpAction.insert none (succInsertData old nw now)) := by
  have hrec := updatedOps_get now ch.updated i old nw h
  have hlen : (newOps now ch.new).length = ch.new.length := newOps_length now ch.new
  have hi : i < ch.updated.length := by
    cases hlt : decide (i < ch.updated.length) with
    | true => exact of_decide_eq_true hlt
    | false =>
        have : ch.updated[i]? = none := by
          apply List.getElem?_eq_none
          have := of_decide_eq_false hlt
          omega
        rw [this] at h
        cases h
  have hulen : (updatedOps now ch.updated).length = 2 * ch.updated.length :=
    updatedOps_length now ch.updated
  constructor
  · rw [planOperations, List.append_assoc, List.getElem?_append_right (by omega)]
    rw [show ch.new.length + 2 * i - (newOps now ch.new).length = 2 * i from by omega]
    rw [List.getElem?_append, if_pos (by omega)]
    exact hrec.1
  · rw [planOperations, List.append_assoc, List.getElem?_append_right (by omega)]
    rw [show ch.new.length + 2 * i + 1 - (newOps now ch.new).length = 2 * i + 1 from by omega]
    rw [List.getElem?_append, if_pos (by omega)]
    exact hrec.2

theorem rget_deactData (now : String) :
    rget (deactData now) "isActive" = some (Val.vBool false) ∧
    rget (deactData now) "dateDeactivated" = some (Val.vStr now) := by
  constructor <;> rfl

theorem rget_succInsertData_overrides (old nw : Record) (now : String) :
    rget (succInsertData old nw now) "isActive" = some (Val.vBool true) ∧
    rget (succInsertData old nw now) "dateAdded" = some (Val.vStr now) ∧
    rget (succInsertData old nw now) "version" =
      some (Val.vInt (pyIntDefault old "version" 0 + 1)) ∧
    rget (succInsertData old nw now) "previousVersion" =
      some (pyGet old "id" Val.vNull) := by
  refine ⟨?_, ?_, ?_, ?_⟩ <;>
    (rw [succInsertData, rget_mergeRecord]; simp [overrideVal])

theorem rget_succInsertData_carried (old nw : Record) (now : String) (k : String)
    (h1 : k ≠ "isActive") (h2 : k ≠ "dateAdded") (h3 : k ≠ "version")
    (h4 : k ≠ "previousVersion") :
    rget (succInsertData old nw now) k = rget nw k := by
  rw [succInsertData, rget_mergeRecord]
  have e1 : ¬ "isActive" = k := fun hh => h1 hh.symm
  have e2 : ¬ "dateAdded" = k := fun hh => h2 hh.symm
  have e3 : ¬ "version" = k := fun hh => h3 hh.symm
  have e4 : ¬ "previousVersion" = k := fun hh => h4 hh.symm
  have hov : overrideVal
      [("isActive", Val.vBool true), ("dateAdded", Val.vStr now),
       ("version", Val.vInt (pyIntDefault old "version" 0 + 1)),
       ("previousVersion", pyGet old "id" Val.vNull)] k = none := by
    simp [overrideVal, e1, e2, e3, e4]
  rw [hov]

/-! ## Claim C3: the deactivate-then-insert pair for updated records -/

/-- C3: for every Updated pair (old, new) in the diff result whose old record
carries an integer version field, the planned sequence contains an update
targeting old's id with isActive false and dateDeactivated set, immediately
followed by an insert carrying every field of new apart from the four
overridden bookkeeping fields, with isActive true, dateAdded set, version
old.version + 1 and previousVersion old's id; the update precedes its insert. -/
theorem updated_pair_plan (ch : Changes) (now : String) (i : Nat) (old nw : Record)
    (n : Int) (h : ch.updated[i]? = some (old, nw))
    (hv : rget old "version" = some (Val.vInt n)) :
    ∃ j upd ins,
      (planOperations ch now)[j]? = some upd ∧
      (planOperations ch now)[j + 1]? = some ins ∧
      upd.action = OpAction.update ∧
      upd.opId = some (pyGet old "id" Val.vNull) ∧
      rget upd.data "isActive" = some (Val.vBool false) ∧
      rget upd.data "dateDeactivated" = some (Val.vStr now) ∧
      ins.action = OpAction.insert ∧
      rget ins.data "isActive" = some (Val.vBool true) ∧
      rget ins.data "dateAdded" = some (Val.vStr now) ∧
      rget ins.data "version" = some (Val.vInt (n + 1)) ∧
      rget ins.data "previousVersion" = some (pyGet old "id" Val.vNull) ∧
      (∀ k : String, k ≠ "isActive" → k ≠ "dateAdded" → k ≠ "version" →
        k ≠ "previousVersion" → rget ins.data k = rget nw k) := by
  obtain ⟨hg1, hg2⟩ := planOperations_updated_get ch now i old nw h
  refine ⟨ch.new.length + 2 * i, _, _, hg1, hg2, rfl, rfl, (rget_deactData now).1,
    (rget_deactData now).2, rfl, (rget_succInsertData_overrides old nw now).1,
    (rget_succInsertData_overrides old nw now).2.1, ?_,
    (rget_succInsertData_overrides old nw now).2.2.2, ?_⟩
  · rw [(rget_succInsertData_overrides old nw now).2.2.1]
    simp [pyIntDefault, hv]
  · intro k k1 k2 k3 k4
    exact rget_succInsertData_carried old nw now k k1 k2 k3 k4

theorem updated_pair_plan_witness :
    ∃ j upd ins,
      (planOperations (Changes.mk []
          [([("name", Val.vStr "A"), ("id", Val.vInt 7), ("version", Val.vInt 1),
             ("isActive", Val.vBool true)],
            [("name", Val.vStr "A"), ("url", Val.vStr "u2")])] [] []) "T")[j]? = some upd ∧
      (planOperations (Changes.mk []
          [([("name", Val.vStr "A"), ("id", Val.vInt 7), ("version", Val.vInt 1),
             ("isActive", Val.vBool true)],
            [("name", Val.vStr "A"), ("url", Val.vStr "u2")])] [] []) "T")[j + 1]? = some ins ∧
      upd.action = OpAction.update ∧ ins.action = OpAction.insert ∧
      rget ins.data "version" = some (Val.vInt 2) := by
  obtain ⟨j, upd, ins, hj, hj1, ha, _, _, _, hb, _, _, hver, _, _⟩ :=
    updated_pair_plan (Changes.mk []
      [([("name", Val.vStr "A"), ("id", Val.vInt 7), ("version", Val.vInt 1),
         ("isActive", Val.vBool true)],
        [("name", Val.vStr "A"), ("url", Val.vStr "u2")])] [] []) "T" 0
      [("name", Val.vStr "A"), ("id", Val.vInt 7), ("version", Val.vInt 1),
       ("isActive", Val.vBool true)]
      [("name", Val.vStr "A"), ("url", Val.vStr "u2")] 1
      (by decide) (by decide)
  refine ⟨j, upd, ins, hj, hj1, ha, hb, ?_⟩
  rw [hver]
  norm_num

/-! ## Claim C5: the successor version of a version-less old record -/

/-- C5 counterexample: when the old record of an Updated pair has no version
field, the planned successor insert carries version 1, not 2 as the claim
states, because sync_to_cloudflare computes old.get('version', 0) + 1 with
default 0 rather than the documented default 1. -/
theorem version_default_counterexample :
    rget [("name", Val.vStr "A"), ("id", Val.vInt 7), ("isActive", Val.vBool true)]
      "version" = none ∧
    (planOperations (Changes.mk []
        [([("name", Val.vStr "A"), ("id", Val.vInt 7), ("isActive", Val.vBool true)],
          [("name", Val.vStr "A"), ("url", Val.vStr "u2")])] [] []) "T")[1]? =
      some (Operation.mk OpAction.insert none
        (succInsertData
          [("name", Val.vStr "A"), ("id", Val.vInt 7), ("isActive", Val.vBool true)]
          [("name", Val.vStr "A"), ("url", Val.vStr "u2")] "T")) ∧
    rget (succInsertData
        [("name", Val.vStr "A"), ("id", Val.vInt 7), ("isActive", Val.vBool true)]
        [("name", Val.vStr "A"), ("url", Val.vStr "u2")] "T") "version" =
      some (Val.vInt 1) ∧
    some (Val.vInt 1) ≠ some (Val.vInt 2) := by decide

/-- C5 amended: for every Updated pair whose old record carries no version
field, the planned successor insert has version 1, because the code defaults
a missing version to 0 before incrementing. -/
theorem version_default_amended (ch : Changes) (now : String) (i : Nat)
    (old nw : Record) (h : ch.updated[i]? = some (old, nw))
    (hv : rget old "version" = none) :
    ∃ j upd ins,
      (planOperations ch now)[j]? = some upd ∧
      (planOperations ch now)[j + 1]? = some ins ∧
      ins.action = OpAction.insert ∧
      rget ins.data "version" = some (Val.vInt 1) := by
  obtain ⟨hg1, hg2⟩ := planOperations_updated_get ch now i old nw h
  refine ⟨ch.new.length + 2 * i, _, _, hg1, hg2, rfl, ?_⟩
  rw [(rget_succInsertData_overrides old nw now).2.2.1]
  simp [pyIntDefault, hv]

theorem version_default_amended_witness :
    ∃ j upd ins,
      (planOperations (Changes.mk []
          [([("name", Val.vStr "A"), ("id", Val.vInt 7), ("isActive", Val.vBool true)],
            [("name", Val.vStr "A"), ("url", Val.vStr "u2")])] [] []) "T")[j]? = some upd ∧
      (planOperations (Changes.mk []
          [([("name", Val.vStr "A"), ("id", Val.vInt 7), ("isActive", Val.vBool true)],
            [("name", Val.vStr "A"), ("url", Val.vStr "u2")])] [] []) "T")[j + 1]? = some ins ∧
      ins.action = OpAction.insert ∧
      rget ins.data "version" = some (Val.vInt 1) :=
  version_default_amended (Changes.mk []
    [([("name", Val.vStr "A"), ("id", Val.vInt 7), ("isActive", Val.vBool true)],
      [("name", Val.vStr "A"), ("url", Val.vStr "u2")])] [] []) "T" 0
    [("name", Val.vStr "A"), ("id", Val.vInt 7), ("isActive", Val.vBool true)]
    [("name", Val.vStr "A"), ("url", Val.vStr "u2")]
    (by decide) (by decide)

/-! ## Claim C7: the empty plan is an immediate success -/

/-- C7: an empty diff result (no new, updated or deleted records) yields an
empty plan, and sync_to_cloudflare returns success immediately, issuing no
request to the remote store and writing no recovery artifact; a failing
submission, by contrast, returns failure. -/
theorem empty_plan_noop (ch : Changes) (now : String) (post : Payload → Bool)
    (h1 : ch.new = []) (h2 : ch.updated = []) (h3 : ch.deleted = []) :
    sync_to_cloudflare ch now post = SyncResult.mk true [] none := by
  obtain ⟨cnew, cupd, cdel, cunch⟩ := ch
  simp only at h1 h2 h3
  cases h1
  cases h2
  cases h3
  rfl

theorem empty_plan_noop_witness :
    sync_to_cloudflare (Changes.mk [] [] [] [[("name", Val.vStr "A")]]) "T"
      (fun _ => false) = SyncResult.mk true [] none :=
  empty_plan_noop (Changes.mk [] [] [] [[("name", Val.vStr "A")]]) "T"
    (fun _ => false) rfl rfl rfl

/-! ## Claim C8: failed submissions spill the exact payload -/

/-- C8: for a non-empty plan whose batch submission fails, sync_to_cloudflare
writes the exact submitted payload (operations, source, timestamp: the
write-endpoint request body) to the recovery artifact and returns failure. -/
theorem failed_sync_spills_payload (ch : Changes) (now : String) (post : Payload → Bool)
    (hne : planOperations ch now ≠ [])
    (hfail : post (Payload.mk (planOperations ch now) "awesome-assistants-sync" now)
      = false) :
    sync_to_cloudflare ch now post =
      SyncResult.mk false
        [Payload.mk (planOperations ch now) "awesome-assistants-sync" now]
        (some (Payload.mk (planOperations ch now) "awesome-assistants-sync" now)) := by
  have hne2 : (planOperations ch now).isEmpty = false := by
    cases hpl : planOperations ch now with
    | nil => exact absurd hpl hne
    | cons a l => rfl
  simp [sync_to_cloudflare, hne2, hfail]

theorem failed_sync_spills_payload_witness :
    sync_to_cloudflare (Changes.mk [] [] [[("id", Val.vInt 7)]] []) "T"
      (fun _ => false) =
      SyncResult.mk false
        [Payload.mk (planOperations (Changes.mk [] [] [[("id", Val.vInt 7)]] []) "T")
          "awesome-assistants-sync" "T"]
        (some (Payload.mk (planOperations (Changes.mk [] [] [[("id", Val.vInt 7)]] []) "T")
          "awesome-assistants-sync" "T")) :=
  failed_sync_spills_payload (Changes.mk [] [] [[("id", Val.vInt 7)]] []) "T"
    (fun _ => false) (by decide) rfl

/-! ## Claim C10: presence of a tracked key affects the fingerprint -/

/-- C10: the fingerprint distinguishes a tracked key bound to null from a
missing tracked key even though both lookups yield null, so such a
declared/current pair is classified Updated rather than Unchanged. -/
theorem hash_null_vs_missing :
    (∀ k ∈ keyFields,
      pyGet [("name", Val.vStr "A"), ("author", Val.vNull)] k Val.vNull =
      pyGet [("name", Val.vStr "A"), ("isActive", Val.vBool true)] k Val.vNull) ∧
    compute_assistant_hash [("name", Val.vStr "A"), ("author", Val.vNull)] ≠
      compute_assistant_hash [("name", Val.vStr "A"), ("isActive", Val.vBool true)] ∧
    (detect_changes [[("name", Val.vStr "A"), ("author", Val.vNull)]]
        [[("name", Val.vStr "A"), ("isActive", Val.vBool true)]]).updated =
      [([("name", Val.vStr "A"), ("isActive", Val.vBool true)],
        [("name", Val.vStr "A"), ("author", Val.vNull)])] ∧
    (detect_changes [[("name", Val.vStr "A"), ("author", Val.vNull)]]
        [[("name", Val.vStr "A"), ("isActive", Val.vBool true)]]).unchanged = [] := by
  decide

/-! ## Membership lemmas for the key maps and the classification -/

theorem dictInsert_mem {m : AssocMap} {k : Val} {v : Record} {p : Val × Record}
    (h : p ∈ dictInsert m k v) : p ∈ m ∨ p = (k, v) := by
  unfold dictInsert at h
  by_cases hany : mapHasKey m k = true
  · rw [if_pos hany] at h
    obtain ⟨q, hq, hqe⟩ := List.mem_map.mp h
    by_cases hqk : q.1 = k
    · right
      rw [← hqe, if_pos hqk]
    · left
      rw [← hqe, if_neg hqk]
      exact hq
  · rw [if_neg hany] at h
    rcases List.mem_append.mp h with h1 | h1
    · exact Or.inl h1
    · right
      simpa using h1

theorem buildYamlMap_inv (ds : List Record) :
    ∀ p ∈ buildYamlMap ds, identityKey p.2 = some p.1 ∧ p.2 ∈ ds := by
  suffices hgen : ∀ (m : AssocMap),
      (∀ p ∈ m, identityKey p.2 = some p.1 ∧ p.2 ∈ ds) →
      ∀ ds2 : List Record, (∀ a ∈ ds2, a ∈ ds) →
      ∀ p ∈ ds2.foldl (fun m a => match identityKey a with
          | some k => dictInsert m k a
          | none => m) m,
        identityKey p.2 = some p.1 ∧ p.2 ∈ ds by
    exact hgen [] (by simp) ds (fun a ha => ha)
  intro m hm ds2
  induction ds2 generalizing m with
  | nil =>
      intro _ p hp
      exact hm p hp
  | cons a rest ih =>
      intro hsub p hp
      simp only [List.foldl_cons] at hp
      cases hk : identityKey a with
      | none =>
          rw [hk] at hp
          exact ih m hm (fun b hb => hsub b (List.mem_cons_of_mem a hb)) p hp
      | some k =>
          rw [hk] at hp
          refine ih (dictInsert m k a) ?_ (fun b hb => hsub b (List.mem_cons_of_mem a hb)) p hp
          intro q hq
          rcases dictInsert_mem hq with h1 | h1
          · exact hm q h1
          · rw [h1]
            exact ⟨hk, hsub a (List.mem_cons_self a rest)⟩

theorem buildCurrentMap_inv (cs : List Record) :
    ∀ p ∈ buildCurrentMap cs,
      identityKey p.2 = some p.1 ∧ isLive p.2 = true ∧ p.2 ∈ cs := by
  suffices hgen : ∀ (m : AssocMap),
      (∀ p ∈ m, identityKey p.2 = some p.1 ∧ isLive p.2 = true ∧ p.2 ∈ cs) →
      ∀ cs2 : List Record, (∀ a ∈ cs2, a ∈ cs) →
      ∀ p ∈ cs2.foldl (fun m a =>
          if isLive a then
            match identityKey a with
            | some k => dictInsert m k a
            | none => m
          else m) m,
        identityKey p.2 = some p.1 ∧ isLive p.2 = true ∧ p.2 ∈ cs by
    exact hgen [] (by simp) cs (fun a ha => ha)
  intro m hm cs2
  induction cs2 generalizing m with
  | nil =>
      intro _ p hp
      exact hm p hp
  | cons a rest ih =>
      intro hsub p hp
      simp only [List.foldl_cons] at hp
      by_cases hlive : isLive a = true
      · rw [if_pos hlive] at hp
        cases hk : identityKey a with
        | none =>
            rw [hk] at hp
            exact ih m hm (fun b hb => hsub b (List.mem_cons_of_mem a hb)) p hp
        | some k =>
            rw [hk] at hp
            refine ih (dictInsert m k a) ?_ (fun b hb => hsub b (List.mem_cons_of_mem a hb)) p hp
            intro q hq
            rcases dictInsert_mem hq with h1 | h1
            · exact hm q h1
            · rw [h1]
              exact ⟨hk, hlive, hsub a (List.mem_cons_self a rest)⟩
      · rw [if_neg hlive] at hp
        exact ih m hm (fun b hb => hsub b (List.mem_cons_of_mem a hb)) p hp

theorem lookupMap_mem {m : AssocMap} {k : Val} {v : Record}
    (h : lookupMap m k = some v) : (k, v) ∈ m := by
  unfold lookupMap at h
  cases hf : m.find? (fun p => decide (p.1 = k)) with
  | none => rw [hf] at h; cases h
  | some q =>
      rw [hf] at h
      have hq := List.mem_of_find?_eq_some hf
      have hk := List.find?_some hf
      obtain ⟨q1, q2⟩ := q
      simp at hk h
      rw [← hk, ← h]
      exact hq

theorem classify_new_mem {cmap : AssocMap} {L : List (Val × Record)} {a : Record}
    (h : a ∈ (classify cmap L).1) : ∃ k, (k, a) ∈ L := by
  induction L with
  | nil => simp [classify] at h
  | cons p rest ih =>
      obtain ⟨k0, ya⟩ := p
      cases hl : lookupMap cmap k0 with
      | none =>
          simp only [classify, hl] at h
          rcases List.mem_cons.mp h with h1 | h1
          · exact ⟨k0, by rw [h1]; exact List.mem_cons_self _ _⟩
          · obtain ⟨k, hk⟩ := ih h1
            exact ⟨k, List.mem_cons_of_mem _ hk⟩
      | some cur =>
          by_cases hh : compute_assistant_hash ya ≠ compute_assistant_hash cur
          · simp only [classify, hl, if_pos hh] at h
            obtain ⟨k, hk⟩ := ih h
            exact ⟨k, List.mem_cons_of_mem _ hk⟩
          · simp only [classify, hl, if_neg hh] at h
            obtain ⟨k, hk⟩ := ih h
            exact ⟨k, List.mem_cons_of_mem _ hk⟩

theorem classify_updated_mem {cmap : AssocMap} {L : List (Val × Record)}
    {c a : Record} (h : (c, a) ∈ (classify cmap L).2.1) :
    ∃ k, (k, a) ∈ L ∧ lookupMap cmap k = some c := by
  induction L with
  | nil => simp [classify] at h
  | cons p rest ih =>
      obtain ⟨k0, ya⟩ := p
      cases hl : lookupMap cmap k0 with
      | none =>
          simp only [classify, hl] at h
          obtain ⟨k, hk1, hk2⟩ := ih h
          exact ⟨k, List.mem_cons_of_mem _ hk1, hk2⟩
      | some cur =>
          by_cases hh : compute_assistant_hash ya ≠ compute_assistant_hash cur
          · simp only [classify, hl, if_pos hh] at h
            rcases List.mem_cons.mp h with h1 | h1
            · obtain ⟨he1, he2⟩ := Prod.mk.injEq .. ▸ h1
              exact ⟨k0, by rw [he2]; exact List.mem_cons_self _ _, by rw [he1]; exact hl⟩
            · obtain ⟨k, hk1, hk2⟩ := ih h1
              exact ⟨k, List.mem_cons_of_mem _ hk1, hk2⟩
          · simp only [classify, hl, if_neg hh] at h
            obtain ⟨k, hk1, hk2⟩ := ih h
            exact ⟨k, List.mem_cons_of_mem _ hk1, hk2⟩

theorem classify_unchanged_mem {cmap : AssocMap} {L : List (Val × Record)} {a : Record}
    (h : a ∈ (classify cmap L).2.2) : ∃ k, (k, a) ∈ L := by
  induction L with
  | nil => simp [classify] at h
  | cons p rest ih =>
      obtain ⟨k0, ya⟩ := p
      cases hl : lookupMap cmap k0 with
      | none =>
          simp only [classify, hl] at h
          obtain ⟨k, hk⟩ := ih h
          exact ⟨k, List.mem_cons_of_mem _ hk⟩
      | some cur =>
          by_cases hh : compute_assistant_hash ya ≠ compute_assistant_hash cur
          · simp only [classify, hl, if_pos hh] at h
            obtain ⟨k, hk⟩ := ih h
            exact ⟨k, List.mem_cons_of_mem _ hk⟩
          · simp only [classify, hl, if_neg hh] at h
            rcases List.mem_cons.mp h with h1 | h1
            · exact ⟨k0, by rw [h1]; exact List.mem_cons_self _ _⟩
            · obtain ⟨k, hk⟩ := ih h1
              exact ⟨k, List.mem_cons_of_mem _ hk⟩

theorem selectDeleted_mem {ymap M : AssocMap} {c : Record}
    (h : c ∈ selectDeleted ymap M) : ∃ k, (k, c) ∈ M := by
  induction M with
  | nil => simp [selectDeleted] at h
  | cons p rest ih =>
      obtain ⟨k0, c0⟩ := p
      by_cases hy : mapHasKey ymap k0 = true
      · simp only [selectDeleted, if_pos hy] at h
        obtain ⟨k, hk⟩ := ih h
        exact ⟨k, List.mem_cons_of_mem _ hk⟩
      · simp only [selectDeleted, if_neg hy] at h
        rcases List.mem_cons.mp h with h1 | h1
        · exact ⟨k0, by rw [h1]; exact List.mem_cons_self _ _⟩
        · obtain ⟨k, hk⟩ := ih h1
          exact ⟨k, List.mem_cons_of_mem _ hk⟩

/-! ## Claim C6: records without a derivable identity key are skipped -/

/-- C6: detect_changes is total, and a record lacking a derivable identity
key (no truthy name and no truthy id) is silently skipped from both sides:
it appears in none of the four classes, neither as a declared record nor as
a current one, and in particular is never classified Deleted. -/
theorem keyless_record_skipped (yaml current : List Record) (r : Record)
    (h : identityKey r = none) :
    r ∉ (detect_changes yaml current).new ∧
    (∀ p ∈ (detect_changes yaml current).updated, p.1 ≠ r ∧ p.2 ≠ r) ∧
    r ∉ (detect_changes yaml current).deleted ∧
    r ∉ (detect_changes yaml current).unchanged := by
  have hnokey : ∀ kv : Val × Record, identityKey kv.2 = some kv.1 → kv.2 ≠ r := by
    intro kv hkv he
    rw [he, h] at hkv
    cases hkv
  refine ⟨?_, ?_, ?_, ?_⟩
  · intro hmem
    obtain ⟨k, hk⟩ := classify_new_mem hmem
    exact hnokey (k, r) ((buildYamlMap_inv yaml (k, r) hk).1) rfl
  · rintro ⟨c, a⟩ hmem
    obtain ⟨k, hk1, hk2⟩ := classify_updated_mem hmem
    constructor
    · intro he
      have hcm := lookupMap_mem hk2
      exact hnokey (k, c) ((buildCurrentMap_inv current (k, c) hcm).1) he
    · intro he
      have he2 : a = r := he
      rw [he2] at hk1
      exact hnokey (k, r) ((buildYamlMap_inv yaml (k, r) hk1).1) rfl
  · intro hmem
    obtain ⟨k, hk⟩ := selectDeleted_mem hmem
    exact hnokey (k, r) ((buildCurrentMap_inv current (k, r) hk).1) rfl
  · intro hmem
    obtain ⟨k, hk⟩ := classify_unchanged_mem hmem
    exact hnokey (k, r) ((buildYamlMap_inv yaml (k, r) hk).1) rfl

theorem keyless_record_skipped_witness :
    [("url", Val.vStr "u")] ∉
      (detect_changes [[("url", Val.vStr "u")]] [[("url", Val.vStr "u")]]).new ∧
    [("url", Val.vStr "u")] ∉
      (detect_changes [[("url", Val.vStr "u")]] [[("url", Val.vStr "u")]]).deleted := by
  have hk : identityKey [("url", Val.vStr "u")] = none := by decide
  obtain ⟨h1, _, h3, _⟩ :=
    keyless_record_skipped [[("url", Val.vStr "u")]] [[("url", Val.vStr "u")]]
      [("url", Val.vStr "u")] hk
  exact ⟨h1, h3⟩

/-! ## Claim C9: which runs exit non-zero -/

/-- C9 counterexample: a run whose declared file does not exist exits with
status 1 while issuing no request to the remote store and writing no
recovery artifact, so a non-zero exit occurs without any sync transport
failure, refuting the claim that only transport failure is non-zero. -/
theorem exit_nonzero_counterexample :
    (mainRun false (LoadResult.ok []) (FetchResult.ok []) (fun _ => true) "T").exitCode
      = 1 ∧
    (mainRun false (LoadResult.ok []) (FetchResult.ok []) (fun _ => true) "T").requests
      = [] ∧
    (mainRun false (LoadResult.ok []) (FetchResult.ok []) (fun _ => true) "T").artifact
      = none :=
  ⟨rfl, rfl, rfl⟩

/-- C9 amended: the process exits zero iff the declared file exists, loading
succeeds and the sync write did not fail (no recovery artifact written); a run
whose diff has no new, updated or deleted records is a successful no-op that
exits zero.  Besides transport failure, a missing file or a load error also
exits non-zero. -/
theorem exit_status_characterization (fileExists : Bool) (load : LoadResult)
    (fetch : FetchResult) (post : Payload → Bool) (now : String) :
    ((mainRun fileExists load fetch post now).exitCode = 0 ↔
      (fileExists = true ∧ load ≠ LoadResult.err ∧
        (mainRun fileExists load fetch post now).artifact = none)) ∧
    (∀ yaml : List Record, fileExists = true → load = LoadResult.ok yaml →
      (detect_changes yaml (fetchedAssistants fetch)).new = [] →
      (detect_changes yaml (fetchedAssistants fetch)).updated = [] →
      (detect_changes yaml (fetchedAssistants fetch)).deleted = [] →
      (mainRun fileExists load fetch post now).exitCode = 0) := by
  constructor
  · cases fileExists with
    | false => simp [mainRun]
    | true =>
        cases load with
        | err => simp [mainRun, run_sync]
        | ok yaml =>
            simp only [mainRun, run_sync, if_pos rfl]
            cases hemp : (planOperations (detect_changes yaml (fetchedAssistants fetch)) now).isEmpty with
            | true => simp [sync_to_cloudflare, hemp]
            | false =>
                cases hpost : post (Payload.mk
                    (planOperations (detect_changes yaml (fetchedAssistants fetch)) now)
                    "awesome-assistants-sync" now) with
                | true => simp [sync_to_cloudflare, hemp, hpost]
                | false => simp [sync_to_cloudflare, hemp, hpost]
  · intro yaml hf hl h1 h2 h3
    subst hf
    subst hl
    simp [mainRun, run_sync, sync_to_cloudflare, planOperations, h1, h2, h3,
      newOps, updatedOps, deletedOps]

theorem exit_status_characterization_witness :
    (mainRun true (LoadResult.ok []) (FetchResult.ok []) (fun _ => false) "T").exitCode
      = 0 :=
  (exit_status_characterization true (LoadResult.ok []) (FetchResult.ok [])
    (fun _ => false) "T").2 [] rfl rfl rfl rfl rfl

/-! ## Key sets of the maps -/

def mapKeys (m : AssocMap) : List Val := m.map Prod.fst

theorem mapHasKey_iff (m : AssocMap) (k : Val) :
    mapHasKey m k = true ↔ ∃ v, (k, v) ∈ m := by
  unfold mapHasKey
  rw [List.any_eq_true]
  constructor
  · rintro ⟨p, hp, hpk⟩
    obtain ⟨p1, p2⟩ := p
    simp at hpk
    rw [hpk] at hp
    exact ⟨p2, hp⟩
  · rintro ⟨v, hv⟩
    exact ⟨(k, v), hv, by simp⟩

theorem lookupMap_none_iff (m : AssocMap) (k : Val) :
    lookupMap m k = none ↔ mapHasKey m k = false := by
  unfold lookupMap mapHasKey
  rw [Option.map_eq_none', List.find?_eq_none, List.any_eq_false]

theorem lookupMap_isSome_iff (m : AssocMap) (k : Val) :
    (∃ v, lookupMap m k = some v) ↔ mapHasKey m k = true := by
  constructor
  · rintro ⟨v, hv⟩
    by_contra hcon
    have : mapHasKey m k = false := by
      cases hmk : mapHasKey m k with
      | true => exact absurd hmk hcon
      | false => rfl
    rw [← lookupMap_none_iff] at this
    rw [this] at hv
    cases hv
  · intro h
    cases hv : lookupMap m k with
    | some v => exact ⟨v, rfl⟩
    | none =>
        rw [lookupMap_none_iff] at hv
        rw [hv] at h
        cases h

theorem dictInsert_hasKey (m : AssocMap) (k0 : Val) (v : Record) (k : Val) :
    mapHasKey (dictInsert m k0 v) k = true ↔ mapHasKey m k = true ∨ k = k0 := by
  unfold dictInsert
  by_cases hany : mapHasKey m k0 = true
  · rw [if_pos hany]
    have hkeys : ∀ mm : AssocMap, ((mm.map (fun p => if p.1 = k0 then (k0, v) else p)).any
        (fun p => decide (p.1 = k))) = mm.any (fun p => decide (p.1 = k)) := by
      intro mm
      induction mm with
      | nil => rfl
      | cons q rest ihq =>
          by_cases hq : q.1 = k0
          · simp [List.any_cons, ihq, hq]
          · simp [List.any_cons, ihq, hq]
    show (List.any _ _ = true) ↔ _
    rw [hkeys m]
    constructor
    · intro h
      exact Or.inl h
    · rintro (h | h)
      · exact h
      · rw [h]
        exact hany
  · rw [if_neg hany]
    show (List.any _ _ = true) ↔ _
    rw [List.any_append, mapHasKey]
    simp only [List.any_cons, List.any_nil, Bool.or_false, Bool.or_eq_true,
      decide_eq_true_eq]
    constructor
    · rintro (h | h)
      · exact Or.inl h
      · exact Or.inr h.symm
    · rintro (h | h)
      · exact Or.inl h
      · exact Or.inr h.symm

theorem buildYamlMap_hasKey (ds : List Record) (k : Val) :
    mapHasKey (buildYamlMap ds) k = true ↔ ∃ r ∈ ds, identityKey r = some k := by
  suffices hgen : ∀ (m : AssocMap) (ds2 : List Record),
      mapHasKey (ds2.foldl (fun m a => match identityKey a with
        | some kk => dictInsert m kk a
        | none => m) m) k = true ↔
      (mapHasKey m k = true ∨ ∃ r ∈ ds2, identityKey r = some k) by
    rw [buildYamlMap, hgen [] ds]
    have he : mapHasKey [] k = false := rfl
    rw [he]
    simp
  intro m ds2
  induction ds2 generalizing m with
  | nil => simp
  | cons a rest ih =>
      simp only [List.foldl_cons]
      cases hk : identityKey a with
      | none =>
          rw [ih m]
          simp [hk]
      | some k0 =>
          rw [ih (dictInsert m k0 a)]
          constructor
          · rintro (h | h)
            · rcases (dictInsert_hasKey m k0 a k).mp h with h1 | h1
              · exact Or.inl h1
              · exact Or.inr ⟨a, List.mem_cons_self a rest, by rw [hk, h1]⟩
            · obtain ⟨r, hr1, hr2⟩ := h
              exact Or.inr ⟨r, List.mem_cons_of_mem a hr1, hr2⟩
          · rintro (h | h)
            · exact Or.inl ((dictInsert_hasKey m k0 a k).mpr (Or.inl h))
            · obtain ⟨r, hr1, hr2⟩ := h
              rcases List.mem_cons.mp hr1 with h2 | h2
              · rw [h2, hk] at hr2
                have : k = k0 := by
                  injection hr2 with hh
                  exact hh.symm
                exact Or.inl ((dictInsert_hasKey m k0 a k).mpr (Or.inr this))
              · exact Or.inr ⟨r, h2, hr2⟩

theorem buildCurrentMap_hasKey (cs : List Record) (k : Val) :
    mapHasKey (buildCurrentMap cs) k = true ↔
      ∃ r ∈ cs, isLive r = true ∧ identityKey r = some k := by
  suffices hgen : ∀ (m : AssocMap) (cs2 : List Record),
      mapHasKey (cs2.foldl (fun m a =>
        if isLive a then
          match identityKey a with
          | some kk => dictInsert m kk a
          | none => m
        else m) m) k = true ↔
      (mapHasKey m k = true ∨ ∃ r ∈ cs2, isLive r = true ∧ identityKey r = some k) by
    rw [buildCurrentMap, hgen [] cs]
    have he : mapHasKey [] k = false := rfl
    rw [he]
    simp
  intro m cs2
  induction cs2 generalizing m with
  | nil => simp
  | cons a rest ih =>
      simp only [List.foldl_cons]
      by_cases hlive : isLive a = true
      · rw [if_pos hlive]
        cases hk : identityKey a with
        | none =>
            rw [ih m]
            simp [hk, hlive]
        | some k0 =>
            rw [ih (dictInsert m k0 a)]
            constructor
            · rintro (h | h)
              · rcases (dictInsert_hasKey m k0 a k).mp h with h1 | h1
                · exact Or.inl h1
                · exact Or.inr ⟨a, List.mem_cons_self a rest, hlive, by rw [hk, h1]⟩
              · obtain ⟨r, hr1, hr2⟩ := h
                exact Or.inr ⟨r, List.mem_cons_of_mem a hr1, hr2⟩
            · rintro (h | h)
              · exact Or.inl ((dictInsert_hasKey m k0 a k).mpr (Or.inl h))
              · obtain ⟨r, hr1, hr2, hr3⟩ := h
                rcases List.mem_cons.mp hr1 with h2 | h2
                · rw [h2, hk] at hr3
                  have : k = k0 := by
                    injection hr3 with hh
                    exact hh.symm
                  exact Or.inl ((dictInsert_hasKey m k0 a k).mpr (Or.inr this))
                · exact Or.inr ⟨r, h2, hr2, hr3⟩
      · rw [if_neg hlive]
        rw [ih m]
        constructor
        · rintro (h | h)
          · exact Or.inl h
          · obtain ⟨r, hr1, hr2⟩ := h
            exact Or.inr ⟨r, List.mem_cons_of_mem a hr1, hr2⟩
        · rintro (h | h)
          · exact Or.inl h
          · obtain ⟨r, hr1, hr2, hr3⟩ := h
            rcases List.mem_cons.mp hr1 with h2 | h2
            · rw [h2] at hr2
              exact absurd hr2 hlive
            · exact Or.inr ⟨r, h2, hr2, hr3⟩

/-! ## Uniqueness of map entries -/

theorem dictInsert_keys_nodup {m : AssocMap} (h : (mapKeys m).Nodup)
    (k : Val) (v : Record) : (mapKeys (dictInsert m k v)).Nodup := by
  unfold dictInsert
  by_cases hany : mapHasKey m k = true
  · rw [if_pos hany]
    have : mapKeys (m.map (fun p => if p.1 = k then (k, v) else p)) = mapKeys m := by
      unfold mapKeys
      rw [List.map_map]
      apply List.map_congr_left
      intro q _
      by_cases hq : q.1 = k
      · simp [hq]
      · simp [hq]
    rw [this]
    exact h
  · rw [if_neg hany]
    unfold mapKeys
    rw [List.map_append]
    apply List.Nodup.append h (by simp)
    intro x hx hx2
    simp at hx2
    rw [hx2] at hx
    have : mapHasKey m k = true := by
      rw [mapHasKey_iff]
      obtain ⟨q, hq, hqk⟩ := List.mem_map.mp hx
      obtain ⟨q1, q2⟩ := q
      exact ⟨q2, by rwa [show q1 = k from hqk] at hq⟩
    exact hany this

theorem buildYamlMap_keys_nodup (ds : List Record) :
    (mapKeys (buildYamlMap ds)).Nodup := by
  suffices hgen : ∀ (m : AssocMap), (mapKeys m).Nodup →
      ∀ ds2 : List Record,
      (mapKeys (ds2.foldl (fun m a => match identityKey a with
        | some kk => dictInsert m kk a
        | none => m) m)).Nodup by
    exact hgen [] (by simp [mapKeys]) ds
  intro m hm ds2
  induction ds2 generalizing m with
  | nil => exact hm
  | cons a rest ih =>
      simp only [List.foldl_cons]
      cases hk : identityKey a with
      | none => exact ih m hm
      | some k0 => exact ih (dictInsert m k0 a) (dictInsert_keys_nodup hm k0 a)

theorem buildCurrentMap_keys_nodup (cs : List Record) :
    (mapKeys (buildCurrentMap cs)).Nodup := by
  suffices hgen : ∀ (m : AssocMap), (mapKeys m).Nodup →
      ∀ cs2 : List Record,
      (mapKeys (cs2.foldl (fun m a =>
        if isLive a then
          match identityKey a with
          | some kk => dictInsert m kk a
          | none => m
        else m) m)).Nodup by
    exact hgen [] (by simp [mapKeys]) cs
  intro m hm cs2
  induction cs2 generalizing m with
  | nil => exact hm
  | cons a rest ih =>
      simp only [List.foldl_cons]
      by_cases hlive : isLive a = true
      · rw [if_pos hlive]
        cases hk : identityKey a with
        | none => exact ih m hm
        | some k0 => exact ih (dictInsert m k0 a) (dictInsert_keys_nodup hm k0 a)
      · rw [if_neg hlive]
        exact ih m hm

theorem mem_unique_of_keys_nodup {m : AssocMap} (h : (mapKeys m).Nodup)
    {k : Val} {v w : Record} (h1 : (k, v) ∈ m) (h2 : (k, w) ∈ m) : v = w := by
  induction m with
  | nil => cases h1
  | cons q rest ih =>
      have hn : q.1 ∉ mapKeys rest := by
        have := List.nodup_cons.mp h
        exact this.1
      have hr : (mapKeys rest).Nodup := (List.nodup_cons.mp h).2
      rcases List.mem_cons.mp h1 with ha | ha
      · rcases List.mem_cons.mp h2 with hb | hb
        · rw [← hb] at ha
          exact congrArg Prod.snd ha
        · exfalso
          apply hn
          rw [show q.1 = k from by rw [← ha]]
          exact List.mem_map.mpr ⟨(k, w), hb, rfl⟩
      · rcases List.mem_cons.mp h2 with hb | hb
        · exfalso
          apply hn
          rw [show q.1 = k from by rw [← hb]]
          exact List.mem_map.mpr ⟨(k, v), ha, rfl⟩
        · exact ih hr ha hb

theorem lookupMap_eq_of_mem {m : AssocMap} (h : (mapKeys m).Nodup)
    {k : Val} {v : Record} (hm : (k, v) ∈ m) : lookupMap m k = some v := by
  cases hl : lookupMap m k with
  | none =>
      rw [lookupMap_none_iff] at hl
      rw [show mapHasKey m k = true from (mapHasKey_iff m k).mpr ⟨v, hm⟩] at hl
      cases hl
  | some w =>
      have := lookupMap_mem hl
      rw [mem_unique_of_keys_nodup h hm this]

/-! ## Full characterizations of the four classes -/

theorem classify_new_iff {cmap : AssocMap} {L : List (Val × Record)} {a : Record} :
    a ∈ (classify cmap L).1 ↔ ∃ k, (k, a) ∈ L ∧ lookupMap cmap k = none := by
  induction L with
  | nil => simp [classify]
  | cons p rest ih =>
      obtain ⟨k0, ya⟩ := p
      cases hl : lookupMap cmap k0 with
      | none =>
          simp only [classify, hl]
          rw [List.mem_cons]
          constructor
          · rintro (h | h)
            · exact ⟨k0, by rw [h]; exact List.mem_cons_self _ _, hl⟩
            · obtain ⟨k, hk1, hk2⟩ := ih.mp h
              exact ⟨k, List.mem_cons_of_mem _ hk1, hk2⟩
          · rintro ⟨k, hk1, hk2⟩
            rcases List.mem_cons.mp hk1 with h2 | h2
            · exact Or.inl (congrArg Prod.snd h2)
            · exact Or.inr (ih.mpr ⟨k, h2, hk2⟩)
      | some cur =>
          by_cases hh : compute_assistant_hash ya ≠ compute_assistant_hash cur
          · simp only [classify, hl, if_pos hh]
            rw [ih]
            constructor
            · rintro ⟨k, hk1, hk2⟩
              exact ⟨k, List.mem_cons_of_mem _ hk1, hk2⟩
            · rintro ⟨k, hk1, hk2⟩
              rcases List.mem_cons.mp hk1 with h2 | h2
              · exfalso
                have hkk : k = k0 := congrArg Prod.fst h2
                rw [hkk, hl] at hk2
                cases hk2
              · exact ⟨k, h2, hk2⟩
          · simp only [classify, hl, if_neg hh]
            rw [ih]
            constructor
            · rintro ⟨k, hk1, hk2⟩
              exact ⟨k, List.mem_cons_of_mem _ hk1, hk2⟩
            · rintro ⟨k, hk1, hk2⟩
              rcases List.mem_cons.mp hk1 with h2 | h2
              · exfalso
                have hkk : k = k0 := congrArg Prod.fst h2
                rw [hkk, hl] at hk2
                cases hk2
              · exact ⟨k, h2, hk2⟩

theorem classify_updated_iff {cmap : AssocMap} {L : List (Val × Record)}
    {c a : Record} :
    (c, a) ∈ (classify cmap L).2.1 ↔
      ∃ k, (k, a) ∈ L ∧ lookupMap cmap k = some c ∧
        compute_assistant_hash a ≠ compute_assistant_hash c := by
  induction L with
  | nil => simp [classify]
  | cons p rest ih =>
      obtain ⟨k0, ya⟩ := p
      cases hl : lookupMap cmap k0 with
      | none =>
          simp only [classify, hl]
          rw [ih]
          constructor
          · rintro ⟨k, hk1, hk2, hk3⟩
            exact ⟨k, List.mem_cons_of_mem _ hk1, hk2, hk3⟩
          · rintro ⟨k, hk1, hk2, hk3⟩
            rcases List.mem_cons.mp hk1 with h2 | h2
            · exfalso
              have hkk : k = k0 := congrArg Prod.fst h2
              rw [hkk, hl] at hk2
              cases hk2
            · exact ⟨k, h2, hk2, hk3⟩
      | some cur =>
          by_cases hh : compute_assistant_hash ya ≠ compute_assistant_hash cur
          · simp only [classify, hl, if_pos hh]
            rw [List.mem_cons, ih]
            constructor
            · rintro (h | h)
              · have hc : c = cur := congrArg Prod.fst h
                have ha : a = ya := congrArg Prod.snd h
                refine ⟨k0, ?_, ?_, ?_⟩
                · rw [ha]
                  exact List.mem_cons_self _ _
                · rw [hc]
                  exact hl
                · rw [ha, hc]
                  exact hh
              · obtain ⟨k, hk1, hk2, hk3⟩ := h
                exact ⟨k, List.mem_cons_of_mem _ hk1, hk2, hk3⟩
            · rintro ⟨k, hk1, hk2, hk3⟩
              rcases List.mem_cons.mp hk1 with h2 | h2
              · left
                have hkk : k = k0 := congrArg Prod.fst h2
                have ha : a = ya := congrArg Prod.snd h2
                rw [hkk, hl] at hk2
                have hc : cur = c := Option.some.inj hk2
                rw [← ha, hc]
              · exact Or.inr ⟨k, h2, hk2, hk3⟩
          · simp only [classify, hl, if_neg hh]
            rw [ih]
            constructor
            · rintro ⟨k, hk1, hk2, hk3⟩
              exact ⟨k, List.mem_cons_of_mem _ hk1, hk2, hk3⟩
            · rintro ⟨k, hk1, hk2, hk3⟩
              rcases List.mem_cons.mp hk1 with h2 | h2
              · exfalso
                have hkk : k = k0 := congrArg Prod.fst h2
                have ha : a = ya := congrArg Prod.snd h2
                rw [hkk, hl] at hk2
                have hc : cur = c := Option.some.inj hk2
                rw [ha, ← hc] at hk3
                exact hh hk3
              · exact ⟨k, h2, hk2, hk3⟩

theorem classify_unchanged_iff {cmap : AssocMap} {L : List (Val × Record)}
    {a : Record} :
    a ∈ (classify cmap L).2.2 ↔
      ∃ k c, (k, a) ∈ L ∧ lookupMap cmap k = some c ∧
        compute_assistant_hash a = compute_assistant_hash c := by
  induction L with
  | nil => simp [classify]
  | cons p rest ih =>
      obtain ⟨k0, ya⟩ := p
      cases hl : lookupMap cmap k0 with
      | none =>
          simp only [classify, hl]
          rw [ih]
          constructor
          · rintro ⟨k, c, hk1, hk2, hk3⟩
            exact ⟨k, c, List.mem_cons_of_mem _ hk1, hk2, hk3⟩
          · rintro ⟨k, c, hk1, hk2, hk3⟩
            rcases List.mem_cons.mp hk1 with h2 | h2
            · exfalso
              have hkk : k = k0 := congrArg Prod.fst h2
              rw [hkk, hl] at hk2
              cases hk2
            · exact ⟨k, c, h2, hk2, hk3⟩
      | some cur =>
          by_cases hh : compute_assistant_hash ya ≠ compute_assistant_hash cur
          · simp only [classify, hl, if_pos hh]
            rw [ih]
            constructor
            · rintro ⟨k, c, hk1, hk2, hk3⟩
              exact ⟨k, c, List.mem_cons_of_mem _ hk1, hk2, hk3⟩
            · rintro ⟨k, c, hk1, hk2, hk3⟩
              rcases List.mem_cons.mp hk1 with h2 | h2
              · exfalso
                have hkk : k = k0 := congrArg Prod.fst h2
                have ha : a = ya := congrArg Prod.snd h2
                rw [hkk, hl] at hk2
                have hc : cur = c := Option.some.inj hk2
                rw [ha, ← hc] at hk3
                exact hh hk3
              · exact ⟨k, c, h2, hk2, hk3⟩
          · simp only [classify, hl, if_neg hh]
            rw [List.mem_cons, ih]
            have hhe : compute_assistant_hash ya = compute_assistant_hash cur := by
              by_contra hcon
              exact hh hcon
            constructor
            · rintro (h | h)
              · exact ⟨k0, cur, by rw [h]; exact List.mem_cons_self _ _, hl, by rw [h]; exact hhe⟩
              · obtain ⟨k, c, hk1, hk2, hk3⟩ := h
                exact ⟨k, c, List.mem_cons_of_mem _ hk1, hk2, hk3⟩
            · rintro ⟨k, c, hk1, hk2, hk3⟩
              rcases List.mem_cons.mp hk1 with h2 | h2
              · left
                exact congrArg Prod.snd h2
              · exact Or.inr ⟨k, c, h2, hk2, hk3⟩

theorem selectDeleted_iff {ymap M : AssocMap} {c : Record} :
    c ∈ selectDeleted ymap M ↔ ∃ k, (k, c) ∈ M ∧ mapHasKey ymap k = false := by
  induction M with
  | nil => simp [selectDeleted]
  | cons p rest ih =>
      obtain ⟨k0, c0⟩ := p
      by_cases hy : mapHasKey ymap k0 = true
      · simp only [selectDeleted, if_pos hy]
        rw [ih]
        constructor
        · rintro ⟨k, hk1, hk2⟩
          exact ⟨k, List.mem_cons_of_mem _ hk1, hk2⟩
        · rintro ⟨k, hk1, hk2⟩
          rcases List.mem_cons.mp hk1 with h2 | h2
          · exfalso
            have hkk : k = k0 := congrArg Prod.fst h2
            rw [hkk, hy] at hk2
            cases hk2
          · exact ⟨k, h2, hk2⟩
      · simp only [selectDeleted, if_neg hy]
        rw [List.mem_cons, ih]
        have hyf : mapHasKey ymap k0 = false := by
          cases hv : mapHasKey ymap k0 with
          | true => exact absurd hv hy
          | false => rfl
        constructor
        · rintro (h | h)
          · exact ⟨k0, by rw [h]; exact List.mem_cons_self _ _, hyf⟩
          · obtain ⟨k, hk1, hk2⟩ := h
            exact ⟨k, List.mem_cons_of_mem _ hk1, hk2⟩
        · rintro ⟨k, hk1, hk2⟩
          rcases List.mem_cons.mp hk1 with h2 | h2
          · exact Or.inl (congrArg Prod.snd h2)
          · exact Or.inr ⟨k, h2, hk2⟩

/-! ## Claim C1: the diff partitions the declared and live keys -/

/-- The identity keys derivable from a list of records. -/
def recordKeys (rs : List Record) : List Val := rs.filterMap identityKey

/-- Liveness as the specification words it: isActive is not the boolean
false, and dateDeleted is unset. -/
def liveSpecB (r : Record) : Bool :=
  decide (rget r "isActive" ≠ some (Val.vBool false)) &&
    decide (rget r "dateDeleted" = none)

/-- A record is well typed when its isActive field is boolean or absent and
its dateDeleted field is a non-empty timestamp string or absent, as the data
model prescribes. -/
def wellTypedCurrent (cs : List Record) : Prop :=
  ∀ r ∈ cs,
    (rget r "isActive" = none ∨ ∃ b, rget r "isActive" = some (Val.vBool b)) ∧
    (rget r "dateDeleted" = none ∨
      ∃ s, s ≠ "" ∧ rget r "dateDeleted" = some (Val.vStr s))

theorem isLive_eq_liveSpecB {r : Record}
    (h1 : rget r "isActive" = none ∨ ∃ b, rget r "isActive" = some (Val.vBool b))
    (h2 : rget r "dateDeleted" = none ∨
      ∃ s, s ≠ "" ∧ rget r "dateDeleted" = some (Val.vStr s)) :
    isLive r = liveSpecB r := by
  unfold isLive liveSpecB pyGet
  rcases h1 with h1 | ⟨b, h1⟩
  · rcases h2 with h2 | ⟨s, hs, h2⟩
    · rw [h1, h2]
      simp [truthy]
    · rw [h1, h2]
      simp [truthy, hs]
  · rcases h2 with h2 | ⟨s, hs, h2⟩
    · rw [h1, h2]
      cases b <;> simp [truthy]
    · rw [h1, h2]
      cases b <;> simp [truthy, hs]

theorem detect_changes_new (yaml current : List Record) :
    (detect_changes yaml current).new =
      (classify (buildCurrentMap current) (buildYamlMap yaml)).1 := rfl

theorem detect_changes_updated (yaml current : List Record) :
    (detect_changes yaml current).updated =
      (classify (buildCurrentMap current) (buildYamlMap yaml)).2.1 := rfl

theorem detect_changes_deleted (yaml current : List Record) :
    (detect_changes yaml current).deleted =
      selectDeleted (buildYamlMap yaml) (buildCurrentMap current) := rfl

theorem detect_changes_unchanged (yaml current : List Record) :
    (detect_changes yaml current).unchanged =
      (classify (buildCurrentMap current) (buildYamlMap yaml)).2.2 := rfl

theorem newKeys_iff (yaml current : List Record) (k : Val) :
    k ∈ recordKeys (detect_changes yaml current).new ↔
      ∃ a, (k, a) ∈ buildYamlMap yaml ∧
        lookupMap (buildCurrentMap current) k = none := by
  rw [detect_changes_new]
  unfold recordKeys
  rw [List.mem_filterMap]
  constructor
  · rintro ⟨a, ha, hka⟩
    obtain ⟨k', hk1, hk2⟩ := classify_new_iff.mp ha
    have hinv := (buildYamlMap_inv yaml (k', a) hk1).1
    simp only at hinv
    rw [hka] at hinv
    have hkk : k = k' := Option.some.inj hinv
    rw [← hkk] at hk1 hk2
    exact ⟨a, hk1, hk2⟩
  · rintro ⟨a, h1, h2⟩
    refine ⟨a, classify_new_iff.mpr ⟨k, h1, h2⟩, ?_⟩
    exact (buildYamlMap_inv yaml (k, a) h1).1

theorem updKeys_iff (yaml current : List Record) (k : Val) :
    k ∈ (detect_changes yaml current).updated.filterMap (fun p => identityKey p.2) ↔
      ∃ a c, (k, a) ∈ buildYamlMap yaml ∧
        lookupMap (buildCurrentMap current) k = some c ∧
        compute_assistant_hash a ≠ compute_assistant_hash c := by
  rw [detect_changes_updated, List.mem_filterMap]
  constructor
  · rintro ⟨p, hp, hkp⟩
    obtain ⟨c, a⟩ := p
    obtain ⟨k', hk1, hk2, hk3⟩ := classify_updated_iff.mp hp
    have hinv := (buildYamlMap_inv yaml (k', a) hk1).1
    simp only at hinv hkp
    rw [hkp] at hinv
    have hkk : k = k' := Option.some.inj hinv
    rw [← hkk] at hk1 hk2
    exact ⟨a, c, hk1, hk2, hk3⟩
  · rintro ⟨a, c, h1, h2, h3⟩
    refine ⟨(c, a), classify_updated_iff.mpr ⟨k, h1, h2, h3⟩, ?_⟩
    exact (buildYamlMap_inv yaml (k, a) h1).1

theorem delKeys_iff (yaml current : List Record) (k : Val) :
    k ∈ recordKeys (detect_changes yaml current).deleted ↔
      ∃ c, (k, c) ∈ buildCurrentMap current ∧
        mapHasKey (buildYamlMap yaml) k = false := by
  rw [detect_changes_deleted]
  unfold recordKeys
  rw [List.mem_filterMap]
  constructor
  · rintro ⟨c, hc, hkc⟩
    obtain ⟨k', hk1, hk2⟩ := selectDeleted_iff.mp hc
    have hinv := (buildCurrentMap_inv current (k', c) hk1).1
    simp only at hinv
    rw [hkc] at hinv
    have hkk : k = k' := Option.some.inj hinv
    rw [← hkk] at hk1 hk2
    exact ⟨c, hk1, hk2⟩
  · rintro ⟨c, h1, h2⟩
    refine ⟨c, selectDeleted_iff.mpr ⟨k, h1, h2⟩, ?_⟩
    exact (buildCurrentMap_inv current (k, c) h1).1

theorem unchKeys_iff (yaml current : List Record) (k : Val) :
    k ∈ recordKeys (detect_changes yaml current).unchanged ↔
      ∃ a c, (k, a) ∈ buildYamlMap yaml ∧
        lookupMap (buildCurrentMap current) k = some c ∧
        compute_assistant_hash a = compute_assistant_hash c := by
  rw [detect_changes_unchanged]
  unfold recordKeys
  rw [List.mem_filterMap]
  constructor
  · rintro ⟨a, ha, hka⟩
    obtain ⟨k', c, hk1, hk2, hk3⟩ := classify_unchanged_iff.mp ha
    have hinv := (buildYamlMap_inv yaml (k', a) hk1).1
    simp only at hinv
    rw [hka] at hinv
    have hkk : k = k' := Option.some.inj hinv
    rw [← hkk] at hk1 hk2
    exact ⟨a, c, hk1, hk2, hk3⟩
  · rintro ⟨a, c, h1, h2, h3⟩
    refine ⟨a, classify_unchanged_iff.mpr ⟨k, c, h1, h2, h3⟩, ?_⟩
    exact (buildYamlMap_inv yaml (k, a) h1).1

theorem liveKeys_hasKey (current : List Record) (hC : wellTypedCurrent current)
    (k : Val) :
    k ∈ recordKeys (current.filter liveSpecB) ↔
      mapHasKey (buildCurrentMap current) k = true := by
  unfold recordKeys
  rw [List.mem_filterMap, buildCurrentMap_hasKey]
  constructor
  · rintro ⟨r, hr, hkr⟩
    have hr2 := List.mem_filter.mp hr
    refine ⟨r, hr2.1, ?_, hkr⟩
    rw [isLive_eq_liveSpecB (hC r hr2.1).1 (hC r hr2.1).2]
    exact hr2.2
  · rintro ⟨r, hr, hlive, hkr⟩
    refine ⟨r, List.mem_filter.mpr ⟨hr, ?_⟩, hkr⟩
    rw [← isLive_eq_liveSpecB (hC r hr).1 (hC r hr).2]
    exact hlive

/-- C1: detect_changes assigns every identity key of the declared collection
united with the keys of live current records (live: isActive not false,
dateDeleted unset) to exactly one of the four classes: the four key sets
union to the declared keys united with the live keys and are pairwise
disjoint; and a non-live current record appears in no class on the current
side — it is never classified Deleted nor the old half of an Updated pair.
Stated for well-typed current collections, on which the specification's
liveness and the code's truthiness test agree. -/
theorem diff_partition (yaml current : List Record) (hC : wellTypedCurrent current) :
    (∀ k : Val,
      ((k ∈ recordKeys yaml ∨ k ∈ recordKeys (current.filter liveSpecB)) ↔
        (k ∈ recordKeys (detect_changes yaml current).new ∨
         k ∈ (detect_changes yaml current).updated.filterMap (fun p => identityKey p.2) ∨
         k ∈ recordKeys (detect_changes yaml current).deleted ∨
         k ∈ recordKeys (detect_changes yaml current).unchanged))) ∧
    (∀ k : Val,
      (k ∈ recordKeys (detect_changes yaml current).new →
        k ∉ (detect_changes yaml current).updated.filterMap (fun p => identityKey p.2) ∧
        k ∉ recordKeys (detect_changes yaml current).deleted ∧
        k ∉ recordKeys (detect_changes yaml current).unchanged) ∧
      (k ∈ (detect_changes yaml current).updated.filterMap (fun p => identityKey p.2) →
        k ∉ recordKeys (detect_changes yaml current).deleted ∧
        k ∉ recordKeys (detect_changes yaml current).unchanged) ∧
      (k ∈ recordKeys (detect_changes yaml current).deleted →
        k ∉ recordKeys (detect_changes yaml current).unchanged)) ∧
    (∀ r ∈ current, liveSpecB r = false →
      r ∉ (detect_changes yaml current).deleted ∧
      ∀ p ∈ (detect_changes yaml current).updated, p.1 ≠ r) := by
  refine ⟨?_, ?_, ?_⟩
  · intro k
    rw [newKeys_iff, updKeys_iff, delKeys_iff, unchKeys_iff,
      liveKeys_hasKey current hC k]
    have hyk : k ∈ recordKeys yaml ↔ ∃ r, r ∈ yaml ∧ identityKey r = some k := by
      unfold recordKeys
      exact List.mem_filterMap
    rw [hyk]
    constructor
    · rintro (⟨r, hr, hkr⟩ | hck)
      · have hy : mapHasKey (buildYamlMap yaml) k = true :=
          (buildYamlMap_hasKey yaml k).mpr ⟨r, hr, hkr⟩
        obtain ⟨a, ha⟩ := (mapHasKey_iff _ k).mp hy
        cases hl : lookupMap (buildCurrentMap current) k with
        | none => exact Or.inl ⟨a, ha, rfl⟩
        | some c =>
            by_cases hh : compute_assistant_hash a ≠ compute_assistant_hash c
            · exact Or.inr (Or.inl ⟨a, c, ha, rfl, hh⟩)
            · have hhe : compute_assistant_hash a = compute_assistant_hash c := by
                by_contra hcon
                exact hh hcon
              exact Or.inr (Or.inr (Or.inr ⟨a, c, ha, rfl, hhe⟩))
      · by_cases hy : mapHasKey (buildYamlMap yaml) k = true
        · obtain ⟨a, ha⟩ := (mapHasKey_iff _ k).mp hy
          cases hl : lookupMap (buildCurrentMap current) k with
          | none =>
              exfalso
              rw [lookupMap_none_iff] at hl
              rw [hl] at hck
              cases hck
          | some c =>
              by_cases hh : compute_assistant_hash a ≠ compute_assistant_hash c
              · exact Or.inr (Or.inl ⟨a, c, ha, rfl, hh⟩)
              · have hhe : compute_assistant_hash a = compute_assistant_hash c := by
                  by_contra hcon
                  exact hh hcon
                exact Or.inr (Or.inr (Or.inr ⟨a, c, ha, rfl, hhe⟩))
        · have hyf : mapHasKey (buildYamlMap yaml) k = false := by
            cases hv : mapHasKey (buildYamlMap yaml) k with
            | true => exact absurd hv hy
            | false => rfl
          obtain ⟨c, hc⟩ := (mapHasKey_iff _ k).mp hck
          exact Or.inr (Or.inr (Or.inl ⟨c, hc, hyf⟩))
    · rintro (⟨a, ha, _⟩ | ⟨a, c, ha, _, _⟩ | ⟨c, hc, _⟩ | ⟨a, c, ha, _, _⟩)
      · obtain ⟨hik, hay⟩ := buildYamlMap_inv yaml (k, a) ha
        exact Or.inl ⟨a, hay, hik⟩
      · obtain ⟨hik, hay⟩ := buildYamlMap_inv yaml (k, a) ha
        exact Or.inl ⟨a, hay, hik⟩
      · exact Or.inr ((mapHasKey_iff _ k).mpr ⟨c, hc⟩)
      · obtain ⟨hik, hay⟩ := buildYamlMap_inv yaml (k, a) ha
        exact Or.inl ⟨a, hay, hik⟩
  · intro k
    refine ⟨?_, ?_, ?_⟩
    · intro hn
      obtain ⟨a, ha, hl⟩ := (newKeys_iff yaml current k).mp hn
      refine ⟨?_, ?_, ?_⟩
      · intro hu
        obtain ⟨a2, c2, _, hl2, _⟩ := (updKeys_iff yaml current k).mp hu
        rw [hl] at hl2
        cases hl2
      · intro hd
        obtain ⟨c2, _, hyf⟩ := (delKeys_iff yaml current k).mp hd
        rw [(mapHasKey_iff _ k).mpr ⟨a, ha⟩] at hyf
        cases hyf
      · intro hun
        obtain ⟨a2, c2, _, hl2, _⟩ := (unchKeys_iff yaml current k).mp hun
        rw [hl] at hl2
        cases hl2
    · intro hu
      obtain ⟨a, c, ha, hl, hh⟩ := (updKeys_iff yaml current k).mp hu
      refine ⟨?_, ?_⟩
      · intro hd
        obtain ⟨c2, _, hyf⟩ := (delKeys_iff yaml current k).mp hd
        rw [(mapHasKey_iff _ k).mpr ⟨a, ha⟩] at hyf
        cases hyf
      · intro hun
        obtain ⟨a2, c2, ha2, hl2, hhe⟩ := (unchKeys_iff yaml current k).mp hun
        have hac : a = a2 :=
          mem_unique_of_keys_nodup (buildYamlMap_keys_nodup yaml) ha ha2
        rw [hl] at hl2
        have hcc : c = c2 := Option.some.inj hl2
        rw [← hac, ← hcc] at hhe
        exact hh hhe
    · intro hd hun
      obtain ⟨c, hc, hyf⟩ := (delKeys_iff yaml current k).mp hd
      obtain ⟨a2, c2, ha2, _, _⟩ := (unchKeys_iff yaml current k).mp hun
      rw [(mapHasKey_iff _ k).mpr ⟨a2, ha2⟩] at hyf
      cases hyf
  · intro r hr hnl
    have hnlive : isLive r = false := by
      rw [isLive_eq_liveSpecB (hC r hr).1 (hC r hr).2]
      exact hnl
    constructor
    · intro hmem
      rw [detect_changes_deleted] at hmem
      obtain ⟨k, hk⟩ := selectDeleted_mem hmem
      have hlv := (buildCurrentMap_inv current (k, r) hk).2.1
      rw [hnlive] at hlv
      cases hlv
    · rintro ⟨c, a⟩ hp he
      rw [detect_changes_updated] at hp
      obtain ⟨k, _, hl2⟩ := classify_updated_mem hp
      have hkm := lookupMap_mem hl2
      have he2 : c = r := he
      rw [he2] at hkm
      have hlv := (buildCurrentMap_inv current (k, r) hkm).2.1
      rw [hnlive] at hlv
      cases hlv

theorem diff_partition_witness :
    Val.vStr "A" ∈ recordKeys (detect_changes [[("name", Val.vStr "A")]]
        [[("name", Val.vStr "B"), ("isActive", Val.vBool true)]]).new ∨
    Val.vStr "A" ∈ (detect_changes [[("name", Val.vStr "A")]]
        [[("name", Val.vStr "B"), ("isActive", Val.vBool true)]]).updated.filterMap
        (fun p => identityKey p.2) ∨
    Val.vStr "A" ∈ recordKeys (detect_changes [[("name", Val.vStr "A")]]
        [[("name", Val.vStr "B"), ("isActive", Val.vBool true)]]).deleted ∨
    Val.vStr "A" ∈ recordKeys (detect_changes [[("name", Val.vStr "A")]]
        [[("name", Val.vStr "B"), ("isActive", Val.vBool true)]]).unchanged := by
  have hC : wellTypedCurrent [[("name", Val.vStr "B"), ("isActive", Val.vBool true)]] := by
    intro r hr
    rcases List.mem_cons.mp hr with h | h
    · subst h
      exact ⟨Or.inr ⟨true, by decide⟩, Or.inl (by decide)⟩
    · cases h
  exact ((diff_partition [[("name", Val.vStr "A")]]
      [[("name", Val.vStr "B"), ("isActive", Val.vBool true)]] hC).1 (Val.vStr "A")).mp
    (Or.inl (by decide))

/-! ## Injectivity of the JSON serialization

The hard direction of the fingerprint guarantee: equal serialized strings
come from equal normalized mappings.  Proved by showing every serialized
form is a prefix code relative to the delimiter that follows it. -/

def isDigit (c : Char) : Bool := decide (48 ≤ c.toNat) && decide (c.toNat ≤ 57)

/-- A serialized value inside an object or array is always followed by the
end of the string or by a separator or closer. -/
def isStopper (t : List Char) : Prop :=
  match t.head? with
  | none => True
  | some c => c = ',' ∨ c = ']' ∨ c = '\x7d'

theorem digitChar_toNat (d : Nat) (h : d < 10) : (digitChar d).toNat = 48 + d := by
  interval_cases d <;> decide

theorem digitChar_isDigit (d : Nat) (h : d < 10) : isDigit (digitChar d) = true := by
  interval_cases d <;> decide

theorem natCharsAux_digits (fuel : Nat) :
    ∀ n : Nat, ∀ c ∈ natCharsAux fuel n, isDigit c = true := by
  induction fuel with
  | zero => intro n c hc; cases hc
  | succ f ih =>
      intro n c hc
      by_cases hn : n = 0
      · rw [natCharsAux, if_pos hn] at hc
        cases hc
      · rw [natCharsAux, if_neg hn] at hc
        rcases List.mem_append.mp hc with h | h
        · exact ih (n / 10) c h
        · rcases List.mem_singleton.mp h with rfl
          exact digitChar_isDigit (n % 10) (Nat.mod_lt n (by omega))

theorem natChars_digits (n : Nat) : ∀ c ∈ natChars n, isDigit c = true := by
  intro c hc
  unfold natChars at hc
  by_cases hn : n = 0
  · rw [if_pos hn] at hc
    rcases List.mem_singleton.mp hc with rfl
    decide
  · rw [if_neg hn] at hc
    exact natCharsAux_digits n n c hc

theorem natChars_head (n : Nat) :
    ∃ c cs, natChars n = c :: cs ∧ isDigit c = true := by
  cases hnc : natChars n with
  | nil =>
      exfalso
      unfold natChars at hnc
      by_cases hn : n = 0
      · rw [if_pos hn] at hnc
        cases hnc
      · rw [if_neg hn] at hnc
        rw [show n = (n - 1) + 1 from by omega] at hnc
        rw [natCharsAux] at hnc
        rw [if_neg (by omega : ¬ (n - 1 + 1 = 0))] at hnc
        rcases List.append_eq_nil.mp hnc with ⟨_, h2⟩
        cases h2
  | cons c cs =>
      exact ⟨c, cs, rfl, natChars_digits n c (by rw [hnc]; exact List.mem_cons_self _ _)⟩

def decValAux (acc : Nat) : List Char → Nat
  | [] => acc
  | c :: cs => decValAux (10 * acc + (c.toNat - 48)) cs

theorem decValAux_append (acc : Nat) (xs ys : List Char) :
    decValAux acc (xs ++ ys) = decValAux (decValAux acc xs) ys := by
  induction xs generalizing acc with
  | nil => rfl
  | cons c cs ih => exact ih (10 * acc + (c.toNat - 48))

theorem decVal_natCharsAux (fuel : Nat) :
    ∀ n acc : Nat, n ≤ fuel →
      decValAux acc (natCharsAux fuel n) =
        acc * 10 ^ (natCharsAux fuel n).length + n := by
  induction fuel with
  | zero =>
      intro n acc h
      have hz : n = 0 := by omega
      subst hz
      rw [show natCharsAux 0 0 = [] from rfl]
      rw [show decValAux acc [] = acc from rfl]
      simp
  | succ f ih =>
      intro n acc h
      by_cases hn : n = 0
      · subst hn
        rw [show natCharsAux (f + 1) 0 = [] from by rw [natCharsAux]; exact if_pos rfl]
        rw [show decValAux acc [] = acc from rfl]
        simp
      · rw [natCharsAux, if_neg hn, decValAux_append]
        have hdiv : n / 10 ≤ f := by
          have := Nat.div_lt_self (by omega : 0 < n) (by omega : 1 < 10)
          omega
        rw [ih (n / 10) acc hdiv]
        rw [show ∀ (a : Nat) (c : Char), decValAux a [c] = 10 * a + (c.toNat - 48) from
          fun a c => rfl]
        rw [digitChar_toNat (n % 10) (Nat.mod_lt n (by omega))]
        rw [List.length_append]
        simp only [List.length_cons, List.length_nil]
        rw [pow_succ]
        have hmod : 48 + n % 10 - 48 = n % 10 := by omega
        rw [hmod]
        have hdm : 10 * (n / 10) + n % 10 = n := by omega
        ring_nf
        omega

theorem decVal_natChars (n : Nat) : decValAux 0 (natChars n) = n := by
  unfold natChars
  by_cases hn : n = 0
  · rw [if_pos hn, hn]
    rfl
  · rw [if_neg hn, decVal_natCharsAux n n 0 (le_refl n)]
    omega

theorem natChars_inj {n1 n2 : Nat} (h : natChars n1 = natChars n2) : n1 = n2 := by
  rw [← decVal_natChars n1, ← decVal_natChars n2, h]

theorem digits_munch : ∀ ds1 ds2 t1 t2 : List Char,
    (∀ c ∈ ds1, isDigit c = true) → (∀ c ∈ ds2, isDigit c = true) →
    (∀ c, t1.head? = some c → isDigit c = false) →
    (∀ c, t2.head? = some c → isDigit c = false) →
    ds1 ++ t1 = ds2 ++ t2 → ds1 = ds2 ∧ t1 = t2 := by
  intro ds1
  induction ds1 with
  | nil =>
      intro ds2 t1 t2 _ hd2 ht1 _ heq
      cases ds2 with
      | nil => exact ⟨rfl, heq⟩
      | cons c cs =>
          exfalso
          simp only [List.nil_append, List.cons_append] at heq
          have hh : t1.head? = some c := by rw [heq]; rfl
          have := ht1 c hh
          rw [hd2 c (List.mem_cons_self _ _)] at this
          cases this
  | cons c1 cs1 ih =>
      intro ds2 t1 t2 hd1 hd2 ht1 ht2 heq
      cases ds2 with
      | nil =>
          exfalso
          simp only [List.cons_append, List.nil_append] at heq
          have hh : t2.head? = some c1 := by rw [← heq]; rfl
          have := ht2 c1 hh
          rw [hd1 c1 (List.mem_cons_self _ _)] at this
          cases this
      | cons c2 cs2 =>
          simp only [List.cons_append, List.cons.injEq] at heq
          obtain ⟨hc, hrest⟩ := heq
          obtain ⟨h1, h2⟩ := ih cs2 t1 t2
            (fun c hc2 => hd1 c (List.mem_cons_of_mem _ hc2))
            (fun c hc2 => hd2 c (List.mem_cons_of_mem _ hc2)) ht1 ht2 hrest
          exact ⟨by rw [hc, h1], h2⟩

theorem isStopper_not_digit {t : List Char} (h : isStopper t) :
    ∀ c, t.head? = some c → isDigit c = false := by
  intro c hc
  unfold isStopper at h
  rw [hc] at h
  rcases h with h | h | h <;> rw [h] <;> decide

theorem isStopper_not_minus {t : List Char} (h : isStopper t) :
    ∀ c, t.head? = some c → c ≠ '-' := by
  intro c hc
  unfold isStopper at h
  rw [hc] at h
  rcases h with h | h | h <;> rw [h] <;> decide

theorem intChars_prefix {i1 i2 : Int} {t1 t2 : List Char}
    (hs1 : isStopper t1) (hs2 : isStopper t2)
    (h : intChars i1 ++ t1 = intChars i2 ++ t2) : i1 = i2 ∧ t1 = t2 := by
  cases i1 with
  | ofNat n1 =>
      cases i2 with
      | ofNat n2 =>
          obtain ⟨h1, h2⟩ := digits_munch (natChars n1) (natChars n2) t1 t2
            (natChars_digits n1) (natChars_digits n2)
            (isStopper_not_digit hs1) (isStopper_not_digit hs2) h
          exact ⟨by rw [natChars_inj h1], h2⟩
      | negSucc n2 =>
          exfalso
          obtain ⟨c, cs, hc, hdig⟩ := natChars_head n1
          rw [show intChars (Int.ofNat n1) = natChars n1 from rfl, hc] at h
          rw [show intChars (Int.negSucc n2) = '-' :: natChars (n2 + 1) from rfl] at h
          simp only [List.cons_append, List.cons.injEq] at h
          rw [h.1] at hdig
          cases hdig
  | negSucc n1 =>
      cases i2 with
      | ofNat n2 =>
          exfalso
          obtain ⟨c, cs, hc, hdig⟩ := natChars_head n2
          rw [show intChars (Int.negSucc n1) = '-' :: natChars (n1 + 1) from rfl] at h
          rw [show intChars (Int.ofNat n2) = natChars n2 from rfl, hc] at h
          simp only [List.cons_append, List.cons.injEq] at h
          rw [← h.1] at hdig
          cases hdig
      | negSucc n2 =>
          rw [show intChars (Int.negSucc n1) = '-' :: natChars (n1 + 1) from rfl,
            show intChars (Int.negSucc n2) = '-' :: natChars (n2 + 1) from rfl] at h
          simp only [List.cons_append, List.cons.injEq, true_and] at h
          obtain ⟨h1, h2⟩ := digits_munch (natChars (n1 + 1)) (natChars (n2 + 1)) t1 t2
            (natChars_digits (n1 + 1)) (natChars_digits (n2 + 1))
            (isStopper_not_digit hs1) (isStopper_not_digit hs2) h
          have hnn := natChars_inj h1
          exact ⟨congrArg Int.negSucc (by omega : n1 = n2), h2⟩

theorem escChars_cons (c : Char) (cs : List Char) :
    escChars (c :: cs) = escChar c ++ escChars cs := rfl

theorem escChars_inj : ∀ s1 s2 t1 t2 : List Char,
    escChars s1 ++ '"' :: t1 = escChars s2 ++ '"' :: t2 → s1 = s2 ∧ t1 = t2 := by
  intro s1
  induction s1 with
  | nil =>
      intro s2 t1 t2 heq
      cases s2 with
      | nil =>
          simp only [escChars, List.nil_append, List.cons.injEq] at heq
          exact ⟨rfl, heq.2⟩
      | cons d s2' =>
          exfalso
          rw [show escChars [] = [] from rfl, escChars_cons] at heq
          unfold escChar at heq
          by_cases hd1 : d = '"'
          · rw [if_pos hd1] at heq
            simp only [List.nil_append, List.cons_append, List.cons.injEq] at heq
            exact absurd heq.1 (by decide)
          · rw [if_neg hd1] at heq
            by_cases hd2 : d = '\\'
            · rw [if_pos hd2] at heq
              simp only [List.nil_append, List.cons_append, List.cons.injEq] at heq
              exact absurd heq.1 (by decide)
            · rw [if_neg hd2] at heq
              simp only [List.nil_append, List.cons_append, List.cons.injEq] at heq
              exact hd1 heq.1.symm
  | cons c s1' ih =>
      intro s2 t1 t2 heq
      cases s2 with
      | nil =>
          exfalso
          rw [show escChars [] = [] from rfl, escChars_cons] at heq
          unfold escChar at heq
          by_cases hc1 : c = '"'
          · rw [if_pos hc1] at heq
            simp only [List.cons_append, List.nil_append, List.cons.injEq] at heq
            exact absurd heq.1 (by decide)
          · rw [if_neg hc1] at heq
            by_cases hc2 : c = '\\'
            · rw [if_pos hc2] at heq
              simp only [List.cons_append, List.nil_append, List.cons.injEq] at heq
              exact absurd heq.1 (by decide)
            · rw [if_neg hc2] at heq
              simp only [List.cons_append, List.nil_append, List.cons.injEq] at heq
              exact hc1 heq.1
      | cons d s2' =>
          rw [escChars_cons, escChars_cons] at heq
          unfold escChar at heq
          by_cases hc1 : c = '"'
          · rw [if_pos hc1] at heq
            by_cases hd1 : d = '"'
            · rw [if_pos hd1] at heq
              simp only [List.cons_append, List.append_assoc, List.cons.injEq] at heq
              obtain ⟨s1e, t1e⟩ := ih s2' t1 t2 heq.2.2
              exact ⟨by rw [hc1, hd1, s1e], t1e⟩
            · rw [if_neg hd1] at heq
              by_cases hd2 : d = '\\'
              · rw [if_pos hd2] at heq
                simp only [List.cons_append, List.cons.injEq] at heq
                exact absurd heq.2.1 (by decide)
              · rw [if_neg hd2] at heq
                simp only [List.cons_append, List.cons.injEq] at heq
                exact absurd heq.1.symm hd2
          · rw [if_neg hc1] at heq
            by_cases hc2 : c = '\\'
            · rw [if_pos hc2] at heq
              by_cases hd1 : d = '"'
              · rw [if_pos hd1] at heq
                simp only [List.cons_append, List.cons.injEq] at heq
                exact absurd heq.2.1 (by decide)
              · rw [if_neg hd1] at heq
                by_cases hd2 : d = '\\'
                · rw [if_pos hd2] at heq
                  simp only [List.cons_append, List.append_assoc, List.cons.injEq] at heq
                  obtain ⟨s1e, t1e⟩ := ih s2' t1 t2 heq.2.2
                  exact ⟨by rw [hc2, hd2, s1e], t1e⟩
                · rw [if_neg hd2] at heq
                  simp only [List.cons_append, List.cons.injEq] at heq
                  exact absurd heq.1.symm hd2
            · rw [if_neg hc2] at heq
              by_cases hd1 : d = '"'
              · rw [if_pos hd1] at heq
                simp only [List.cons_append, List.cons.injEq] at heq
                exact absurd heq.1 hc2
              · rw [if_neg hd1] at heq
                by_cases hd2 : d = '\\'
                · rw [if_pos hd2] at heq
                  simp only [List.cons_append, List.cons.injEq] at heq
                  exact absurd heq.1 hc2
                · rw [if_neg hd2] at heq
                  simp only [List.cons_append, List.cons.injEq] at heq
                  obtain ⟨s1e, t1e⟩ := ih s2' t1 t2 heq.2
                  exact ⟨by rw [heq.1, s1e], t1e⟩

def valKind : Val → Nat
  | .vNull => 0
  | .vBool _ => 1
  | .vInt _ => 2
  | .vStr _ => 3
  | .vList _ => 4

def headKind (c : Char) : Nat :=
  if c = 'n' then 0
  else if c = 't' ∨ c = 'f' then 1
  else if isDigit c = true ∨ c = '-' then 2
  else if c = '"' then 3
  else if c = '[' then 4
  else 5

theorem headKind_digit {c : Char} (h : isDigit c = true) : headKind c = 2 := by
  have h2 : c.toNat ≤ 57 := by
    unfold isDigit at h
    simp at h
    exact h.2
  have hn : ¬ c = 'n' := by
    intro he
    rw [he] at h2
    exact absurd h2 (by decide)
  have ht : ¬ (c = 't' ∨ c = 'f') := by
    rintro (he | he) <;> (rw [he] at h2; exact absurd h2 (by decide))
  unfold headKind
  rw [if_neg hn, if_neg ht, if_pos (Or.inl h)]

theorem dumpsVal_head (v : Val) :
    ∃ c cs, dumpsVal v = c :: cs ∧ headKind c = valKind v := by
  cases v with
  | vNull => exact ⟨'n', _, rfl, by decide⟩
  | vBool b =>
      cases b with
      | false => exact ⟨'f', _, rfl, by decide⟩
      | true => exact ⟨'t', _, rfl, by decide⟩
  | vInt i =>
      cases i with
      | ofNat n =>
          obtain ⟨c, cs, hc, hdig⟩ := natChars_head n
          refine ⟨c, cs, ?_, ?_⟩
          · rw [show dumpsVal (Val.vInt (Int.ofNat n)) = intChars (Int.ofNat n) from rfl]
            exact hc
          · rw [headKind_digit hdig]
            rfl
      | negSucc n =>
          exact ⟨'-', natChars (n + 1), rfl, by show headKind '-' = 2; decide⟩
  | vStr s => exact ⟨'"', escChars s.data ++ ['"'], rfl, by show headKind '"' = 3; decide⟩
  | vList xs => exact ⟨'[', dumpsElems xs ++ [']'], rfl, by show headKind '[' = 4; decide⟩

/-- The characters that follow an element inside a serialized array. -/
def elemsRest (xs : List Val) (t : List Char) : List Char :=
  match xs with
  | [] => ']' :: t
  | _ :: _ => ',' :: ' ' :: (dumpsElems xs ++ ']' :: t)

theorem dumpsElems_cons_append (x : Val) (xs : List Val) (t : List Char) :
    dumpsElems (x :: xs) ++ ']' :: t = dumpsVal x ++ elemsRest xs t := by
  cases xs with
  | nil => rfl
  | cons z zs =>
      rw [show dumpsElems (x :: z :: zs) =
        dumpsVal x ++ (',' :: ' ' :: dumpsElems (z :: zs)) from rfl]
      rw [elemsRest, List.append_assoc]
      rfl

theorem elemsRest_stopper (xs : List Val) (t : List Char) : isStopper (elemsRest xs t) := by
  cases xs with
  | nil =>
      show isStopper (']' :: t)
      unfold isStopper
      exact Or.inr (Or.inl rfl)
  | cons z zs =>
      show isStopper (',' :: _)
      unfold isStopper
      exact Or.inl rfl

theorem headKind_closer : headKind ']' = 5 := by decide

theorem dumpsElems_head_ne_closer {y : Val} {ys : List Val} {rest : List Char}
    (h : dumpsElems (y :: ys) = ']' :: rest) : False := by
  obtain ⟨c, cs, hc, hk⟩ := dumpsVal_head y
  have hhead : ∃ r2, dumpsElems (y :: ys) = c :: r2 := by
    cases ys with
    | nil => exact ⟨cs, by rw [show dumpsElems [y] = dumpsVal y from rfl, hc]⟩
    | cons z zs =>
        refine ⟨cs ++ (',' :: ' ' :: dumpsElems (z :: zs)), ?_⟩
        rw [show dumpsElems (y :: z :: zs) =
          dumpsVal y ++ (',' :: ' ' :: dumpsElems (z :: zs)) from rfl, hc]
        rfl
  obtain ⟨r2, hr2⟩ := hhead
  rw [h] at hr2
  have hcc : c = ']' := (List.cons.injEq _ _ _ _ ▸ hr2).1.symm
  rw [hcc, headKind_closer] at hk
  cases y <;> simp [valKind] at hk

theorem dumpsElems_prefix (N : Nat)
    (rec : ∀ v1 v2 : Val, sizeOf v1 ≤ N → ∀ t1 t2 : List Char,
      isStopper t1 → isStopper t2 → dumpsVal v1 ++ t1 = dumpsVal v2 ++ t2 →
      v1 = v2 ∧ t1 = t2) :
    ∀ xs1 xs2 : List Val, (∀ x ∈ xs1, sizeOf x ≤ N) →
    ∀ t1 t2 : List Char,
      dumpsElems xs1 ++ ']' :: t1 = dumpsElems xs2 ++ ']' :: t2 →
      xs1 = xs2 ∧ t1 = t2 := by
  intro xs1
  induction xs1 with
  | nil =>
      intro xs2 _ t1 t2 heq
      cases xs2 with
      | nil => simpa using heq
      | cons y ys =>
          exfalso
          rw [show dumpsElems [] = [] from rfl, List.nil_append] at heq
          cases hde : dumpsElems (y :: ys) with
          | nil =>
              obtain ⟨c, cs, hc, _⟩ := dumpsVal_head y
              cases ys with
              | nil =>
                  rw [show dumpsElems [y] = dumpsVal y from rfl, hc] at hde
                  cases hde
              | cons z zs =>
                  rw [show dumpsElems (y :: z :: zs) =
                    dumpsVal y ++ (',' :: ' ' :: dumpsElems (z :: zs)) from rfl, hc] at hde
                  cases hde
          | cons c rest =>
              rw [hde] at heq
              simp only [List.cons_append, List.cons.injEq] at heq
              rw [← heq.1] at hde
              exact dumpsElems_head_ne_closer hde
  | cons x xs' ihx =>
      intro xs2 hsz t1 t2 heq
      cases xs2 with
      | nil =>
          exfalso
          rw [show dumpsElems [] = [] from rfl, List.nil_append] at heq
          cases hde : dumpsElems (x :: xs') with
          | nil =>
              obtain ⟨c, cs, hc, _⟩ := dumpsVal_head x
              cases xs' with
              | nil =>
                  rw [show dumpsElems [x] = dumpsVal x from rfl, hc] at hde
                  cases hde
              | cons z zs =>
                  rw [show dumpsElems (x :: z :: zs) =
                    dumpsVal x ++ (',' :: ' ' :: dumpsElems (z :: zs)) from rfl, hc] at hde
                  cases hde
          | cons c rest =>
              rw [hde] at heq
              simp only [List.cons_append, List.cons.injEq] at heq
              rw [heq.1] at hde
              exact dumpsElems_head_ne_closer hde
      | cons y ys =>
          rw [dumpsElems_cons_append, dumpsElems_cons_append] at heq
          obtain ⟨hxy, hrr⟩ := rec x y (hsz x (List.mem_cons_self _ _)) _ _
            (elemsRest_stopper xs' t1) (elemsRest_stopper ys t2) heq
          cases xs' with
          | nil =>
              cases ys with
              | nil =>
                  refine ⟨by rw [hxy], ?_⟩
                  rw [show elemsRest [] t1 = ']' :: t1 from rfl,
                    show elemsRest [] t2 = ']' :: t2 from rfl] at hrr
                  exact (List.cons.injEq _ _ _ _ ▸ hrr).2
              | cons z zs =>
                  exfalso
                  rw [show elemsRest [] t1 = ']' :: t1 from rfl,
                    show elemsRest (z :: zs) t2 =
                      ',' :: ' ' :: (dumpsElems (z :: zs) ++ ']' :: t2) from rfl] at hrr
                  exact absurd (List.cons.injEq _ _ _ _ ▸ hrr).1 (by decide)
          | cons w ws =>
              cases ys with
              | nil =>
                  exfalso
                  rw [show elemsRest (w :: ws) t1 =
                      ',' :: ' ' :: (dumpsElems (w :: ws) ++ ']' :: t1) from rfl,
                    show elemsRest [] t2 = ']' :: t2 from rfl] at hrr
                  exact absurd (List.cons.injEq _ _ _ _ ▸ hrr).1 (by decide)
              | cons z zs =>
                  rw [show elemsRest (w :: ws) t1 =
                      ',' :: ' ' :: (dumpsElems (w :: ws) ++ ']' :: t1) from rfl,
                    show elemsRest (z :: zs) t2 =
                      ',' :: ' ' :: (dumpsElems (z :: zs) ++ ']' :: t2) from rfl] at hrr
                  simp only [List.cons.injEq, true_and] at hrr
                  obtain ⟨hre, hte⟩ := ihx (z :: zs)
                    (fun a ha => hsz a (List.mem_cons_of_mem _ ha)) t1 t2 hrr
                  exact ⟨by rw [hxy, hre], hte⟩

theorem val_sizeOf_pos (v : Val) : 0 < sizeOf v := by
  cases v <;> simp

theorem dumpsVal_prefix_size : ∀ N : Nat, ∀ v1 v2 : Val, sizeOf v1 ≤ N →
    ∀ t1 t2 : List Char, isStopper t1 → isStopper t2 →
    dumpsVal v1 ++ t1 = dumpsVal v2 ++ t2 → v1 = v2 ∧ t1 = t2 := by
  intro N
  induction N with
  | zero =>
      intro v1 v2 hsz
      exact absurd hsz (by have := val_sizeOf_pos v1; omega)
  | succ N ih =>
      intro v1 v2 hsz t1 t2 hs1 hs2 heq
      obtain ⟨c1, cs1, hc1, hk1⟩ := dumpsVal_head v1
      obtain ⟨c2, cs2, hc2, hk2⟩ := dumpsVal_head v2
      have hcc : c1 = c2 := by
        rw [hc1, hc2] at heq
        simpa using congrArg List.head? heq
      have hkk : valKind v1 = valKind v2 := by rw [← hk1, ← hk2, hcc]
      cases v1 with
      | vNull =>
          cases v2 with
          | vNull =>
              refine ⟨rfl, ?_⟩
              rw [show dumpsVal Val.vNull = ['n', 'u', 'l', 'l'] from rfl] at heq
              simpa using heq
          | vBool b => simp [valKind] at hkk
          | vInt i => simp [valKind] at hkk
          | vStr s => simp [valKind] at hkk
          | vList xs => simp [valKind] at hkk
      | vBool b1 =>
          cases v2 with
          | vNull => simp [valKind] at hkk
          | vBool b2 =>
              cases b1 with
              | true =>
                  cases b2 with
                  | true =>
                      refine ⟨rfl, ?_⟩
                      rw [show dumpsVal (Val.vBool true) = ['t', 'r', 'u', 'e'] from rfl] at heq
                      simpa using heq
                  | false =>
                      rw [show dumpsVal (Val.vBool true) = ['t', 'r', 'u', 'e'] from rfl,
                        show dumpsVal (Val.vBool false) = ['f', 'a', 'l', 's', 'e'] from rfl] at heq
                      simp at heq
              | false =>
                  cases b2 with
                  | true =>
                      rw [show dumpsVal (Val.vBool false) = ['f', 'a', 'l', 's', 'e'] from rfl,
                        show dumpsVal (Val.vBool true) = ['t', 'r', 'u', 'e'] from rfl] at heq
                      simp at heq
                  | false =>
                      refine ⟨rfl, ?_⟩
                      rw [show dumpsVal (Val.vBool false) = ['f', 'a', 'l', 's', 'e'] from rfl] at heq
                      simpa using heq
          | vInt i => simp [valKind] at hkk
          | vStr s => simp [valKind] at hkk
          | vList xs => simp [valKind] at hkk
      | vInt i1 =>
          cases v2 with
          | vNull => simp [valKind] at hkk
          | vBool b => simp [valKind] at hkk
          | vInt i2 =>
              rw [show dumpsVal (Val.vInt i1) = intChars i1 from rfl,
                show dumpsVal (Val.vInt i2) = intChars i2 from rfl] at heq
              obtain ⟨hie, hte⟩ := intChars_prefix hs1 hs2 heq
              exact ⟨by rw [hie], hte⟩
          | vStr s => simp [valKind] at hkk
          | vList xs => simp [valKind] at hkk
      | vStr s1 =>
          cases v2 with
          | vNull => simp [valKind] at hkk
          | vBool b => simp [valKind] at hkk
          | vInt i => simp [valKind] at hkk
          | vStr s2 =>
              rw [show dumpsVal (Val.vStr s1) = '"' :: (escChars s1.data ++ ['"']) from rfl,
                show dumpsVal (Val.vStr s2) = '"' :: (escChars s2.data ++ ['"']) from rfl] at heq
              simp only [List.cons_append, List.append_assoc, List.singleton_append,
                List.cons.injEq, true_and] at heq
              obtain ⟨hde, hte⟩ := escChars_inj s1.data s2.data t1 t2 heq
              refine ⟨?_, hte⟩
              cases s1
              cases s2
              simp only at hde
              rw [hde]
          | vList xs => simp [valKind] at hkk
      | vList xs1 =>
          cases v2 with
          | vNull => simp [valKind] at hkk
          | vBool b => simp [valKind] at hkk
          | vInt i => simp [valKind] at hkk
          | vStr s => simp [valKind] at hkk
          | vList xs2 =>
              rw [show dumpsVal (Val.vList xs1) = '[' :: (dumpsElems xs1 ++ [']']) from rfl,
                show dumpsVal (Val.vList xs2) = '[' :: (dumpsElems xs2 ++ [']']) from rfl] at heq
              simp only [List.cons_append, List.append_assoc, List.singleton_append,
                List.cons.injEq, true_and] at heq
              have hszx : ∀ x ∈ xs1, sizeOf x ≤ N := by
                intro x hx
                have h1 := List.sizeOf_lt_of_mem hx
                have h2 : sizeOf (Val.vList xs1) = 1 + sizeOf xs1 := by
                  simp [Val.vList.sizeOf_spec]
                omega
              obtain ⟨hxe, hte⟩ := dumpsElems_prefix N ih xs1 xs2 hszx t1 t2 heq
              exact ⟨by rw [hxe], hte⟩

theorem dumpsVal_prefix {v1 v2 : Val} {t1 t2 : List Char}
    (hs1 : isStopper t1) (hs2 : isStopper t2)
    (heq : dumpsVal v1 ++ t1 = dumpsVal v2 ++ t2) : v1 = v2 ∧ t1 = t2 :=
  dumpsVal_prefix_size (sizeOf v1) v1 v2 (le_refl _) t1 t2 hs1 hs2 heq

/-- The characters that follow an item inside a serialized object. -/
def pairsRest (ps : List (String × Val)) (t : List Char) : List Char :=
  match ps with
  | [] => '\x7d' :: t
  | _ :: _ => ',' :: ' ' :: (dumpsPairs ps ++ '\x7d' :: t)

theorem dumpsPairs_cons_append (p : String × Val) (ps : List (String × Val))
    (t : List Char) :
    dumpsPairs (p :: ps) ++ '\x7d' :: t = dumpsPair p ++ pairsRest ps t := by
  cases ps with
  | nil => rfl
  | cons q qs =>
      rw [show dumpsPairs (p :: q :: qs) =
        dumpsPair p ++ (',' :: ' ' :: dumpsPairs (q :: qs)) from rfl]
      rw [pairsRest, List.append_assoc]
      rfl

theorem pairsRest_stopper (ps : List (String × Val)) (t : List Char) :
    isStopper (pairsRest ps t) := by
  cases ps with
  | nil =>
      show isStopper ('\x7d' :: t)
      unfold isStopper
      exact Or.inr (Or.inr rfl)
  | cons q qs =>
      show isStopper (',' :: _)
      unfold isStopper
      exact Or.inl rfl

theorem dumpsPair_inj {p1 p2 : String × Val} {t1 t2 : List Char}
    (hs1 : isStopper t1) (hs2 : isStopper t2)
    (heq : dumpsPair p1 ++ t1 = dumpsPair p2 ++ t2) : p1 = p2 ∧ t1 = t2 := by
  obtain ⟨k1, v1⟩ := p1
  obtain ⟨k2, v2⟩ := p2
  rw [show dumpsPair (k1, v1) =
      '"' :: (escChars k1.data ++ ('"' :: ':' :: ' ' :: dumpsVal v1)) from rfl,
    show dumpsPair (k2, v2) =
      '"' :: (escChars k2.data ++ ('"' :: ':' :: ' ' :: dumpsVal v2)) from rfl] at heq
  simp only [List.cons_append, List.append_assoc, List.cons.injEq, true_and] at heq
  obtain ⟨hk, hrest⟩ := escChars_inj k1.data k2.data _ _ heq
  simp only [List.cons.injEq, true_and] at hrest
  obtain ⟨hv, ht⟩ := dumpsVal_prefix hs1 hs2 hrest
  refine ⟨?_, ht⟩
  cases k1
  cases k2
  simp only at hk
  rw [hk, hv]

theorem dumpsPair_head (p : String × Val) :
    ∃ rest, dumpsPair p = '"' :: rest := ⟨_, rfl⟩

theorem dumpsPairs_prefix : ∀ ps1 ps2 : List (String × Val), ∀ t1 t2 : List Char,
    dumpsPairs ps1 ++ '\x7d' :: t1 = dumpsPairs ps2 ++ '\x7d' :: t2 →
    ps1 = ps2 ∧ t1 = t2 := by
  intro ps1
  induction ps1 with
  | nil =>
      intro ps2 t1 t2 heq
      cases ps2 with
      | nil => simpa using heq
      | cons q qs =>
          exfalso
          obtain ⟨rest, hrest⟩ := dumpsPair_head q
          rw [show dumpsPairs [] = [] from rfl, List.nil_append,
            dumpsPairs_cons_append, hrest] at heq
          simp only [List.cons_append, List.cons.injEq] at heq
          exact absurd heq.1 (by decide)
  | cons p ps' ihp =>
      intro ps2 t1 t2 heq
      cases ps2 with
      | nil =>
          exfalso
          obtain ⟨rest, hrest⟩ := dumpsPair_head p
          rw [show dumpsPairs [] = [] from rfl, List.nil_append,
            dumpsPairs_cons_append, hrest] at heq
          simp only [List.cons_append, List.cons.injEq] at heq
          exact absurd heq.1 (by decide)
      | cons q qs =>
          rw [dumpsPairs_cons_append, dumpsPairs_cons_append] at heq
          obtain ⟨hpq, hrr⟩ := dumpsPair_inj (pairsRest_stopper ps' t1)
            (pairsRest_stopper qs t2) heq
          cases ps' with
          | nil =>
              cases qs with
              | nil =>
                  refine ⟨by rw [hpq], ?_⟩
                  rw [show pairsRest [] t1 = '\x7d' :: t1 from rfl,
                    show pairsRest [] t2 = '\x7d' :: t2 from rfl] at hrr
                  exact (List.cons.injEq _ _ _ _ ▸ hrr).2
              | cons w ws =>
                  exfalso
                  rw [show pairsRest [] t1 = '\x7d' :: t1 from rfl,
                    show pairsRest (w :: ws) t2 =
                      ',' :: ' ' :: (dumpsPairs (w :: ws) ++ '\x7d' :: t2) from rfl] at hrr
                  exact absurd (List.cons.injEq _ _ _ _ ▸ hrr).1 (by decide)
          | cons u us =>
              cases qs with
              | nil =>
                  exfalso
                  rw [show pairsRest (u :: us) t1 =
                      ',' :: ' ' :: (dumpsPairs (u :: us) ++ '\x7d' :: t1) from rfl,
                    show pairsRest [] t2 = '\x7d' :: t2 from rfl] at hrr
                  exact absurd (List.cons.injEq _ _ _ _ ▸ hrr).1 (by decide)
              | cons w ws =>
                  rw [show pairsRest (u :: us) t1 =
                      ',' :: ' ' :: (dumpsPairs (u :: us) ++ '\x7d' :: t1) from rfl,
                    show pairsRest (w :: ws) t2 =
                      ',' :: ' ' :: (dumpsPairs (w :: ws) ++ '\x7d' :: t2) from rfl] at hrr
                  simp only [List.cons.injEq, true_and] at hrr
                  obtain ⟨hre, hte⟩ := ihp (w :: ws) t1 t2 hrr
                  exact ⟨by rw [hpq, hre], hte⟩

theorem hash_eq_normalized_eq {r1 r2 : Record}
    (h : compute_assistant_hash r1 = compute_assistant_hash r2) :
    normalizedPairs r1 = normalizedPairs r2 := by
  unfold compute_assistant_hash at h
  have h2 : '\x7b' :: (dumpsPairs (normalizedPairs r1) ++ ['\x7d']) =
      '\x7b' :: (dumpsPairs (normalizedPairs r2) ++ ['\x7d']) :=
    congrArg String.data h
  simp only [List.cons.injEq, true_and] at h2
  exact ( dumpsPairs_prefix (normalizedPairs r1) (normalizedPairs r2) [] [] h2).1

theorem normalized_find (r : Record) : ∀ ks : List String, ks.Nodup →
    ∀ k ∈ ks,
    ((ks.filterMap (fun k2 => (rget r k2).map (fun v => (k2, v)))).find?
      (fun p => decide (p.1 = k))).map Prod.snd = rget r k := by
  intro ks
  induction ks with
  | nil =>
      intro _ k hk
      cases hk
  | cons k0 ks' ih =>
      intro hnd k hk
      have hnd2 := List.nodup_cons.mp hnd
      rw [List.filterMap_cons]
      by_cases hkk : k = k0
      · subst hkk
        cases hrv : rget r k with
        | none =>
            simp only [hrv, Option.map_none']
            have hf : (ks'.filterMap (fun k2 => (rget r k2).map (fun v => (k2, v)))).find?
                (fun p => decide (p.1 = k)) = none := by
              rw [List.find?_eq_none]
              intro p hp
              obtain ⟨k2, hk2, he⟩ := List.mem_filterMap.mp hp
              cases hrv2 : rget r k2 with
              | none =>
                  rw [hrv2] at he
                  cases he
              | some w =>
                  rw [hrv2] at he
                  simp only [Option.map_some'] at he
                  have hpe : p = (k2, w) := (Option.some.inj he).symm
                  rw [hpe]
                  simp only [decide_eq_true_eq]
                  intro hcon
                  rw [hcon] at hk2
                  exact hnd2.1 hk2
            rw [hf]
            rfl
        | some v =>
            simp only [hrv, Option.map_some']
            rw [List.find?_cons_of_pos _ (by simp)]
            rfl
      · have hkm : k ∈ ks' := by
          rcases List.mem_cons.mp hk with h | h
          · exact absurd h hkk
          · exact h
        cases hrv : rget r k0 with
        | none =>
            simp only [hrv, Option.map_none']
            exact ih hnd2.2 k hkm
        | some v =>
            simp only [hrv, Option.map_some']
            rw [List.find?_cons_of_neg _ (by
              simp only [decide_eq_true_eq]
              intro hcon
              exact hkk hcon.symm)]
            exact ih hnd2.2 k hkm

theorem rget_eq_of_normalized_eq {r1 r2 : Record}
    (h : normalizedPairs r1 = normalizedPairs r2) :
    ∀ k ∈ keyFields, rget r1 k = rget r2 k := by
  intro k hk
  have hks : k ∈ sortedKeyFields := by
    fin_cases hk <;> decide
  have h1 := normalized_find r1 sortedKeyFields (by decide) k hks
  have h2 := normalized_find r2 sortedKeyFields (by decide) k hks
  unfold normalizedPairs at h
  rw [← h1, ← h2, h]

/-! ## Claim C2: the fingerprint tracks exactly the six key fields -/

/-- C2: two records that agree on each of the six tracked fields — the field
present with the same value in both or absent from both, regardless of the
order fields are stored in and of any fields outside the six — have equal
fingerprints; and two records that differ in the value of at least one
tracked field have different fingerprints. -/
theorem hash_tracked_fields (r1 r2 : Record) :
    ((∀ k ∈ keyFields, rget r1 k = rget r2 k) →
      compute_assistant_hash r1 = compute_assistant_hash r2) ∧
    ((∃ k ∈ keyFields, rget r1 k ≠ rget r2 k) →
      compute_assistant_hash r1 ≠ compute_assistant_hash r2) := by
  constructor
  · intro h
    unfold compute_assistant_hash
    have hn : normalizedPairs r1 = normalizedPairs r2 := by
      unfold normalizedPairs
      have h1 := h "author" (by decide)
      have h2 := h "category" (by decide)
      have h3 := h "description" (by decide)
      have h4 := h "name" (by decide)
      have h5 := h "tags" (by decide)
      have h6 := h "url" (by decide)
      rw [show sortedKeyFields =
        ["author", "category", "description", "name", "tags", "url"] from rfl]
      simp only [List.filterMap_cons, List.filterMap_nil]
      rw [h1, h2, h3, h4, h5, h6]
    rw [hn]
  · rintro ⟨k, hk, hne⟩ hcon
    exact hne (rget_eq_of_normalized_eq (hash_eq_normalized_eq hcon) k hk)

theorem hash_tracked_fields_witness :
    compute_assistant_hash
        [("url", Val.vStr "u"), ("name", Val.vStr "A"), ("id", Val.vInt 7)] =
      compute_assistant_hash
        [("name", Val.vStr "A"), ("dateAdded", Val.vStr "T"), ("url", Val.vStr "u")] :=
  (hash_tracked_fields
    [("url", Val.vStr "u"), ("name", Val.vStr "A"), ("id", Val.vInt 7)]
    [("name", Val.vStr "A"), ("dateAdded", Val.vStr "T"), ("url", Val.vStr "u")]).1
    (by decide)

/-! ## Toward round-trip idempotence: lookup structure of the current map -/

theorem lookupMap_cons (p : Val × Record) (m : AssocMap) (k : Val) :
    lookupMap (p :: m) k = if p.1 = k then some p.2 else lookupMap m k := by
  by_cases h : p.1 = k <;> simp [lookupMap, List.find?, h]

theorem lookupMap_map_set (m : AssocMap) (k : Val) (v : Record) (k2 : Val) :
    lookupMap (m.map (fun p => if p.1 = k then (k, v) else p)) k2 =
      if k2 = k then (lookupMap m k).map (fun _ => v) else lookupMap m k2 := by
  induction m with
  | nil => simp [lookupMap]
  | cons p rest ih =>
      by_cases hpk : p.1 = k
      · by_cases hk2 : k2 = k
        · subst hk2
          simp [hpk, lookupMap_cons, ih]
        · simp [hpk, lookupMap_cons, ih, hk2, Ne.symm hk2]
      · by_cases hk2 : k2 = k
        · subst hk2
          simp [hpk, lookupMap_cons, ih]
        · by_cases hp2 : p.1 = k2
          · simp [hpk, lookupMap_cons, ih, hk2, hp2]
          · simp [hpk, lookupMap_cons, ih, hk2, hp2]

theorem lookupMap_append_one (m : AssocMap) (k : Val) (v : Record) (k2 : Val) :
    lookupMap (m ++ [(k, v)]) k2 =
      match lookupMap m k2 with
      | some w => some w
      | none => if k = k2 then some v else none := by
  induction m with
  | nil => simp [lookupMap_cons, lookupMap]
  | cons p rest ih =>
      by_cases hp : p.1 = k2
      · rw [List.cons_append, lookupMap_cons, if_pos hp, lookupMap_cons, if_pos hp]
      · rw [List.cons_append, lookupMap_cons, if_neg hp, lookupMap_cons, if_neg hp, ih]

theorem lookupMap_dictInsert (m : AssocMap) (k : Val) (v : Record) (k2 : Val) :
    lookupMap (dictInsert m k v) k2 = if k2 = k then some v else lookupMap m k2 := by
  unfold dictInsert
  by_cases hany : mapHasKey m k = true
  · obtain ⟨w, hw⟩ := (lookupMap_isSome_iff m k).mpr hany
    simp [hany, lookupMap_map_set, hw]
  · have hnone : lookupMap m k = none := by
      cases hr : lookupMap m k with
      | none => rfl
      | some w =>
          exact absurd ((lookupMap_isSome_iff m k).mp ⟨w, hr⟩) hany
    rw [if_neg hany, lookupMap_append_one]
    by_cases hk2 : k2 = k
    · rw [hk2, hnone]
    · rw [if_neg hk2]
      cases hr2 : lookupMap m k2 with
      | none =>
          have hne : ¬ k = k2 := fun h => hk2 h.symm
          simp [hne]
      | some w => rfl

/-- The record a live current record is filtered on when looking for key k. -/
def liveKeyed (k : Val) (c : Record) : Bool :=
  isLive c && decide (identityKey c = some k)

theorem buildCurrentMap_step (L : List Record) (c : Record) :
    buildCurrentMap (L ++ [c]) =
      (if isLive c then
        match identityKey c with
        | some k => dictInsert (buildCurrentMap L) k c
        | none => buildCurrentMap L
      else buildCurrentMap L) := by
  unfold buildCurrentMap
  rw [List.foldl_append]
  rfl

theorem buildCurrentMap_lookup (cs : List Record) (k : Val) :
    lookupMap (buildCurrentMap cs) k = (cs.filter (liveKeyed k)).getLast? := by
  induction cs using List.reverseRecOn with
  | nil => simp [buildCurrentMap, lookupMap]
  | append_singleton L c ih =>
      rw [buildCurrentMap_step, List.filter_append]
      by_cases hlive : isLive c = true
      · rw [if_pos hlive]
        cases hk : identityKey c with
        | none =>
            have hfc : List.filter (liveKeyed k) [c] = [] := by
              simp [liveKeyed, hlive, hk]
            rw [hfc, List.append_nil]
            exact ih
        | some k0 =>
            by_cases hkk : k = k0
            · subst hkk
              have hfc : List.filter (liveKeyed k) [c] = [c] := by
                simp [liveKeyed, hlive, hk]
              show lookupMap (dictInsert (buildCurrentMap L) k c) k = _
              rw [hfc, lookupMap_dictInsert, if_pos rfl, List.getLast?_concat]
            · have hfc : List.filter (liveKeyed k) [c] = [] := by
                simp [liveKeyed, hlive, hk]
                intro hcon
                exact absurd hcon.symm hkk
              show lookupMap (dictInsert (buildCurrentMap L) k0 c) k = _
              rw [hfc, List.append_nil, lookupMap_dictInsert, if_neg hkk]
              exact ih
      · rw [if_neg hlive]
        have hfc : List.filter (liveKeyed k) [c] = [] := by
          simp [liveKeyed, hlive]
        rw [hfc, List.append_nil]
        exact ih

/-! ## Decomposing the application of a planned batch -/

/-- The update operations of a batch, as target-id/payload steps. -/
def updateSteps : List Operation → List (Val × Record)
  | [] => []
  | op :: rest =>
    match op.action, op.opId with
    | OpAction.update, some t => (t, op.data) :: updateSteps rest
    | _, _ => updateSteps rest

/-- The data payloads of the insert operations of a batch, in order. -/
def insertDatas : List Operation → List Record
  | [] => []
  | op :: rest =>
    match op.action with
    | OpAction.insert => op.data :: insertDatas rest
    | _ => insertDatas rest

/-- Applying every update step of a batch to one record, in order. -/
def applyUpds (ts : List (Val × Record)) (c : Record) : Record :=
  ts.foldl (fun acc p =>
    if pyGet acc "id" Val.vNull = p.1 then mergeRecord acc p.2 else acc) c

theorem applyUpds_no_match (ts : List (Val × Record)) (c : Record)
    (h : ∀ p ∈ ts, pyGet c "id" Val.vNull ≠ p.1) : applyUpds ts c = c := by
  induction ts with
  | nil => rfl
  | cons p rest ih =>
      unfold applyUpds
      rw [List.foldl_cons, if_neg (h p (List.mem_cons_self _ _))]
      exact ih (fun q hq => h q (List.mem_cons_of_mem _ hq))

theorem pyGet_mergeRecord_id (c : Record) (d : Record)
    (hd : overrideVal d "id" = none) :
    pyGet (mergeRecord c d) "id" Val.vNull = pyGet c "id" Val.vNull := by
  unfold pyGet
  rw [rget_mergeRecord, hd]

theorem applyUpds_match (ts : List (Val × Record)) (c : Record) (t0 : Val) (d0 : Record)
    (hmem : (t0, d0) ∈ ts) (hme : pyGet c "id" Val.vNull = t0)
    (hnd : (ts.map Prod.fst).Nodup)
    (hid : ∀ p ∈ ts, overrideVal p.2 "id" = none) :
    applyUpds ts c = mergeRecord c d0 := by
  induction ts with
  | nil => cases hmem
  | cons p rest ih =>
      have hnd2 := List.nodup_cons.mp hnd
      rcases List.mem_cons.mp hmem with hh | hh
      · have hp1 : p.1 = t0 := by rw [← hh]
        have hp2 : p.2 = d0 := by rw [← hh]
        unfold applyUpds
        rw [List.foldl_cons, if_pos (by rw [hp1]; exact hme)]
        rw [hp2]
        have hrest : ∀ q ∈ rest, pyGet (mergeRecord c d0) "id" Val.vNull ≠ q.1 := by
          intro q hq
          rw [pyGet_mergeRecord_id c d0 (by rw [← hp2]; exact hid p (List.mem_cons_self _ _)),
            hme, ← hp1]
          intro hcon
          exact hnd2.1 (by rw [hcon]; exact List.mem_map.mpr ⟨q, hq, rfl⟩)
        exact applyUpds_no_match rest (mergeRecord c d0) hrest
      · have hne : pyGet c "id" Val.vNull ≠ p.1 := by
          rw [hme]
          intro hcon
          exact hnd2.1 (by rw [← hcon]; exact List.mem_map.mpr ⟨(t0, d0), hh, rfl⟩)
        unfold applyUpds
        rw [List.foldl_cons, if_neg hne]
        exact ih hh hnd2.2 (fun q hq => hid q (List.mem_cons_of_mem _ hq))

theorem applyUpds_cases (ts : List (Val × Record)) (c : Record)
    (hnd : (ts.map Prod.fst).Nodup)
    (hid : ∀ p ∈ ts, overrideVal p.2 "id" = none) :
    applyUpds ts c = c ∨
      ∃ t0 d0, (t0, d0) ∈ ts ∧ pyGet c "id" Val.vNull = t0 ∧
        applyUpds ts c = mergeRecord c d0 := by
  by_cases hex : ∃ p ∈ ts, pyGet c "id" Val.vNull = p.1
  · obtain ⟨p, hp, hpe⟩ := hex
    exact Or.inr ⟨p.1, p.2, by rwa [show (p.1, p.2) = p from rfl], hpe,
      applyUpds_match ts c p.1 p.2 (by rwa [show (p.1, p.2) = p from rfl]) hpe hnd hid⟩
  · push_neg at hex
    exact Or.inl (applyUpds_no_match ts c hex)

theorem applyOperations_split : ∀ ops : List Operation, ∀ L : List Record,
    (∀ op ∈ ops, op.action = OpAction.insert → rget op.data "id" = none) →
    (∀ p ∈ updateSteps ops, p.1 ≠ Val.vNull) →
    applyOperations L ops =
      L.map (applyUpds (updateSteps ops)) ++ insertDatas ops := by
  intro ops
  induction ops with
  | nil =>
      intro L _ _
      have hmap : List.map (applyUpds (updateSteps [])) L = L := by
        have hcc : ∀ c ∈ L, applyUpds (updateSteps []) c = id c := fun c _ => rfl
        rw [List.map_congr_left hcc, List.map_id]
      simp only [applyOperations, List.foldl_nil, insertDatas, List.append_nil]
      rw [hmap]
  | cons op rest ih =>
      obtain ⟨act, oid, dat⟩ := op
      intro L hins hupd
      cases act with
      | insert =>
          have hstep : applyOperation L (Operation.mk OpAction.insert oid dat)
              = L ++ [dat] := by
            cases oid <;> rfl
          have hus : updateSteps (Operation.mk OpAction.insert oid dat :: rest)
              = updateSteps rest := by
            cases oid <;> rfl
          have hds : insertDatas (Operation.mk OpAction.insert oid dat :: rest)
              = dat :: insertDatas rest := rfl
          have happ : applyOperations L (Operation.mk OpAction.insert oid dat :: rest) =
              applyOperations (L ++ [dat]) rest := by
            unfold applyOperations
            rw [List.foldl_cons, hstep]
          rw [happ, ih (L ++ [dat])
            (fun o ho hao => hins o (List.mem_cons_of_mem _ ho) hao)
            (fun p hp => hupd p (by rw [hus]; exact hp))]
          rw [hus, hds, List.map_append]
          have hdid : applyUpds (updateSteps rest) dat = dat := by
            apply applyUpds_no_match
            intro p hp
            have h1 : rget dat "id" = none :=
              hins (Operation.mk OpAction.insert oid dat) (List.mem_cons_self _ _) rfl
            have h2 : pyGet dat "id" Val.vNull = Val.vNull := by
              unfold pyGet
              rw [h1]
              rfl
            rw [h2]
            intro hcon
            exact hupd p (by rw [hus]; exact hp) hcon.symm
          rw [show List.map (applyUpds (updateSteps rest)) [dat] =
            [applyUpds (updateSteps rest) dat] from rfl, hdid]
          rw [List.append_assoc]
          rfl
      | update =>
          cases oid with
          | some t =>
              have hstep : applyOperation L (Operation.mk OpAction.update (some t) dat) =
                  L.map (fun r =>
                    if pyGet r "id" Val.vNull = t then mergeRecord r dat else r) := rfl
              have hus : updateSteps (Operation.mk OpAction.update (some t) dat :: rest)
                  = (t, dat) :: updateSteps rest := rfl
              have hds : insertDatas (Operation.mk OpAction.update (some t) dat :: rest)
                  = insertDatas rest := rfl
              have happ : applyOperations L (Operation.mk OpAction.update (some t) dat :: rest) =
                  applyOperations (L.map (fun r =>
                    if pyGet r "id" Val.vNull = t then mergeRecord r dat else r)) rest := by
                unfold applyOperations
                rw [List.foldl_cons, hstep]
              rw [happ, ih _
                (fun o ho hao => hins o (List.mem_cons_of_mem _ ho) hao)
                (fun p hp => hupd p (by rw [hus]; exact List.mem_cons_of_mem _ hp))]
              rw [hus, hds, List.map_map]
              have hcomp : ∀ r ∈ L,
                  (applyUpds (updateSteps rest) ∘ (fun r =>
                    if pyGet r "id" Val.vNull = t then mergeRecord r dat else r)) r =
                  applyUpds ((t, dat) :: updateSteps rest) r := fun r _ => rfl
              rw [List.map_congr_left hcomp]
          | none =>
              have hstep : applyOperation L (Operation.mk OpAction.update none dat) = L := rfl
              have hus : updateSteps (Operation.mk OpAction.update none dat :: rest)
                  = updateSteps rest := rfl
              have hds : insertDatas (Operation.mk OpAction.update none dat :: rest)
                  = insertDatas rest := rfl
              have happ : applyOperations L (Operation.mk OpAction.update none dat :: rest) =
                  applyOperations L rest := by
                unfold applyOperations
                rw [List.foldl_cons, hstep]
              rw [happ, ih L
                (fun o ho hao => hins o (List.mem_cons_of_mem _ ho) hao)
                (fun p hp => hupd p (by rw [hus]; exact hp))]
              rw [hus, hds]

/-! ## The update steps and insert payloads of a planned batch -/

theorem updateSteps_append (a b : List Operation) :
    updateSteps (a ++ b) = updateSteps a ++ updateSteps b := by
  induction a with
  | nil => rfl
  | cons op rest ih =>
      obtain ⟨act, oid, dat⟩ := op
      cases act with
      | insert => cases oid <;> exact ih
      | update =>
          cases oid with
          | some t =>
              show (t, dat) :: updateSteps (rest ++ b) = ((t, dat) :: updateSteps rest) ++ _
              rw [List.cons_append, ih]
          | none => exact ih

theorem insertDatas_append (a b : List Operation) :
    insertDatas (a ++ b) = insertDatas a ++ insertDatas b := by
  induction a with
  | nil => rfl
  | cons op rest ih =>
      obtain ⟨act, oid, dat⟩ := op
      cases act with
      | insert =>
          show dat :: insertDatas (rest ++ b) = (dat :: insertDatas rest) ++ _
          rw [List.cons_append, ih]
      | update => exact ih

theorem updateSteps_newOps (now : String) (L : List Record) :
    updateSteps (newOps now L) = [] := by
  induction L with
  | nil => rfl
  | cons a rest ih => exact ih

theorem insertDatas_newOps (now : String) (L : List Record) :
    insertDatas (newOps now L) = L.map (fun a => newInsertData a now) := by
  induction L with
  | nil => rfl
  | cons a rest ih =>
      show newInsertData a now :: insertDatas (newOps now rest) = _
      rw [ih]
      rfl

theorem updateSteps_updatedOps (now : String) (L : List (Record × Record)) :
    updateSteps (updatedOps now L) =
      L.map (fun p => (pyGet p.1 "id" Val.vNull, deactData now)) := by
  induction L with
  | nil => rfl
  | cons p rest ih =>
      show (pyGet p.1 "id" Val.vNull, deactData now) :: updateSteps (updatedOps now rest) = _
      rw [ih]
      rfl

theorem insertDatas_updatedOps (now : String) (L : List (Record × Record)) :
    insertDatas (updatedOps now L) = L.map (fun p => succInsertData p.1 p.2 now) := by
  induction L with
  | nil => rfl
  | cons p rest ih =>
      show succInsertData p.1 p.2 now :: insertDatas (updatedOps now rest) = _
      rw [ih]
      rfl

theorem updateSteps_deletedOps (now : String) (L : List Record) :
    updateSteps (deletedOps now L) =
      L.map (fun c => (pyGet c "id" Val.vNull, deleteData now)) := by
  induction L with
  | nil => rfl
  | cons c rest ih =>
      show (pyGet c "id" Val.vNull, deleteData now) :: updateSteps (deletedOps now rest) = _
      rw [ih]
      rfl

theorem insertDatas_deletedOps (now : String) (L : List Record) :
    insertDatas (deletedOps now L) = [] := by
  induction L with
  | nil => rfl
  | cons c rest ih => exact ih

theorem planOperations_updateSteps (ch : Changes) (now : String) :
    updateSteps (planOperations ch now) =
      ch.updated.map (fun p => (pyGet p.1 "id" Val.vNull, deactData now)) ++
        ch.deleted.map (fun c => (pyGet c "id" Val.vNull, deleteData now)) := by
  unfold planOperations
  rw [updateSteps_append, updateSteps_append, updateSteps_newOps,
    updateSteps_updatedOps, updateSteps_deletedOps, List.nil_append]

theorem planOperations_insertDatas (ch : Changes) (now : String) :
    insertDatas (planOperations ch now) =
      ch.new.map (fun a => newInsertData a now) ++
        ch.updated.map (fun p => succInsertData p.1 p.2 now) := by
  unfold planOperations
  rw [insertDatas_append, insertDatas_append, insertDatas_newOps,
    insertDatas_updatedOps, insertDatas_deletedOps, List.append_nil]

/-! ## Field structure of merged and inserted records -/

theorem rget_merge_of_override_none (c d : Record) (k : String)
    (h : overrideVal d k = none) : rget (mergeRecord c d) k = rget c k := by
  rw [rget_mergeRecord, h]

theorem identityKey_congr (r1 r2 : Record) (hn : rget r1 "name" = rget r2 "name")
    (hi : rget r1 "id" = rget r2 "id") : identityKey r1 = identityKey r2 := by
  unfold identityKey pyGet
  rw [hn, hi]

theorem overrideVal_deact_id (now : String) : overrideVal (deactData now) "id" = none := by
  simp [overrideVal, deactData]

theorem overrideVal_delete_id (now : String) : overrideVal (deleteData now) "id" = none := by
  simp [overrideVal, deleteData]

theorem isLive_merge_deact (c : Record) (now : String) :
    isLive (mergeRecord c (deactData now)) = false := by
  unfold isLive pyGet
  rw [rget_mergeRecord]
  rw [show overrideVal (deactData now) "isActive" = some (Val.vBool false) from by
    simp [overrideVal, deactData]]
  simp [truthy]

theorem isLive_merge_delete (c : Record) (now : String) :
    isLive (mergeRecord c (deleteData now)) = false := by
  unfold isLive pyGet
  rw [rget_mergeRecord]
  rw [show overrideVal (deleteData now) "isActive" = some (Val.vBool false) from by
    simp [overrideVal, deleteData]]
  simp [truthy]

theorem identityKey_merge_deact (c : Record) (now : String) :
    identityKey (mergeRecord c (deactData now)) = identityKey c := by
  apply identityKey_congr
  · exact rget_merge_of_override_none c _ "name" (by simp [overrideVal, deactData])
  · exact rget_merge_of_override_none c _ "id" (overrideVal_deact_id now)

theorem identityKey_merge_delete (c : Record) (now : String) :
    identityKey (mergeRecord c (deleteData now)) = identityKey c := by
  apply identityKey_congr
  · exact rget_merge_of_override_none c _ "name" (by simp [overrideVal, deleteData])
  · exact rget_merge_of_override_none c _ "id" (overrideVal_delete_id now)

theorem rget_newInsertData_carried (a : Record) (now : String) (k : String)
    (h1 : k ≠ "isActive") (h2 : k ≠ "dateAdded") (h3 : k ≠ "version") :
    rget (newInsertData a now) k = rget a k := by
  rw [newInsertData, rget_mergeRecord]
  have e1 : ¬ "isActive" = k := fun hh => h1 hh.symm
  have e2 : ¬ "dateAdded" = k := fun hh => h2 hh.symm
  have e3 : ¬ "version" = k := fun hh => h3 hh.symm
  have hov : overrideVal
      [("isActive", Val.vBool true), ("dateAdded", Val.vStr now),
       ("version", Val.vInt 1)] k = none := by
    simp [overrideVal, e1, e2, e3]
  rw [hov]

theorem rget_newInsertData_isActive (a : Record) (now : String) :
    rget (newInsertData a now) "isActive" = some (Val.vBool true) := by
  rw [newInsertData, rget_mergeRecord]
  simp [overrideVal]

theorem hash_congr {r1 r2 : Record} (h : ∀ k ∈ keyFields, rget r1 k = rget r2 k) :
    compute_assistant_hash r1 = compute_assistant_hash r2 := by
  unfold compute_assistant_hash
  have hn : normalizedPairs r1 = normalizedPairs r2 := by
    unfold normalizedPairs
    have h1 := h "author" (by decide)
    have h2 := h "category" (by decide)
    have h3 := h "description" (by decide)
    have h4 := h "name" (by decide)
    have h5 := h "tags" (by decide)
    have h6 := h "url" (by decide)
    rw [show sortedKeyFields =
      ["author", "category", "description", "name", "tags", "url"] from rfl]
    simp only [List.filterMap_cons, List.filterMap_nil]
    rw [h1, h2, h3, h4, h5, h6]
  rw [hn]

theorem hash_newInsertData (a : Record) (now : String) :
    compute_assistant_hash (newInsertData a now) = compute_assistant_hash a := by
  apply hash_congr
  intro k hk
  fin_cases hk <;> (apply rget_newInsertData_carried <;> decide)

theorem hash_succInsertData (old nw : Record) (now : String) :
    compute_assistant_hash (succInsertData old nw now) = compute_assistant_hash nw := by
  apply hash_congr
  intro k hk
  fin_cases hk <;> (apply rget_succInsertData_carried <;> decide)

theorem isLive_newInsertData (a : Record) (now : String)
    (h : rget a "dateDeleted" = none) : isLive (newInsertData a now) = true := by
  unfold isLive pyGet
  rw [rget_newInsertData_isActive,
    rget_newInsertData_carried a now "dateDeleted" (by decide) (by decide) (by decide), h]
  simp [truthy]

theorem isLive_succInsertData (old nw : Record) (now : String)
    (h : rget nw "dateDeleted" = none) : isLive (succInsertData old nw now) = true := by
  unfold isLive pyGet
  rw [(rget_succInsertData_overrides old nw now).1,
    rget_succInsertData_carried old nw now "dateDeleted"
      (by decide) (by decide) (by decide) (by decide), h]
  simp [truthy]

theorem identityKey_newInsertData (a : Record) (now : String) :
    identityKey (newInsertData a now) = identityKey a := by
  apply identityKey_congr
  · exact rget_newInsertData_carried a now "name" (by decide) (by decide) (by decide)
  · exact rget_newInsertData_carried a now "id" (by decide) (by decide) (by decide)

theorem identityKey_succInsertData (old nw : Record) (now : String) :
    identityKey (succInsertData old nw now) = identityKey nw := by
  apply identityKey_congr
  · exact rget_succInsertData_carried old nw now "name"
      (by decide) (by decide) (by decide) (by decide)
  · exact rget_succInsertData_carried old nw now "id"
      (by decide) (by decide) (by decide) (by decide)

/-! ## Well-formed collections for the round trip -/

/-- The identity key a well-formed declared record derives: its name. -/
def declKey (d : Record) : Val := pyGet d "name" Val.vNull

/-- Well-formedness of the declared collection, per the data model: every
record has a non-empty name, carries no store-assigned id, no dateDeleted,
and identity keys are unique within the collection. -/
def wfDeclared (ds : List Record) : Prop :=
  (∀ d ∈ ds, (∃ s, s ≠ "" ∧ rget d "name" = some (Val.vStr s)) ∧
    rget d "id" = none ∧ rget d "dateDeleted" = none) ∧
  (ds.map declKey).Nodup

/-- Well-formedness of the persisted collection: every record carries a
non-null store id, ids are unique, and live records have unique identity
keys, as the data model's invariants require. -/
def wfCurrent (cs : List Record) : Prop :=
  (∀ c ∈ cs, ∃ v, v ≠ Val.vNull ∧ rget c "id" = some v) ∧
  (cs.map (fun c => rget c "id")).Nodup ∧
  ((cs.filter isLive).filterMap identityKey).Nodup

theorem identityKey_eq_declKey {d : Record}
    (h : ∃ s, s ≠ "" ∧ rget d "name" = some (Val.vStr s)) :
    identityKey d = some (declKey d) := by
  obtain ⟨s, hs, hn⟩ := h
  unfold identityKey declKey pyGet
  rw [hn]
  simp [truthy, hs]

theorem mapHasKey_append_one (m : AssocMap) (k0 : Val) (v : Record) (k : Val) :
    mapHasKey (m ++ [(k0, v)]) k = true ↔ mapHasKey m k = true ∨ k0 = k := by
  rw [mapHasKey_iff]
  constructor
  · rintro ⟨w, hw⟩
    rcases List.mem_append.mp hw with h | h
    · exact Or.inl ((mapHasKey_iff m k).mpr ⟨w, h⟩)
    · right
      have := List.mem_singleton.mp h
      exact (congrArg Prod.fst this).symm
  · rintro (h | h)
    · obtain ⟨w, hw⟩ := (mapHasKey_iff m k).mp h
      exact ⟨w, List.mem_append.mpr (Or.inl hw)⟩
    · exact ⟨v, List.mem_append.mpr (Or.inr (by rw [h]; exact List.mem_singleton.mpr rfl))⟩

theorem buildYamlMap_eq_map (ds : List Record)
    (hkeys : ∀ d ∈ ds, identityKey d = some (declKey d))
    (hnd : (ds.map declKey).Nodup) :
    buildYamlMap ds = ds.map (fun d => (declKey d, d)) := by
  suffices hgen : ∀ ds2 : List Record, ∀ m : AssocMap,
      (∀ d ∈ ds2, identityKey d = some (declKey d)) →
      (ds2.map declKey).Nodup →
      (∀ d ∈ ds2, mapHasKey m (declKey d) = false) →
      ds2.foldl (fun m a => match identityKey a with
        | some k => dictInsert m k a
        | none => m) m = m ++ ds2.map (fun d => (declKey d, d)) by
    rw [buildYamlMap, hgen ds [] hkeys hnd (fun d _ => rfl), List.nil_append]
  intro ds2
  induction ds2 with
  | nil =>
      intro m _ _ _
      rw [List.foldl_nil, List.map_nil, List.append_nil]
  | cons d rest ih =>
      intro m hk hnd2 hfree
      rw [List.foldl_cons, hk d (List.mem_cons_self _ _)]
      have hins : dictInsert m (declKey d) d = m ++ [(declKey d, d)] := by
        unfold dictInsert
        rw [if_neg (by rw [hfree d (List.mem_cons_self _ _)]; exact Bool.false_ne_true)]
      show List.foldl (fun m a => match identityKey a with
        | some k => dictInsert m k a
        | none => m) (dictInsert m (declKey d) d) rest =
        m ++ List.map (fun d => (declKey d, d)) (d :: rest)
      rw [hins]
      have hnd3 : declKey d ∉ List.map declKey rest ∧ (List.map declKey rest).Nodup := by
        rw [List.map_cons] at hnd2
        exact List.nodup_cons.mp hnd2
      rw [ih (m ++ [(declKey d, d)])
        (fun e he => hk e (List.mem_cons_of_mem _ he))
        hnd3.2
        (fun e he => by
          cases hv : mapHasKey (m ++ [(declKey d, d)]) (declKey e) with
          | false => rfl
          | true =>
              exfalso
              rcases (mapHasKey_append_one m (declKey d) d (declKey e)).mp hv with h1 | h1
              · rw [hfree e (List.mem_cons_of_mem _ he)] at h1
                cases h1
              · exact hnd3.1 (by rw [h1]; exact List.mem_map.mpr ⟨e, he, rfl⟩))]
      rw [List.append_assoc]
      rfl

theorem liveKeyed_filter_le_one (cs : List Record)
    (hnd : ((cs.filter isLive).filterMap identityKey).Nodup) (k : Val) :
    (cs.filter (liveKeyed k)).length ≤ 1 := by
  induction cs with
  | nil => simp
  | cons c rest ih =>
      by_cases hlive : isLive c = true
      · rw [show List.filter isLive (c :: rest) = c :: List.filter isLive rest from by
          simp [hlive]] at hnd
        cases hik : identityKey c with
        | none =>
            have hnd2 : ((rest.filter isLive).filterMap identityKey).Nodup := by
              rw [List.filterMap_cons, hik] at hnd
              exact hnd
            have hlk : liveKeyed k c = false := by
              simp [liveKeyed, hlive, hik]
            rw [show List.filter (liveKeyed k) (c :: rest) =
              List.filter (liveKeyed k) rest from by simp [hlk]]
            exact ih hnd2
        | some k2 =>
            rw [List.filterMap_cons, hik] at hnd
            have hnd3 := List.nodup_cons.mp hnd
            by_cases hkk : k2 = k
            · subst hkk
              have hlk : liveKeyed k2 c = true := by
                simp [liveKeyed, hlive, hik]
              rw [show List.filter (liveKeyed k2) (c :: rest) =
                c :: List.filter (liveKeyed k2) rest from by simp [hlk]]
              have hrest : List.filter (liveKeyed k2) rest = [] := by
                rw [List.filter_eq_nil_iff]
                intro c2 hc2
                intro hcon
                simp only [liveKeyed, Bool.and_eq_true, decide_eq_true_eq] at hcon
                have hc2l : isLive c2 = true := hcon.1
                have hc2k : identityKey c2 = some k2 := hcon.2
                apply hnd3.1
                apply List.mem_filterMap.mpr
                exact ⟨c2, List.mem_filter.mpr ⟨hc2, hc2l⟩, hc2k⟩
              rw [hrest]
              simp
            · have hlk : liveKeyed k c = false := by
                simp [liveKeyed, hlive, hik]
                exact hkk
              rw [show List.filter (liveKeyed k) (c :: rest) =
                List.filter (liveKeyed k) rest from by simp [hlk]]
              exact ih hnd3.2
      · have hnd2 : ((rest.filter isLive).filterMap identityKey).Nodup := by
          rw [show List.filter isLive (c :: rest) = List.filter isLive rest from by
            simp [hlive]] at hnd
          exact hnd
        have hlk : liveKeyed k c = false := by
          simp [liveKeyed, hlive]
        rw [show List.filter (liveKeyed k) (c :: rest) =
          List.filter (liveKeyed k) rest from by simp [hlk]]
        exact ih hnd2

theorem liveKeyed_filter_eq_single {cs : List Record} {k : Val} {c : Record}
    (hnd : ((cs.filter isLive).filterMap identityKey).Nodup)
    (hlast : (cs.filter (liveKeyed k)).getLast? = some c) :
    cs.filter (liveKeyed k) = [c] := by
  cases hf : cs.filter (liveKeyed k) with
  | nil =>
      rw [hf] at hlast
      cases hlast
  | cons x rest =>
      cases rest with
      | nil =>
          rw [hf] at hlast
          have : x = c := by simpa [List.getLast?] using hlast
          rw [this]
      | cons y rest2 =>
          exfalso
          have hle := liveKeyed_filter_le_one cs hnd k
          rw [hf] at hle
          simp at hle

theorem classify_all_unchanged (cmap : AssocMap) : ∀ L : List (Val × Record),
    (∀ p ∈ L, ∃ c, lookupMap cmap p.1 = some c ∧
      compute_assistant_hash p.2 = compute_assistant_hash c) →
    classify cmap L = ([], [], L.map Prod.snd) := by
  intro L
  induction L with
  | nil => intro _; rfl
  | cons p rest ih =>
      intro h
      obtain ⟨k0, ya⟩ := p
      obtain ⟨c, hc, hh⟩ := h (k0, ya) (List.mem_cons_self _ _)
      have hr := ih (fun q hq => h q (List.mem_cons_of_mem _ hq))
      have hne : ¬ compute_assistant_hash ya ≠ compute_assistant_hash c := by
        rw [show compute_assistant_hash (k0, ya).2 = compute_assistant_hash ya from rfl] at hh
        exact fun hcon => hcon hh
      simp only [classify, hc, hr, if_neg hne]
      rfl

theorem selectDeleted_nil (ymap : AssocMap) : ∀ M : AssocMap,
    (∀ p ∈ M, mapHasKey ymap p.1 = true) → selectDeleted ymap M = [] := by
  intro M
  induction M with
  | nil => intro _; rfl
  | cons p rest ih =>
      intro h
      obtain ⟨k0, c0⟩ := p
      simp only [selectDeleted, if_pos (h (k0, c0) (List.mem_cons_self _ _))]
      exact ih (fun q hq => h q (List.mem_cons_of_mem _ hq))

/-! ## Closed forms for the classification over a keyed map -/

theorem filterMap_filter_comm {α β : Type} (l : List α) (f : α → Option β)
    (p : β → Bool) :
    (l.filterMap f).filter p = l.filterMap fun a => (f a).filter p := by
  induction l with
  | nil => rfl
  | cons a rest ih =>
      rw [List.filterMap_cons]
      cases hf : f a with
      | none =>
          rw [List.filterMap_cons, hf]
          simpa using ih
      | some b =>
          rw [List.filterMap_cons, hf]
          by_cases hp : p b = true
          · simp [hp, List.filter_cons, Option.filter, ih]
          · simp [hp, List.filter_cons, Option.filter, ih]

theorem classify_filterMap (cmap : AssocMap) : ∀ L : List (Val × Record),
    classify cmap L =
      (L.filterMap (fun q => match lookupMap cmap q.1 with
          | none => some q.2
          | some _ => none),
       L.filterMap (fun q => match lookupMap cmap q.1 with
          | some c =>
              if compute_assistant_hash q.2 ≠ compute_assistant_hash c
              then some (c, q.2) else none
          | none => none),
       L.filterMap (fun q => match lookupMap cmap q.1 with
          | some c =>
              if compute_assistant_hash q.2 ≠ compute_assistant_hash c
              then none else some q.2
          | none => none)) := by
  intro L
  induction L with
  | nil => rfl
  | cons q rest ih =>
      obtain ⟨k0, ya⟩ := q
      cases hl : lookupMap cmap k0 with
      | none =>
          simp only [classify, hl, ih, List.filterMap_cons]
      | some c =>
          by_cases hh : compute_assistant_hash ya ≠ compute_assistant_hash c
          · simp only [classify, hl, ih, List.filterMap_cons, if_pos hh]
          · simp only [classify, hl, ih, List.filterMap_cons, if_neg hh]

/-- Over a declared list with unique keys, a per-record selector that can
only fire at one key yields at most the one record's result. -/
theorem filterMap_key_single {β : Type} {ds : List Record}
    (hnd : (ds.map declKey).Nodup) {d : Record} (hd : d ∈ ds)
    (F : Record → Option β)
    (hconst : ∀ e ∈ ds, declKey e ≠ declKey d → F e = none) :
    ds.filterMap F = (F d).toList := by
  induction ds with
  | nil => cases hd
  | cons e rest ih =>
      have hnd2 : declKey e ∉ rest.map declKey ∧ (rest.map declKey).Nodup := by
        rw [List.map_cons] at hnd
        exact List.nodup_cons.mp hnd
      rcases List.mem_cons.mp hd with hh | hh
      · subst hh
        have hrest : rest.filterMap F = [] := by
          rw [List.filterMap_eq_nil_iff]
          intro x hx
          apply hconst x (List.mem_cons_of_mem _ hx)
          intro hcon
          exact hnd2.1 (by rw [← hcon]; exact List.mem_map.mpr ⟨x, hx, rfl⟩)
        rw [List.filterMap_cons, hrest]
        cases hF : F d with
        | none => rfl
        | some b => rfl
      · have hne : F e = none := by
          apply hconst e (List.mem_cons_self _ _)
          intro hcon
          exact hnd2.1 (by rw [hcon]; exact List.mem_map.mpr ⟨d, hh, rfl⟩)
        rw [List.filterMap_cons, hne]
        exact ih hnd2.2 hh
          (fun x hx hxk => hconst x (List.mem_cons_of_mem _ hx) hxk)

/-- The identity keys of the old halves of updated pairs form a sublist of
the map's key column. -/
theorem classify_updated_olds_keys (cmap : AssocMap)
    (hinv : ∀ p ∈ cmap, identityKey p.2 = some p.1) :
    ∀ L : List (Val × Record),
    ((classify cmap L).2.1.map (fun p => identityKey p.1)).Sublist
      (L.map (fun q => (some q.1 : Option Val))) := by
  intro L
  induction L with
  | nil => simp [classify]
  | cons q rest ih =>
      obtain ⟨k0, ya⟩ := q
      cases hl : lookupMap cmap k0 with
      | none =>
          simp only [classify, hl, List.map_cons]
          exact ih.cons _
      | some c =>
          by_cases hh : compute_assistant_hash ya ≠ compute_assistant_hash c
          · simp only [classify, hl, if_pos hh, List.map_cons]
            have hc : identityKey c = some k0 := hinv (k0, c) (lookupMap_mem hl)
            rw [show identityKey (c, ya).1 = identityKey c from rfl, hc]
            exact ih.cons₂ _
          · simp only [classify, hl, if_neg hh, List.map_cons]
            exact ih.cons _

theorem selectDeleted_keys (ymap : AssocMap) : ∀ M : AssocMap,
    (∀ p ∈ M, identityKey p.2 = some p.1) →
    ((selectDeleted ymap M).map identityKey).Sublist
      (M.map (fun q => (some q.1 : Option Val))) := by
  intro M
  induction M with
  | nil => simp [selectDeleted]
  | cons p rest ih =>
      intro hinv
      obtain ⟨k0, c0⟩ := p
      by_cases hy : mapHasKey ymap k0 = true
      · simp only [selectDeleted, if_pos hy, List.map_cons]
        exact (ih (fun q hq => hinv q (List.mem_cons_of_mem _ hq))).cons _
      · simp only [selectDeleted, if_neg hy, List.map_cons]
        rw [hinv (k0, c0) (List.mem_cons_self _ _)]
        exact (ih (fun q hq => hinv q (List.mem_cons_of_mem _ hq))).cons₂ _

theorem mapKeys_some_nodup {m : AssocMap} (h : (mapKeys m).Nodup) :
    (m.map (fun q => (some q.1 : Option Val))).Nodup := by
  have : m.map (fun q => (some q.1 : Option Val)) = (mapKeys m).map some := by
    unfold mapKeys
    rw [List.map_map]
    rfl
  rw [this]
  exact h.map (fun a b hab => Option.some.inj hab)

/-- Selector form of the New class over the declared list. -/
def newSel (cs : List Record) (e : Record) : Option Record :=
  match lookupMap (buildCurrentMap cs) (declKey e) with
  | none => some e
  | some _ => none

/-- Selector form of the Updated class over the declared list. -/
def updSel (cs : List Record) (e : Record) : Option (Record × Record) :=
  match lookupMap (buildCurrentMap cs) (declKey e) with
  | some c =>
      if compute_assistant_hash e ≠ compute_assistant_hash c
      then some (c, e) else none
  | none => none

/-- Selector form of the Unchanged class over the declared list. -/
def unchSel (cs : List Record) (e : Record) : Option Record :=
  match lookupMap (buildCurrentMap cs) (declKey e) with
  | some c =>
      if compute_assistant_hash e ≠ compute_assistant_hash c
      then none else some e
  | none => none

theorem detect_new_closed (ds cs : List Record)
    (hkeys : ∀ d ∈ ds, identityKey d = some (declKey d))
    (hdnd : (ds.map declKey).Nodup) :
    (detect_changes ds cs).new = ds.filterMap (newSel cs) := by
  rw [detect_changes_new, classify_filterMap,
    buildYamlMap_eq_map ds hkeys hdnd]
  rw [show ((List.map (fun d => (declKey d, d)) ds).filterMap
      (fun q => match lookupMap (buildCurrentMap cs) q.1 with
        | none => some q.2
        | some _ => none),
      (List.map (fun d => (declKey d, d)) ds).filterMap
      (fun q => match lookupMap (buildCurrentMap cs) q.1 with
        | some c =>
            if compute_assistant_hash q.2 ≠ compute_assistant_hash c
            then some (c, q.2) else none
        | none => none),
      (List.map (fun d => (declKey d, d)) ds).filterMap
      (fun q => match lookupMap (buildCurrentMap cs) q.1 with
        | some c =>
            if compute_assistant_hash q.2 ≠ compute_assistant_hash c
            then none else some q.2
        | none => none)).1 =
    (List.map (fun d => (declKey d, d)) ds).filterMap
      (fun q => match lookupMap (buildCurrentMap cs) q.1 with
        | none => some q.2
        | some _ => none) from rfl]
  rw [List.filterMap_map]
  rfl

theorem detect_updated_closed (ds cs : List Record)
    (hkeys : ∀ d ∈ ds, identityKey d = some (declKey d))
    (hdnd : (ds.map declKey).Nodup) :
    (detect_changes ds cs).updated = ds.filterMap (updSel cs) := by
  rw [detect_changes_updated, classify_filterMap,
    buildYamlMap_eq_map ds hkeys hdnd]
  show (List.map (fun d => (declKey d, d)) ds).filterMap
      (fun q => match lookupMap (buildCurrentMap cs) q.1 with
        | some c =>
            if compute_assistant_hash q.2 ≠ compute_assistant_hash c
            then some (c, q.2) else none
        | none => none) = _
  rw [List.filterMap_map]
  rfl

theorem detect_unchanged_closed (ds cs : List Record)
    (hkeys : ∀ d ∈ ds, identityKey d = some (declKey d))
    (hdnd : (ds.map declKey).Nodup) :
    (detect_changes ds cs).unchanged = ds.filterMap (unchSel cs) := by
  rw [detect_changes_unchanged, classify_filterMap,
    buildYamlMap_eq_map ds hkeys hdnd]
  show (List.map (fun d => (declKey d, d)) ds).filterMap
      (fun q => match lookupMap (buildCurrentMap cs) q.1 with
        | some c =>
            if compute_assistant_hash q.2 ≠ compute_assistant_hash c
            then none else some q.2
        | none => none) = _
  rw [List.filterMap_map]
  rfl

theorem newOps_mem {now : String} {L : List Record} {op : Operation}
    (h : op ∈ newOps now L) :
    ∃ a ∈ L, op = Operation.mk OpAction.insert none (newInsertData a now) := by
  induction L with
  | nil => cases h
  | cons a rest ih =>
      rcases List.mem_cons.mp h with h1 | h1
      · exact ⟨a, List.mem_cons_self _ _, h1⟩
      · obtain ⟨b, hb, he⟩ := ih h1
        exact ⟨b, List.mem_cons_of_mem _ hb, he⟩

theorem updatedOps_mem {now : String} {L : List (Record × Record)} {op : Operation}
    (h : op ∈ updatedOps now L) :
    (∃ p ∈ L, op = Operation.mk OpAction.update
      (some (pyGet p.1 "id" Val.vNull)) (deactData now)) ∨
    (∃ p ∈ L, op = Operation.mk OpAction.insert none (succInsertData p.1 p.2 now)) := by
  induction L with
  | nil => cases h
  | cons p rest ih =>
      rcases List.mem_cons.mp h with h1 | h1
      · exact Or.inl ⟨p, List.mem_cons_self _ _, h1⟩
      · rcases List.mem_cons.mp h1 with h2 | h2
        · exact Or.inr ⟨p, List.mem_cons_self _ _, h2⟩
        · rcases ih h2 with ⟨q, hq, he⟩ | ⟨q, hq, he⟩
          · exact Or.inl ⟨q, List.mem_cons_of_mem _ hq, he⟩
          · exact Or.inr ⟨q, List.mem_cons_of_mem _ hq, he⟩

theorem deletedOps_mem {now : String} {L : List Record} {op : Operation}
    (h : op ∈ deletedOps now L) :
    ∃ c ∈ L, op = Operation.mk OpAction.update
      (some (pyGet c "id" Val.vNull)) (deleteData now) := by
  induction L with
  | nil => cases h
  | cons c rest ih =>
      rcases List.mem_cons.mp h with h1 | h1
      · exact ⟨c, List.mem_cons_self _ _, h1⟩
      · obtain ⟨b, hb, he⟩ := ih h1
        exact ⟨b, List.mem_cons_of_mem _ hb, he⟩

theorem steps_mem {ch : Changes} {now : String} {p : Val × Record}
    (h : p ∈ updateSteps (planOperations ch now)) :
    (∃ q ∈ ch.updated, p = (pyGet q.1 "id" Val.vNull, deactData now)) ∨
    (∃ c ∈ ch.deleted, p = (pyGet c "id" Val.vNull, deleteData now)) := by
  rw [planOperations_updateSteps] at h
  rcases List.mem_append.mp h with h1 | h1
  · obtain ⟨q, hq, he⟩ := List.mem_map.mp h1
    exact Or.inl ⟨q, hq, he.symm⟩
  · obtain ⟨c, hc, he⟩ := List.mem_map.mp h1
    exact Or.inr ⟨c, hc, he.symm⟩

theorem newSel_inv {cs : List Record} {e a : Record} (h : newSel cs e = some a) :
    a = e ∧ lookupMap (buildCurrentMap cs) (declKey e) = none := by
  unfold newSel at h
  cases hl : lookupMap (buildCurrentMap cs) (declKey e) with
  | none =>
      rw [hl] at h
      exact ⟨(Option.some.inj h).symm, rfl⟩
  | some c =>
      rw [hl] at h
      cases h

theorem updSel_inv {cs : List Record} {e : Record} {pr : Record × Record}
    (h : updSel cs e = some pr) :
    lookupMap (buildCurrentMap cs) (declKey e) = some pr.1 ∧ pr.2 = e ∧
      compute_assistant_hash e ≠ compute_assistant_hash pr.1 := by
  unfold updSel at h
  cases hl : lookupMap (buildCurrentMap cs) (declKey e) with
  | none =>
      rw [hl] at h
      cases h
  | some c =>
      rw [hl] at h
      have h2 : (if compute_assistant_hash e ≠ compute_assistant_hash c
          then some (c, e) else none) = some pr := h
      by_cases hh : compute_assistant_hash e ≠ compute_assistant_hash c
      · rw [if_pos hh] at h2
        have hpr := (Option.some.inj h2).symm
        rw [hpr]
        exact ⟨rfl, rfl, hh⟩
      · rw [if_neg hh] at h2
        cases h2

theorem unchSel_inv {cs : List Record} {e a : Record} (h : unchSel cs e = some a) :
    a = e ∧ ∃ c, lookupMap (buildCurrentMap cs) (declKey e) = some c ∧
      compute_assistant_hash e = compute_assistant_hash c := by
  unfold unchSel at h
  cases hl : lookupMap (buildCurrentMap cs) (declKey e) with
  | none =>
      rw [hl] at h
      cases h
  | some c =>
      rw [hl] at h
      have h2 : (if compute_assistant_hash e ≠ compute_assistant_hash c
          then none else some e) = some a := h
      by_cases hh : compute_assistant_hash e ≠ compute_assistant_hash c
      · rw [if_pos hh] at h2
        cases h2
      · rw [if_neg hh] at h2
        refine ⟨(Option.some.inj h2).symm, c, rfl, ?_⟩
        by_contra hcon
        exact hh hcon

theorem steps_override_id {ch : Changes} {now : String} {p : Val × Record}
    (hp : p ∈ updateSteps (planOperations ch now)) :
    overrideVal p.2 "id" = none := by
  rcases steps_mem hp with ⟨q, _, he⟩ | ⟨c, _, he⟩
  · rw [he]
    exact overrideVal_deact_id now
  · rw [he]
    exact overrideVal_delete_id now

theorem steps_data_cases {ch : Changes} {now : String} {p : Val × Record}
    (hp : p ∈ updateSteps (planOperations ch now)) :
    p.2 = deactData now ∨ p.2 = deleteData now := by
  rcases steps_mem hp with ⟨q, _, he⟩ | ⟨c, _, he⟩
  · exact Or.inl (by rw [he])
  · exact Or.inr (by rw [he])

theorem steps_targets_nodup (ds cs : List Record) (now : String)
    (hkeys : ∀ d ∈ ds, identityKey d = some (declKey d))
    (hdnd : (ds.map declKey).Nodup)
    (hcid : ∀ c ∈ cs, ∃ v, v ≠ Val.vNull ∧ rget c "id" = some v)
    (hcidnd : (cs.map (fun c => rget c "id")).Nodup) :
    ((updateSteps (planOperations (detect_changes ds cs) now)).map Prod.fst).Nodup := by
  have hcinv := buildCurrentMap_inv cs
  have holds_keys : (((detect_changes ds cs).updated.map Prod.fst).map identityKey).Nodup := by
    have hsub := classify_updated_olds_keys (buildCurrentMap cs)
      (fun p hp => (hcinv p hp).1) (buildYamlMap ds)
    rw [← detect_changes_updated] at hsub
    have hnodup := mapKeys_some_nodup (buildYamlMap_keys_nodup ds)
    have := hnodup.sublist hsub
    rw [List.map_map]
    exact this
  have hdels_keys : (((detect_changes ds cs).deleted).map identityKey).Nodup := by
    have hsub := selectDeleted_keys (buildYamlMap ds) (buildCurrentMap cs)
      (fun p hp => (hcinv p hp).1)
    rw [← detect_changes_deleted] at hsub
    exact (mapKeys_some_nodup (buildCurrentMap_keys_nodup cs)).sublist hsub
  have hdisj : (((detect_changes ds cs).updated.map Prod.fst).map identityKey).Disjoint
      (((detect_changes ds cs).deleted).map identityKey) := by
    intro x hx1 hx2
    obtain ⟨o, ho, hoe⟩ := List.mem_map.mp hx1
    obtain ⟨q, hq, hqe⟩ := List.mem_map.mp ho
    obtain ⟨c, hc, hce⟩ := List.mem_map.mp hx2
    rw [detect_changes_deleted] at hc
    obtain ⟨k, hkm, hky⟩ := selectDeleted_iff.mp hc
    have hck : identityKey c = some k := (hcinv (k, c) hkm).1
    rw [detect_updated_closed ds cs hkeys hdnd] at hq
    obtain ⟨e, he, hse⟩ := List.mem_filterMap.mp hq
    obtain ⟨hle, _, _⟩ := updSel_inv hse
    have hoinv := (hcinv (declKey e, q.1) (lookupMap_mem hle)).1
    have hxk : x = some k := by rw [← hce, hck]
    have hxk2 : x = some (declKey e) := by rw [← hoe, ← hqe, hoinv]
    have hkk : k = declKey e := by
      rw [hxk] at hxk2
      exact Option.some.inj hxk2
    rw [hkk] at hky
    rw [show mapHasKey (buildYamlMap ds) (declKey e) = true from
      (buildYamlMap_hasKey ds (declKey e)).mpr ⟨e, he, hkeys e he⟩] at hky
    cases hky
  have hcomb : ((((detect_changes ds cs).updated.map Prod.fst) ++
      (detect_changes ds cs).deleted).map identityKey).Nodup := by
    rw [List.map_append]
    exact List.Nodup.append holds_keys hdels_keys hdisj
  have hlist_nodup : (((detect_changes ds cs).updated.map Prod.fst) ++
      (detect_changes ds cs).deleted).Nodup :=
    List.Nodup.of_map identityKey hcomb
  have hsubcs : ∀ o ∈ (((detect_changes ds cs).updated.map Prod.fst) ++
      (detect_changes ds cs).deleted), o ∈ cs := by
    intro o ho
    rcases List.mem_append.mp ho with h1 | h1
    · obtain ⟨q, hq, hqe⟩ := List.mem_map.mp h1
      rw [detect_updated_closed ds cs hkeys hdnd] at hq
      obtain ⟨e, he, hse⟩ := List.mem_filterMap.mp hq
      obtain ⟨hle, _, _⟩ := updSel_inv hse
      rw [← hqe]
      exact (hcinv (declKey e, q.1) (lookupMap_mem hle)).2.2
    · rw [detect_changes_deleted] at h1
      obtain ⟨k, hkm, _⟩ := selectDeleted_iff.mp h1
      exact (hcinv (k, o) hkm).2.2
  have hmapped : ((((detect_changes ds cs).updated.map Prod.fst) ++
      (detect_changes ds cs).deleted).map (fun o => pyGet o "id" Val.vNull)).Nodup := by
    apply List.Nodup.map_on ?_ hlist_nodup
    intro x hx y hy hxy
    obtain ⟨vx, _, hvx⟩ := hcid x (hsubcs x hx)
    obtain ⟨vy, _, hvy⟩ := hcid y (hsubcs y hy)
    have hrx : rget x "id" = rget y "id" := by
      rw [hvx, hvy]
      unfold pyGet at hxy
      rw [hvx, hvy] at hxy
      simp at hxy
      rw [hxy]
    exact List.inj_on_of_nodup_map hcidnd (hsubcs x hx) (hsubcs y hy) hrx
  rw [planOperations_updateSteps, List.map_append, List.map_map, List.map_map]
  rw [List.map_append] at hmapped
  rw [List.map_map] at hmapped
  exact hmapped

theorem liveKeyed_newInsertData (k : Val) (a : Record) (now : String)
    (hname : ∃ s, s ≠ "" ∧ rget a "name" = some (Val.vStr s))
    (hdd : rget a "dateDeleted" = none) :
    liveKeyed k (newInsertData a now) = decide (declKey a = k) := by
  unfold liveKeyed
  rw [isLive_newInsertData a now hdd, identityKey_newInsertData,
    identityKey_eq_declKey hname]
  simp

theorem liveKeyed_succInsertData (k : Val) (old nw : Record) (now : String)
    (hname : ∃ s, s ≠ "" ∧ rget nw "name" = some (Val.vStr s))
    (hdd : rget nw "dateDeleted" = none) :
    liveKeyed k (succInsertData old nw now) = decide (declKey nw = k) := by
  unfold liveKeyed
  rw [isLive_succInsertData old nw now hdd, identityKey_succInsertData,
    identityKey_eq_declKey hname]
  simp

theorem inserts_filter (ds cs : List Record) (now : String)
    (hdrec : ∀ e ∈ ds, (∃ s, s ≠ "" ∧ rget e "name" = some (Val.vStr s)) ∧
      rget e "id" = none ∧ rget e "dateDeleted" = none)
    (hdnd : (ds.map declKey).Nodup)
    {d : Record} (hd : d ∈ ds) :
    (insertDatas (planOperations (detect_changes ds cs) now)).filter
        (liveKeyed (declKey d)) =
      ((newSel cs d).map (fun a => newInsertData a now)).toList ++
      ((updSel cs d).map (fun p => succInsertData p.1 p.2 now)).toList := by
  have hkeys : ∀ e ∈ ds, identityKey e = some (declKey e) :=
    fun e he => identityKey_eq_declKey (hdrec e he).1
  rw [planOperations_insertDatas, List.filter_append]
  have hnewpart : ((detect_changes ds cs).new.map
      (fun a => newInsertData a now)).filter (liveKeyed (declKey d)) =
      ((newSel cs d).map (fun a => newInsertData a now)).toList := by
    rw [detect_new_closed ds cs hkeys hdnd, List.map_filterMap, filterMap_filter_comm]
    rw [filterMap_key_single hdnd hd _ (by
      intro e he hne
      cases hsel : newSel cs e with
      | none => rfl
      | some a =>
          obtain ⟨hae, _⟩ := newSel_inv hsel
          subst hae
          show (some (newInsertData a now)).filter (liveKeyed (declKey d)) = none
          rw [show (some (newInsertData a now)).filter (liveKeyed (declKey d)) =
            if liveKeyed (declKey d) (newInsertData a now) then some (newInsertData a now)
            else none from rfl]
          rw [liveKeyed_newInsertData (declKey d) a now (hdrec a he).1 (hdrec a he).2.2]
          simp [hne])]
    cases hsel : newSel cs d with
    | none => rfl
    | some a =>
        obtain ⟨hae, _⟩ := newSel_inv hsel
        subst hae
        show ((some (newInsertData a now)).filter (liveKeyed (declKey a))).toList = _
        rw [show (some (newInsertData a now)).filter (liveKeyed (declKey a)) =
          if liveKeyed (declKey a) (newInsertData a now) then some (newInsertData a now)
          else none from rfl]
        rw [liveKeyed_newInsertData (declKey a) a now (hdrec a hd).1 (hdrec a hd).2.2]
        simp
  have hupdpart : ((detect_changes ds cs).updated.map
      (fun p => succInsertData p.1 p.2 now)).filter (liveKeyed (declKey d)) =
      ((updSel cs d).map (fun p => succInsertData p.1 p.2 now)).toList := by
    rw [detect_updated_closed ds cs hkeys hdnd, List.map_filterMap, filterMap_filter_comm]
    rw [filterMap_key_single hdnd hd _ (by
      intro e he hne
      cases hsel : updSel cs e with
      | none => rfl
      | some pr =>
          obtain ⟨_, hpe, _⟩ := updSel_inv hsel
          show (some (succInsertData pr.1 pr.2 now)).filter (liveKeyed (declKey d)) = none
          rw [show (some (succInsertData pr.1 pr.2 now)).filter (liveKeyed (declKey d)) =
            if liveKeyed (declKey d) (succInsertData pr.1 pr.2 now)
            then some (succInsertData pr.1 pr.2 now) else none from rfl]
          rw [hpe, liveKeyed_succInsertData (declKey d) pr.1 e now (hdrec e he).1
            (hdrec e he).2.2]
          simp [hne])]
    cases hsel : updSel cs d with
    | none => rfl
    | some pr =>
        obtain ⟨_, hpe, _⟩ := updSel_inv hsel
        show ((some (succInsertData pr.1 pr.2 now)).filter (liveKeyed (declKey d))).toList = _
        rw [show (some (succInsertData pr.1 pr.2 now)).filter (liveKeyed (declKey d)) =
          if liveKeyed (declKey d) (succInsertData pr.1 pr.2 now)
          then some (succInsertData pr.1 pr.2 now) else none from rfl]
        rw [hpe, liveKeyed_succInsertData (declKey d) pr.1 d now (hdrec d hd).1
          (hdrec d hd).2.2]
        simp
        rw [hpe]
  rw [hnewpart, hupdpart]

theorem roundtrip_lookup (ds cs : List Record) (now : String)
    (hdrec : ∀ e ∈ ds, (∃ s, s ≠ "" ∧ rget e "name" = some (Val.vStr s)) ∧
      rget e "id" = none ∧ rget e "dateDeleted" = none)
    (hdnd : (ds.map declKey).Nodup)
    (hcid : ∀ c ∈ cs, ∃ v, v ≠ Val.vNull ∧ rget c "id" = some v)
    (hcidnd : (cs.map (fun c => rget c "id")).Nodup)
    (hclknd : ((cs.filter isLive).filterMap identityKey).Nodup)
    {d : Record} (hd : d ∈ ds) :
    ∃ r, lookupMap (buildCurrentMap (applyOperations cs
        (planOperations (detect_changes ds cs) now))) (declKey d) = some r ∧
      compute_assistant_hash d = compute_assistant_hash r := by
  have hkeys : ∀ e ∈ ds, identityKey e = some (declKey e) :=
    fun e he => identityKey_eq_declKey (hdrec e he).1
  have hins : ∀ op ∈ planOperations (detect_changes ds cs) now,
      op.action = OpAction.insert → rget op.data "id" = none := by
    intro op hop hact
    rcases List.mem_append.mp hop with h1 | h1
    · rcases List.mem_append.mp h1 with h2 | h2
      · obtain ⟨a, ha, he⟩ := newOps_mem h2
        rw [he]
        show rget (newInsertData a now) "id" = none
        rw [rget_newInsertData_carried a now "id" (by decide) (by decide) (by decide)]
        have hads : a ∈ ds := by
          rw [detect_new_closed ds cs hkeys hdnd] at ha
          obtain ⟨e, he2, hse⟩ := List.mem_filterMap.mp ha
          obtain ⟨hae, _⟩ := newSel_inv hse
          rw [hae]
          exact he2
        exact (hdrec a hads).2.1
      · rcases updatedOps_mem h2 with ⟨p, hp, he⟩ | ⟨p, hp, he⟩
        · rw [he] at hact
          exact OpAction.noConfusion hact
        · rw [he]
          show rget (succInsertData p.1 p.2 now) "id" = none
          rw [rget_succInsertData_carried p.1 p.2 now "id"
            (by decide) (by decide) (by decide) (by decide)]
          have hpds : p.2 ∈ ds := by
            rw [detect_updated_closed ds cs hkeys hdnd] at hp
            obtain ⟨e, he2, hse⟩ := List.mem_filterMap.mp hp
            obtain ⟨_, hpe, _⟩ := updSel_inv hse
            rw [hpe]
            exact he2
          exact (hdrec p.2 hpds).2.1
    · obtain ⟨c, hc, he⟩ := deletedOps_mem h1
      rw [he] at hact
      exact OpAction.noConfusion hact
  have hupdnn : ∀ p ∈ updateSteps (planOperations (detect_changes ds cs) now),
      p.1 ≠ Val.vNull := by
    intro p hp
    rcases steps_mem hp with ⟨q, hq, he⟩ | ⟨c, hc, he⟩
    · have hqcs : q.1 ∈ cs := by
        rw [detect_updated_closed ds cs hkeys hdnd] at hq
        obtain ⟨e, he2, hse⟩ := List.mem_filterMap.mp hq
        obtain ⟨hle2, _, _⟩ := updSel_inv hse
        exact ((buildCurrentMap_inv cs) (declKey e, q.1) (lookupMap_mem hle2)).2.2
      obtain ⟨v, hv, hvr⟩ := hcid q.1 hqcs
      rw [he]
      show pyGet q.1 "id" Val.vNull ≠ Val.vNull
      unfold pyGet
      rw [hvr]
      simpa using hv
    · have hccs : c ∈ cs := by
        rw [detect_changes_deleted] at hc
        obtain ⟨k, hkm, _⟩ := selectDeleted_iff.mp hc
        exact ((buildCurrentMap_inv cs) (k, c) hkm).2.2
      obtain ⟨v, hv, hvr⟩ := hcid c hccs
      rw [he]
      show pyGet c "id" Val.vNull ≠ Val.vNull
      unfold pyGet
      rw [hvr]
      simpa using hv
  have hsplit := applyOperations_split (planOperations (detect_changes ds cs) now) cs
    hins hupdnn
  have hndt := steps_targets_nodup ds cs now hkeys hdnd hcid hcidnd
  have hidt : ∀ p ∈ updateSteps (planOperations (detect_changes ds cs) now),
      overrideVal p.2 "id" = none := fun p hp => steps_override_id hp
  have hmergednl : ∀ c2 : Record, ∀ t0 d0,
      (t0, d0) ∈ updateSteps (planOperations (detect_changes ds cs) now) →
      pyGet c2 "id" Val.vNull = t0 →
      isLive (applyUpds (updateSteps (planOperations (detect_changes ds cs) now)) c2)
        = false := by
    intro c2 t0 d0 hmem hme
    rw [applyUpds_match _ c2 t0 d0 hmem hme hndt hidt]
    rcases steps_data_cases hmem with h | h
    · rw [show d0 = ((t0, d0) : Val × Record).2 from rfl, h]
      exact isLive_merge_deact c2 now
    · rw [show d0 = ((t0, d0) : Val × Record).2 from rfl, h]
      exact isLive_merge_delete c2 now
  rw [hsplit, buildCurrentMap_lookup, List.filter_append, List.filter_map]
  rw [inserts_filter ds cs now hdrec hdnd hd]
  cases hle : lookupMap (buildCurrentMap cs) (declKey d) with
  | none =>
      have hnsel : newSel cs d = some d := by
        unfold newSel
        rw [hle]
      have husel : updSel cs d = none := by
        unfold updSel
        rw [hle]
      rw [hnsel, husel]
      have hfe : cs.filter (liveKeyed (declKey d)) = [] := by
        cases hf : cs.filter (liveKeyed (declKey d)) with
        | nil => rfl
        | cons x rest =>
            exfalso
            have hsome : (cs.filter (liveKeyed (declKey d))).getLast?.isSome := by
              rw [hf]
              exact List.getLast?_isSome.mpr (by simp)
            rw [← buildCurrentMap_lookup, hle] at hsome
            cases hsome
      have hmf : cs.filter (liveKeyed (declKey d) ∘
          applyUpds (updateSteps (planOperations (detect_changes ds cs) now))) = [] := by
        rw [List.filter_eq_nil_iff]
        intro c2 hc2 hcon
        simp only [Function.comp] at hcon
        by_cases hm : ∃ p ∈ updateSteps (planOperations (detect_changes ds cs) now),
            pyGet c2 "id" Val.vNull = p.1
        · obtain ⟨p, hpm, hpe⟩ := hm
          have hnl := hmergednl c2 p.1 p.2
            (by rwa [show ((p.1, p.2) : Val × Record) = p from rfl]) hpe
          unfold liveKeyed at hcon
          rw [hnl] at hcon
          simp at hcon
        · push_neg at hm
          rw [applyUpds_no_match _ c2 hm] at hcon
          have hc2f : c2 ∈ cs.filter (liveKeyed (declKey d)) :=
            List.mem_filter.mpr ⟨hc2, hcon⟩
          rw [hfe] at hc2f
          cases hc2f
      rw [hmf]
      refine ⟨newInsertData d now, ?_, (hash_newInsertData d now).symm⟩
      simp
  | some c =>
      by_cases hh : compute_assistant_hash d ≠ compute_assistant_hash c
      · have hnsel : newSel cs d = none := by
          unfold newSel
          rw [hle]
        have husel : updSel cs d = some (c, d) := by
          unfold updSel
          rw [hle]
          exact if_pos hh
        rw [hnsel, husel]
        have hfc : cs.filter (liveKeyed (declKey d)) = [c] :=
          liveKeyed_filter_eq_single hclknd
            (by rw [← buildCurrentMap_lookup]; exact hle)
        have hcupd : (c, d) ∈ (detect_changes ds cs).updated := by
          rw [detect_updated_closed ds cs hkeys hdnd]
          exact List.mem_filterMap.mpr ⟨d, hd, husel⟩
        have hcstep : (pyGet c "id" Val.vNull, deactData now) ∈
            updateSteps (planOperations (detect_changes ds cs) now) := by
          rw [planOperations_updateSteps]
          exact List.mem_append.mpr (Or.inl (List.mem_map.mpr ⟨(c, d), hcupd, rfl⟩))
        have hmf : cs.filter (liveKeyed (declKey d) ∘
            applyUpds (updateSteps (planOperations (detect_changes ds cs) now))) = [] := by
          rw [List.filter_eq_nil_iff]
          intro c2 hc2 hcon
          simp only [Function.comp] at hcon
          by_cases hm : ∃ p ∈ updateSteps (planOperations (detect_changes ds cs) now),
              pyGet c2 "id" Val.vNull = p.1
          · obtain ⟨p, hpm, hpe⟩ := hm
            have hnl := hmergednl c2 p.1 p.2
              (by rwa [show ((p.1, p.2) : Val × Record) = p from rfl]) hpe
            unfold liveKeyed at hcon
            rw [hnl] at hcon
            simp at hcon
          · push_neg at hm
            rw [applyUpds_no_match _ c2 hm] at hcon
            have hc2f : c2 ∈ cs.filter (liveKeyed (declKey d)) :=
              List.mem_filter.mpr ⟨hc2, hcon⟩
            rw [hfc] at hc2f
            have hc2c : c2 = c := List.mem_singleton.mp hc2f
            exact hm (pyGet c "id" Val.vNull, deactData now) hcstep (by rw [hc2c])
        rw [hmf]
        refine ⟨succInsertData c d now, ?_, (hash_succInsertData c d now).symm⟩
        simp
      · have hheq : compute_assistant_hash d = compute_assistant_hash c := by
          by_contra hcon
          exact hh hcon
        have hnsel : newSel cs d = none := by
          unfold newSel
          rw [hle]
        have husel : updSel cs d = none := by
          unfold updSel
          rw [hle]
          exact if_neg hh
        rw [hnsel, husel]
        have hfc : cs.filter (liveKeyed (declKey d)) = [c] :=
          liveKeyed_filter_eq_single hclknd
            (by rw [← buildCurrentMap_lookup]; exact hle)
        have hccs : c ∈ cs :=
          ((buildCurrentMap_inv cs) (declKey d, c) (lookupMap_mem hle)).2.2
        have hcnotm : ∀ p ∈ updateSteps (planOperations (detect_changes ds cs) now),
            pyGet c "id" Val.vNull ≠ p.1 := by
          intro p hp hcon
          rcases steps_mem hp with ⟨q, hq, he⟩ | ⟨c3, hc3, he⟩
          · rw [detect_updated_closed ds cs hkeys hdnd] at hq
            obtain ⟨e, he2, hse⟩ := List.mem_filterMap.mp hq
            obtain ⟨hle2, hq2e, hne⟩ := updSel_inv hse
            have hq1cs : q.1 ∈ cs :=
              ((buildCurrentMap_inv cs) (declKey e, q.1) (lookupMap_mem hle2)).2.2
            have hceq : c = q.1 := by
              have hpe : p.1 = pyGet q.1 "id" Val.vNull := by rw [he]
              rw [hpe] at hcon
              obtain ⟨vc, _, hvc⟩ := hcid c hccs
              obtain ⟨vq, _, hvq⟩ := hcid q.1 hq1cs
              have hr : rget c "id" = rget q.1 "id" := by
                rw [hvc, hvq]
                unfold pyGet at hcon
                rw [hvc, hvq] at hcon
                simp at hcon
                rw [hcon]
              exact List.inj_on_of_nodup_map hcidnd hccs hq1cs hr
            have h1 : identityKey c = some (declKey d) :=
              ((buildCurrentMap_inv cs) (declKey d, c) (lookupMap_mem hle)).1
            have h2 : identityKey q.1 = some (declKey e) :=
              ((buildCurrentMap_inv cs) (declKey e, q.1) (lookupMap_mem hle2)).1
            rw [← hceq] at h2
            have hkk : declKey d = declKey e := by
              rw [h1] at h2
              exact Option.some.inj h2
            have hde : e = d := List.inj_on_of_nodup_map hdnd he2 hd hkk.symm
            rw [hde] at hne
            rw [← hceq] at hne
            exact hne hheq
          · rw [detect_changes_deleted] at hc3
            obtain ⟨k3, hk3m, hk3y⟩ := selectDeleted_iff.mp hc3
            have hc3cs : c3 ∈ cs := ((buildCurrentMap_inv cs) (k3, c3) hk3m).2.2
            have hceq : c = c3 := by
              have hpe : p.1 = pyGet c3 "id" Val.vNull := by rw [he]
              rw [hpe] at hcon
              obtain ⟨vc, _, hvc⟩ := hcid c hccs
              obtain ⟨vq, _, hvq⟩ := hcid c3 hc3cs
              have hr : rget c "id" = rget c3 "id" := by
                rw [hvc, hvq]
                unfold pyGet at hcon
                rw [hvc, hvq] at hcon
                simp at hcon
                rw [hcon]
              exact List.inj_on_of_nodup_map hcidnd hccs hc3cs hr
            have h1 : identityKey c = some (declKey d) :=
              ((buildCurrentMap_inv cs) (declKey d, c) (lookupMap_mem hle)).1
            have h3 : identityKey c3 = some k3 :=
              ((buildCurrentMap_inv cs) (k3, c3) hk3m).1
            rw [← hceq] at h3
            have hkk : declKey d = k3 := by
              rw [h1] at h3
              exact Option.some.inj h3
            rw [← hkk] at hk3y
            rw [show mapHasKey (buildYamlMap ds) (declKey d) = true from
              (buildYamlMap_hasKey ds (declKey d)).mpr ⟨d, hd, hkeys d hd⟩] at hk3y
            cases hk3y
        have hmf : cs.filter (liveKeyed (declKey d) ∘
            applyUpds (updateSteps (planOperations (detect_changes ds cs) now))) =
            cs.filter (liveKeyed (declKey d)) := by
          apply List.filter_congr
          intro c2 hc2
          show liveKeyed (declKey d)
            (applyUpds (updateSteps (planOperations (detect_changes ds cs) now)) c2) =
            liveKeyed (declKey d) c2
          by_cases hm : ∃ p ∈ updateSteps (planOperations (detect_changes ds cs) now),
              pyGet c2 "id" Val.vNull = p.1
          · obtain ⟨p, hpm, hpe⟩ := hm
            have hnl := hmergednl c2 p.1 p.2
              (by rwa [show ((p.1, p.2) : Val × Record) = p from rfl]) hpe
            have hlhs : liveKeyed (declKey d)
                (applyUpds (updateSteps (planOperations (detect_changes ds cs) now)) c2)
                = false := by
              unfold liveKeyed
              rw [hnl]
              rfl
            rw [hlhs]
            cases hl2 : liveKeyed (declKey d) c2 with
            | false => rfl
            | true =>
                exfalso
                have hc2f : c2 ∈ cs.filter (liveKeyed (declKey d)) :=
                  List.mem_filter.mpr ⟨hc2, hl2⟩
                rw [hfc] at hc2f
                have hc2c : c2 = c := List.mem_singleton.mp hc2f
                rw [hc2c] at hpe
                exact hcnotm p hpm hpe
          · push_neg at hm
            rw [applyUpds_no_match _ c2 hm]
        rw [hmf, hfc]
        refine ⟨c, ?_, hheq⟩
        simp
        exact applyUpds_no_match _ c hcnotm

theorem plan_inserts_no_id (ds cs : List Record) (now : String)
    (hdrec : ∀ e ∈ ds, (∃ s, s ≠ "" ∧ rget e "name" = some (Val.vStr s)) ∧
      rget e "id" = none ∧ rget e "dateDeleted" = none)
    (hdnd : (ds.map declKey).Nodup) :
    ∀ op ∈ planOperations (detect_changes ds cs) now,
      op.action = OpAction.insert → rget op.data "id" = none := by
  have hkeys : ∀ e ∈ ds, identityKey e = some (declKey e) :=
    fun e he => identityKey_eq_declKey (hdrec e he).1
  intro op hop hact
  rcases List.mem_append.mp hop with h1 | h1
  · rcases List.mem_append.mp h1 with h2 | h2
    · obtain ⟨a, ha, he⟩ := newOps_mem h2
      rw [he]
      show rget (newInsertData a now) "id" = none
      rw [rget_newInsertData_carried a now "id" (by decide) (by decide) (by decide)]
      have hads : a ∈ ds := by
        rw [detect_new_closed ds cs hkeys hdnd] at ha
        obtain ⟨e, he2, hse⟩ := List.mem_filterMap.mp ha
        obtain ⟨hae, _⟩ := newSel_inv hse
        rw [hae]
        exact he2
      exact (hdrec a hads).2.1
    · rcases updatedOps_mem h2 with ⟨p, hp, he⟩ | ⟨p, hp, he⟩
      · rw [he] at hact
        exact OpAction.noConfusion hact
      · rw [he]
        show rget (succInsertData p.1 p.2 now) "id" = none
        rw [rget_succInsertData_carried p.1 p.2 now "id"
          (by decide) (by decide) (by decide) (by decide)]
        have hpds : p.2 ∈ ds := by
          rw [detect_updated_closed ds cs hkeys hdnd] at hp
          obtain ⟨e, he2, hse⟩ := List.mem_filterMap.mp hp
          obtain ⟨_, hpe, _⟩ := updSel_inv hse
          rw [hpe]
          exact he2
        exact (hdrec p.2 hpds).2.1
  · obtain ⟨c, hc, he⟩ := deletedOps_mem h1
    rw [he] at hact
    exact OpAction.noConfusion hact

theorem plan_targets_nonnull (ds cs : List Record) (now : String)
    (hdrec : ∀ e ∈ ds, (∃ s, s ≠ "" ∧ rget e "name" = some (Val.vStr s)) ∧
      rget e "id" = none ∧ rget e "dateDeleted" = none)
    (hdnd : (ds.map declKey).Nodup)
    (hcid : ∀ c ∈ cs, ∃ v, v ≠ Val.vNull ∧ rget c "id" = some v) :
    ∀ p ∈ updateSteps (planOperations (detect_changes ds cs) now),
      p.1 ≠ Val.vNull := by
  have hkeys : ∀ e ∈ ds, identityKey e = some (declKey e) :=
    fun e he => identityKey_eq_declKey (hdrec e he).1
  intro p hp
  rcases steps_mem hp with ⟨q, hq, he⟩ | ⟨c, hc, he⟩
  · have hqcs : q.1 ∈ cs := by
      rw [detect_updated_closed ds cs hkeys hdnd] at hq
      obtain ⟨e, he2, hse⟩ := List.mem_filterMap.mp hq
      obtain ⟨hle2, _, _⟩ := updSel_inv hse
      exact ((buildCurrentMap_inv cs) (declKey e, q.1) (lookupMap_mem hle2)).2.2
    obtain ⟨v, hv, hvr⟩ := hcid q.1 hqcs
    rw [he]
    show pyGet q.1 "id" Val.vNull ≠ Val.vNull
    unfold pyGet
    rw [hvr]
    simpa using hv
  · have hccs : c ∈ cs := by
      rw [detect_changes_deleted] at hc
      obtain ⟨k, hkm, _⟩ := selectDeleted_iff.mp hc
      exact ((buildCurrentMap_inv cs) (k, c) hkm).2.2
    obtain ⟨v, hv, hvr⟩ := hcid c hccs
    rw [he]
    show pyGet c "id" Val.vNull ≠ Val.vNull
    unfold pyGet
    rw [hvr]
    simpa using hv

theorem merged_not_live (ds cs : List Record) (now : String)
    (hdrec : ∀ e ∈ ds, (∃ s, s ≠ "" ∧ rget e "name" = some (Val.vStr s)) ∧
      rget e "id" = none ∧ rget e "dateDeleted" = none)
    (hdnd : (ds.map declKey).Nodup)
    (hcid : ∀ c ∈ cs, ∃ v, v ≠ Val.vNull ∧ rget c "id" = some v)
    (hcidnd : (cs.map (fun c => rget c "id")).Nodup)
    (c2 : Record) (q : Val × Record)
    (hqm : q ∈ updateSteps (planOperations (detect_changes ds cs) now))
    (hqe : pyGet c2 "id" Val.vNull = q.1) :
    isLive (applyUpds (updateSteps (planOperations (detect_changes ds cs) now)) c2)
      = false := by
  have hkeys : ∀ e ∈ ds, identityKey e = some (declKey e) :=
    fun e he => identityKey_eq_declKey (hdrec e he).1
  have hndt := steps_targets_nodup ds cs now hkeys hdnd hcid hcidnd
  have hidt : ∀ p ∈ updateSteps (planOperations (detect_changes ds cs) now),
      overrideVal p.2 "id" = none := fun p hp => steps_override_id hp
  rw [applyUpds_match _ c2 q.1 q.2
    (by rwa [show ((q.1, q.2) : Val × Record) = q from rfl]) hqe hndt hidt]
  rcases steps_data_cases hqm with h | h
  · rw [h]
    exact isLive_merge_deact c2 now
  · rw [h]
    exact isLive_merge_delete c2 now

theorem roundtrip_keys_declared (ds cs : List Record) (now : String)
    (hdrec : ∀ e ∈ ds, (∃ s, s ≠ "" ∧ rget e "name" = some (Val.vStr s)) ∧
      rget e "id" = none ∧ rget e "dateDeleted" = none)
    (hdnd : (ds.map declKey).Nodup)
    (hcid : ∀ c ∈ cs, ∃ v, v ≠ Val.vNull ∧ rget c "id" = some v)
    (hcidnd : (cs.map (fun c => rget c "id")).Nodup)
    (hclknd : ((cs.filter isLive).filterMap identityKey).Nodup) :
    ∀ p ∈ buildCurrentMap (applyOperations cs
        (planOperations (detect_changes ds cs) now)),
      mapHasKey (buildYamlMap ds) p.1 = true := by
  have hkeys : ∀ e ∈ ds, identityKey e = some (declKey e) :=
    fun e he => identityKey_eq_declKey (hdrec e he).1
  have hsplit := applyOperations_split (planOperations (detect_changes ds cs) now) cs
    (plan_inserts_no_id ds cs now hdrec hdnd)
    (plan_targets_nonnull ds cs now hdrec hdnd hcid)
  intro p hp
  obtain ⟨hpk, hplive, hpmem⟩ :=
    buildCurrentMap_inv (applyOperations cs
      (planOperations (detect_changes ds cs) now)) p hp
  rw [hsplit] at hpmem
  rcases List.mem_append.mp hpmem with hmem | hmem
  · obtain ⟨c2, hc2, he⟩ := List.mem_map.mp hmem
    by_cases hm : ∃ q ∈ updateSteps (planOperations (detect_changes ds cs) now),
        pyGet c2 "id" Val.vNull = q.1
    · exfalso
      obtain ⟨q, hqm, hqe⟩ := hm
      have hnl := merged_not_live ds cs now hdrec hdnd hcid hcidnd c2 q hqm hqe
      rw [he, hplive] at hnl
      cases hnl
    · push_neg at hm
      rw [applyUpds_no_match _ c2 hm] at he
      by_cases hy : mapHasKey (buildYamlMap ds) p.1 = true
      · exact hy
      · exfalso
        have hyf : mapHasKey (buildYamlMap ds) p.1 = false := by
          cases hv : mapHasKey (buildYamlMap ds) p.1 with
          | true => exact absurd hv hy
          | false => rfl
        have hlk : liveKeyed p.1 c2 = true := by
          unfold liveKeyed
          rw [he, hplive, hpk]
          simp
        have hmemf : c2 ∈ cs.filter (liveKeyed p.1) := List.mem_filter.mpr ⟨hc2, hlk⟩
        obtain ⟨c3, hc3⟩ : ∃ c3, (cs.filter (liveKeyed p.1)).getLast? = some c3 := by
          cases hgl : (cs.filter (liveKeyed p.1)).getLast? with
          | none =>
              exfalso
              rw [List.getLast?_eq_none_iff] at hgl
              rw [hgl] at hmemf
              cases hmemf
          | some c3 => exact ⟨c3, rfl⟩
        have hsingle := liveKeyed_filter_eq_single hclknd hc3
        rw [hsingle] at hmemf
        have hc2c3 : c2 = c3 := List.mem_singleton.mp hmemf
        have hlook : lookupMap (buildCurrentMap cs) p.1 = some c2 := by
          rw [buildCurrentMap_lookup, hc3, hc2c3]
        have hdel : c2 ∈ (detect_changes ds cs).deleted := by
          rw [detect_changes_deleted]
          exact selectDeleted_iff.mpr ⟨p.1, lookupMap_mem hlook, hyf⟩
        have hstep : (pyGet c2 "id" Val.vNull, deleteData now) ∈
            updateSteps (planOperations (detect_changes ds cs) now) := by
          rw [planOperations_updateSteps]
          exact List.mem_append.mpr (Or.inr (List.mem_map.mpr ⟨c2, hdel, rfl⟩))
        exact hm _ hstep rfl
  · rw [planOperations_insertDatas] at hmem
    rcases List.mem_append.mp hmem with hmem2 | hmem2
    · obtain ⟨a, ha, he⟩ := List.mem_map.mp hmem2
      have hads : a ∈ ds := by
        rw [detect_new_closed ds cs hkeys hdnd] at ha
        obtain ⟨e, he2, hse⟩ := List.mem_filterMap.mp ha
        obtain ⟨hae, _⟩ := newSel_inv hse
        rw [hae]
        exact he2
      have hk : identityKey p.2 = some (declKey a) := by
        rw [← he, identityKey_newInsertData]
        exact hkeys a hads
      rw [hpk] at hk
      rw [Option.some.inj hk]
      exact (buildYamlMap_hasKey ds (declKey a)).mpr ⟨a, hads, hkeys a hads⟩
    · obtain ⟨q, hq, he⟩ := List.mem_map.mp hmem2
      have hq2ds : q.2 ∈ ds := by
        rw [detect_updated_closed ds cs hkeys hdnd] at hq
        obtain ⟨e, he2, hse⟩ := List.mem_filterMap.mp hq
        obtain ⟨_, hq2e, _⟩ := updSel_inv hse
        rw [hq2e]
        exact he2
      have hk : identityKey p.2 = some (declKey q.2) := by
        rw [← he, identityKey_succInsertData]
        exact hkeys q.2 hq2ds
      rw [hpk] at hk
      rw [Option.some.inj hk]
      exact (buildYamlMap_hasKey ds (declKey q.2)).mpr ⟨q.2, hq2ds, hkeys q.2 hq2ds⟩

/-- Modelled from the spec: the declared and current collections of the
spec's Example 2, used to exhibit the round trip on a concrete input. -/
def rtDs : List Record := [[("name", Val.vStr "A"), ("url", Val.vStr "u2")]]

def rtCs : List Record := [[("name", Val.vStr "A"), ("url", Val.vStr "u1"),
  ("id", Val.vInt 7), ("version", Val.vInt 1), ("isActive", Val.vBool true)]]

/-- C4: plan-then-apply round trip. Running detect_changes on the declared
records against the remote state obtained by applying the planned batch
(inserts append; updates merge their payload into the record whose id
matches) yields no new, no updated and no deleted records, and reports
every declared record unchanged. The declared collection is well-formed
per the data model (non-empty names, no store-assigned ids, no deletion
stamps, unique identity keys) and so is the current one (non-null unique
ids, unique live identity keys). -/
theorem sync_roundtrip_idempotent (ds cs : List Record) (now : String)
    (hwd : wfDeclared ds) (hwc : wfCurrent cs) :
    detect_changes ds
        (applyOperations cs (planOperations (detect_changes ds cs) now)) =
      Changes.mk [] [] [] ds := by
  obtain ⟨hdrec, hdnd⟩ := hwd
  obtain ⟨hcid, hcidnd, hclknd⟩ := hwc
  have hkeys : ∀ e ∈ ds, identityKey e = some (declKey e) :=
    fun e he => identityKey_eq_declKey (hdrec e he).1
  have hym := buildYamlMap_eq_map ds hkeys hdnd
  have hall : ∀ p ∈ buildYamlMap ds, ∃ c,
      lookupMap (buildCurrentMap (applyOperations cs
        (planOperations (detect_changes ds cs) now))) p.1 = some c ∧
      compute_assistant_hash p.2 = compute_assistant_hash c := by
    intro p hp
    rw [hym] at hp
    obtain ⟨d, hd, he⟩ := List.mem_map.mp hp
    obtain ⟨r, hr, hh⟩ := roundtrip_lookup ds cs now hdrec hdnd hcid hcidnd hclknd hd
    refine ⟨r, ?_, ?_⟩
    · rw [← he]
      exact hr
    · rw [← he]
      exact hh
  have hclass := classify_all_unchanged
    (buildCurrentMap (applyOperations cs (planOperations (detect_changes ds cs) now)))
    (buildYamlMap ds) hall
  have hdel := selectDeleted_nil (buildYamlMap ds)
    (buildCurrentMap (applyOperations cs (planOperations (detect_changes ds cs) now)))
    (roundtrip_keys_declared ds cs now hdrec hdnd hcid hcidnd hclknd)
  have h1 : (detect_changes ds (applyOperations cs
      (planOperations (detect_changes ds cs) now))).new = [] := by
    rw [detect_changes_new, hclass]
  have h2 : (detect_changes ds (applyOperations cs
      (planOperations (detect_changes ds cs) now))).updated = [] := by
    rw [detect_changes_updated, hclass]
  have h3 : (detect_changes ds (applyOperations cs
      (planOperations (detect_changes ds cs) now))).deleted = [] := by
    rw [detect_changes_deleted, hdel]
  have h4 : (detect_changes ds (applyOperations cs
      (planOperations (detect_changes ds cs) now))).unchanged = ds := by
    rw [detect_changes_unchanged, hclass, hym, List.map_map]
    exact List.map_id ds
  calc detect_changes ds (applyOperations cs
      (planOperations (detect_changes ds cs) now))
      = Changes.mk
          (detect_changes ds (applyOperations cs
            (planOperations (detect_changes ds cs) now))).new
          (detect_changes ds (applyOperations cs
            (planOperations (detect_changes ds cs) now))).updated
          (detect_changes ds (applyOperations cs
            (planOperations (detect_changes ds cs) now))).deleted
          (detect_changes ds (applyOperations cs
            (planOperations (detect_changes ds cs) now))).unchanged := rfl
    _ = Changes.mk [] [] [] ds := by rw [h1, h2, h3, h4]

theorem sync_roundtrip_idempotent_witness :
    wfDeclared rtDs ∧ wfCurrent rtCs ∧
    detect_changes rtDs
        (applyOperations rtCs
          (planOperations (detect_changes rtDs rtCs) "2024-01-01T00:00:00")) =
      Changes.mk [] [] [] rtDs := by
  have hwd : wfDeclared rtDs := by
    constructor
    · intro d hd
      have hde : d = [("name", Val.vStr "A"), ("url", Val.vStr "u2")] :=
        List.mem_singleton.mp hd
      subst hde
      exact ⟨⟨"A", by decide, by decide⟩, by decide, by decide⟩
    · decide
  have hwc : wfCurrent rtCs := by
    refine ⟨?_, by decide, by decide⟩
    intro c hc
    have hce : c = [("name", Val.vStr "A"), ("url", Val.vStr "u1"),
        ("id", Val.vInt 7), ("version", Val.vInt 1), ("isActive", Val.vBool true)] :=
      List.mem_singleton.mp hc
    subst hce
    exact ⟨Val.vInt 7, by decide, by decide⟩
  exact ⟨hwd, hwc,
    sync_roundtrip_idempotent rtDs rtCs "2024-01-01T00:00:00" hwd hwc⟩
